import Mathlib

/-!
Gorillana/rpg: a shallow embedding of `game/game.go`, `game/items.go`, `game/monsters.go`

Conventions of the embedding.

* Go `int` and `rune` are modelled by `Int` (no wrap-around: the quantities of the
  game, coordinates, hitpoints, costs, stay far below `2^63`).
* A Go `float64` value (`Speed`, `ActionPoints`, item `power`) is a `Rat`; `int(f)` is
  truncation toward zero. The conversions and products of `Level.Attack` round as
  IEEE 754 binary64 does, to the nearest `float64`, ties to even (`roundFloat64`); a
  `power` stands for the `float64` nearest to it. Speeds and action points are exact
  rationals, and their sums and differences are not rounded. Infinities and NaN are not
  modelled (the quantities of the game stay far below `2^1023`).
* A Go run-time panic is the result `Outcome.panic`; a loop whose termination is not
  structural takes a fuel argument and yields `Outcome.outOfFuel` when it runs out.
* A Go map is an association list (`GoMap`), a Go slice of item pointers keeps the stale
  cells of its backing array (`Slice`), a pointer to an `Item` is the item value together
  with its address (`Item.addr`).
* `Level.Player` is a pointer to the one `Player` shared by all levels; the embedding
  keeps that player in `Game.Player` and passes the character explicitly to the `Level`
  methods that take a `*Character`. A method that updates a character returns the updated
  character; two character parameters stand for two distinct objects.
* A pointer to a `Level` is the name of the level in `Game.Levels`.
-/

namespace Rpg

/-! ## Results of fallible code -/

/-- Result of running a piece of Go code: a value, a run-time panic, or fuel exhausted. -/
inductive Outcome (α : Type) where
  | ok (a : α)
  | panic (msg : String)
  | outOfFuel
  deriving Repr, DecidableEq

/-- Sequencing of fallible code. -/
def Outcome.bind {α β : Type} (x : Outcome α) (f : α → Outcome β) : Outcome β :=
  match x with
  | .ok a => f a
  | .panic m => .panic m
  | .outOfFuel => .outOfFuel

instance : Monad Outcome where
  pure := Outcome.ok
  bind := Outcome.bind

/-! ## Go maps -/

/-- A Go map as an association list; `GoMap.set` keeps at most one entry per key. -/
abbrev GoMap (κ ν : Type) := List (κ × ν)

/-- Lookup `m[k]` with the comma-ok form: `none` when the key is absent. -/
def GoMap.get? {κ ν : Type} [DecidableEq κ] : GoMap κ ν → κ → Option ν
  | [], _ => none
  | (k', v) :: rest, k => if k' = k then some v else GoMap.get? rest k

/-- Builtin `delete(m, k)`. -/
def GoMap.delete {κ ν : Type} [DecidableEq κ] (m : GoMap κ ν) (k : κ) : GoMap κ ν :=
  m.filter (fun e => decide (e.1 ≠ k))

/-- Assignment `m[k] = v`. -/
def GoMap.set {κ ν : Type} [DecidableEq κ] (m : GoMap κ ν) (k : κ) (v : ν) : GoMap κ ν :=
  (k, v) :: GoMap.delete m k

/-! ## Go slices with their backing array -/

/-- A Go slice: `elems` are its elements (the first `len` cells of the backing array),
`spare` are the cells of the backing array from `len` up to the capacity. A cell of
`spare` is read only through another slice header that still has the old length. -/
structure Slice (α : Type) where
  elems : List α
  spare : List α
  deriving Repr, DecidableEq

/-- The nil slice. -/
def Slice.nil {α : Type} : Slice α := ⟨[], []⟩

/-- All cells of the backing array, from the slice's first cell up to its capacity. -/
def Slice.cells {α : Type} (s : Slice α) : List α := s.elems ++ s.spare

/-- Go `append(s[:i], s[i+1:]...)` for `i < len(s)`: the elements after `i` are copied
one cell down inside the same backing array; the cell that held the last element keeps
its old content and becomes the first spare cell. -/
def Slice.cut {α : Type} (s : Slice α) (i : Nat) : Slice α :=
  match s.elems.getLast? with
  | none => s
  | some last => ⟨s.elems.eraseIdx i, last :: s.spare⟩

/-- Go `append(s, x)`: written into the first spare cell when there is one, otherwise
into a fresh backing array (whose capacity beyond the new length is not modelled: no
slice header of the program can reach those cells). -/
def Slice.push {α : Type} (s : Slice α) (x : α) : Slice α :=
  ⟨s.elems ++ [x], s.spare.tail⟩

/-! ## Data model (`game.go`, `items.go`, `monsters.go`) -/

/-- Grid coordinate `Pos{X, Y}`. -/
structure Pos where
  X : Int
  Y : Int
  deriving Repr, DecidableEq

/-- Cell of the map: `Tile{Rune, OverlayRune, Visible, Seen}`. -/
structure Tile where
  Rune : Int
  OverlayRune : Int
  Visible : Bool
  Seen : Bool
  deriving Repr, DecidableEq

/-- Terrain code `'#'`. -/
def StoneWall : Int := 35
/-- Terrain code `'.'`. -/
def DirtFloor : Int := 46
/-- Overlay code `'|'`. -/
def CloseDoor : Int := 124
/-- Overlay code `'/'`. -/
def OpenDoor : Int := 47
/-- Overlay code `'u'`. -/
def UpStair : Int := 117
/-- Overlay code `'d'`. -/
def DownStair : Int := 100
/-- Terrain code of the void. -/
def Blank : Int := 0
/-- Terrain placeholder resolved at load time. -/
def Pending : Int := -1

/-- Shared part of items and characters: `Entity{Pos, Name, Rune}`. -/
structure Entity extends Pos where
  Name : String
  Rune : Int
  deriving Repr, DecidableEq

/-- Kind tag of an item (`items.go`). -/
inductive ItemType where
  | Weapon
  | Helmet
  | Other
  deriving Repr, DecidableEq

/-- An `Item` object together with its address: the program handles items through
`*Item` and compares them by address, so two items with equal fields and different
`addr` are different items. -/
structure Item extends Entity where
  addr : Nat
  Typ : ItemType
  power : Rat
  deriving Repr, DecidableEq

/-- Constructor `NewSword(p)`; `addr` is the address of the fresh object. -/
def NewSword (addr : Nat) (p : Pos) : Item :=
  { toPos := p, Name := "Sword", Rune := 115, addr := addr, Typ := .Weapon, power := 2 }

/-- Constructor `NewHelmet(p)`; `addr` is the address of the fresh object. The power
`.5` is written as the fraction 1/2 in lowest terms. -/
def NewHelmet (addr : Nat) (p : Pos) : Item :=
  { toPos := p, Name := "Helmet", Rune := 104, addr := addr, Typ := .Helmet,
    power := Rat.mk' 1 2 (by decide) (by decide) }

/-- Attributes shared by the player and the monsters. -/
structure Character extends Entity where
  Hitpoints : Int
  Strength : Int
  Speed : Rat
  ActionPoints : Rat
  SightRange : Int
  Items : Slice Item
  Helmet : Option Item
  Weapon : Option Item
  deriving Repr, DecidableEq

/-- The player: `Player{Character}`. -/
structure Player extends Character
  deriving Repr, DecidableEq

/-- A monster: `Monster{Pos, Rune, Character}`; the outer position and glyph are
fields of their own, distinct from those of the embedded character. -/
structure Monster where
  Pos : Pos
  Rune : Int
  Character : Character
  deriving Repr, DecidableEq

/-- Constructor `NewBat(p)` of `monsters.go`: the position and the glyph go to the outer
fields of the monster, the embedded character keeps the zero position and glyph. The
speed 1.5 is written as the fraction 3/2 in lowest terms. -/
def NewBat (p : Pos) : Monster :=
  { Pos := p, Rune := 66,
    Character :=
      { X := 0, Y := 0, Name := "Bat", Rune := 0, Hitpoints := 50, Strength := 1,
        Speed := Rat.mk' 3 2 (by decide) (by decide), ActionPoints := 0, SightRange := 10,
        Items := Slice.nil, Helmet := none, Weapon := none } }

/-- Constructor `NewSpider(p)` of `monsters.go`; the speed 1.1 is the fraction 11/10. -/
def NewSpider (p : Pos) : Monster :=
  { Pos := p, Rune := 83,
    Character :=
      { X := 0, Y := 0, Name := "Spider", Rune := 0, Hitpoints := 100, Strength := 5,
        Speed := Rat.mk' 11 10 (by decide) (by decide), ActionPoints := 0, SightRange := 10,
        Items := Slice.nil, Helmet := none, Weapon := none } }

/-- Constructor `NewDragon(p)` of `monsters.go`; the speed 0.8 is the fraction 4/5. -/
def NewDragon (p : Pos) : Monster :=
  { Pos := p, Rune := 68,
    Character :=
      { X := 0, Y := 0, Name := "Dragon", Rune := 0, Hitpoints := 300, Strength := 100,
        Speed := Rat.mk' 4 5 (by decide) (by decide), ActionPoints := 0, SightRange := 5,
        Items := Slice.nil, Helmet := none, Weapon := none } }

/-- Kind of the last significant event of a level. -/
inductive GameEvent where
  | Move
  | DoorOpen
  | Attack
  | Hit
  | Portal
  | Pickup
  | Drop
  deriving Repr, DecidableEq

/-- Target of a portal: `LevelPos{*Level, Pos}`; a level is referred to by its name in
`Game.Levels`. -/
structure LevelPos where
  Level : String
  Pos : Pos
  deriving Repr, DecidableEq

/-- A level (`Level` of `game.go`, without the shared `Player` pointer). -/
structure Level where
  Map : List (List Tile)
  Monsters : GoMap Pos Monster
  Items : GoMap Pos (Slice Item)
  Portals : GoMap Pos LevelPos
  Events : List String
  EventPos : Int
  Debug : GoMap Pos Bool
  LastEvent : GameEvent
  deriving Repr, DecidableEq

/-- The game: observer channels (by identity), the levels by name, the name of the
active level and the single player that every level points to. -/
structure Game where
  LevelChans : List Nat
  Levels : GoMap String Level
  CurrentLevel : String
  Player : Player
  deriving Repr, DecidableEq

/-! ## Spatial model -/

/-- Function `inRange`: evaluating `level.Map[0]` panics on a grid without rows. -/
def inRange (level : Level) (pos : Pos) : Outcome Bool :=
  match level.Map with
  | [] => .panic "index out of range"
  | row0 :: _ =>
    .ok (decide (pos.X < (row0.length : Int)) && decide (pos.Y < (level.Map.length : Int))
      && decide (pos.X ≥ 0) && decide (pos.Y ≥ 0))

/-- Indexing `level.Map[pos.Y][pos.X]`, with the bounds checks of the Go run time. -/
def tileAt (level : Level) (pos : Pos) : Outcome Tile :=
  if pos.Y < 0 ∨ pos.X < 0 then .panic "index out of range"
  else
    match level.Map.get? pos.Y.toNat with
    | none => .panic "index out of range"
    | some row =>
      match row.get? pos.X.toNat with
      | none => .panic "index out of range"
      | some t => .ok t

/-- Function `canWalk`. -/
def canWalk (level : Level) (pos : Pos) : Outcome Bool := do
  if (← inRange level pos) then
    let t ← tileAt level pos
    if t.Rune = StoneWall ∨ t.Rune = Blank then
      pure false
    else if t.OverlayRune = CloseDoor then
      pure false
    else if (GoMap.get? level.Monsters pos).isSome then
      pure false
    else
      pure true
  else
    pure false

/-- Width of the grid as `inRange` measures it: the length of row 0. -/
def Level.width (level : Level) : Nat := (level.Map.headD []).length

/-- Number of rows of the grid. -/
def Level.height (level : Level) : Nat := level.Map.length

/-- Every row is at least as long as row 0, so that `level.Map[y][x]` exists for every
position that `inRange` accepts. -/
def Level.rowsCoverWidth (level : Level) : Prop :=
  ∀ row ∈ level.Map, level.width ≤ row.length

/-- The grid is rectangular: every row has the length of row 0. -/
def Level.rectangular (level : Level) : Prop :=
  ∀ row ∈ level.Map, row.length = level.width

/-- The position lies on the grid. -/
def Level.inBounds (level : Level) (pos : Pos) : Prop :=
  0 ≤ pos.X ∧ pos.X < (level.width : Int) ∧ 0 ≤ pos.Y ∧ pos.Y < (level.height : Int)

instance (level : Level) (pos : Pos) : Decidable (level.inBounds pos) := by
  unfold Level.inBounds
  infer_instance

/-- The active level of the game (`game.CurrentLevel`), a nil pointer when the name is
not bound. -/
def Game.level (game : Game) : Outcome Level :=
  match GoMap.get? game.Levels game.CurrentLevel with
  | some level => .ok level
  | none => .panic "nil pointer dereference"

/-! ## Event log, inventory and combat -/

/-- Method `Level.AddEvent`: the write `level.Events[level.EventPos] = event` panics when
the cursor is not an index of the log. -/
def Level.AddEvent (level : Level) (event : String) : Outcome Level :=
  if 0 ≤ level.EventPos ∧ level.EventPos < (level.Events.length : Int) then
    let events := level.Events.set level.EventPos.toNat event
    let next := level.EventPos + 1
    .ok { level with
      Events := events
      EventPos := if next = (events.length : Int) then 0 else next }
  else
    .panic "index out of range"

/-- Writes the events of a list one after the other with `AddEvent`. -/
def Level.AddEvents (level : Level) : List String → Outcome Level
  | [] => .ok level
  | e :: es => (level.AddEvent e).bind fun level1 => level1.AddEvents es

/-- The ground items `level.Items[pos]`; a missing key yields the nil slice. -/
def Level.itemsAt (level : Level) (pos : Pos) : Slice Item :=
  (GoMap.get? level.Items pos).getD Slice.nil

/-- Method `Level.DropItem`: the loop looks for the first index `i` with
`items[i] == itemToDrop`; when there is none the method just returns. -/
def Level.DropItem (level : Level) (itemToDrop : Item) (character : Character) :
    Outcome (Level × Character) :=
  let pos := character.toPos
  let items := character.Items
  let i := items.elems.indexOf itemToDrop
  if i < items.elems.length then
    let character1 := { character with Items := character.Items.cut i }
    let level1 := { level with
      Items := GoMap.set level.Items pos ((level.itemsAt pos).push itemToDrop) }
    (level1.AddEvent (character.Name ++ " dropped: " ++ itemToDrop.Name)).bind
      fun level2 => .ok (level2, character1)
  else
    .ok (level, character)

/-- Method `Level.MoveItem` (the line printed on standard output is not modelled). -/
def Level.MoveItem (level : Level) (itemToMove : Item) (character : Character) :
    Outcome (Level × Character) :=
  let pos := character.toPos
  let items := level.itemsAt pos
  let i := items.elems.indexOf itemToMove
  if i < items.elems.length then
    let level1 := { level with Items := GoMap.set level.Items pos (items.cut i) }
    let character1 := { character with Items := character.Items.push itemToMove }
    (level1.AddEvent (character.Name ++ " picked up: " ++ itemToMove.Name)).bind
      fun level2 => .ok (level2, character1)
  else
    .panic "Tried to move an item we were not on top of"

/-- Conversion `int(f)` of a `float64`: truncation toward zero. -/
def truncToInt (q : Rat) : Int :=
  if 0 ≤ q then Rat.floor q else -Rat.floor (-q)

/-- Rounding of a rational to the nearest integer, a tie going to the even one. -/
def roundHalfEven (q : Rat) : Int :=
  let n := Rat.floor q
  if q - n < 1 / 2 then n
  else if 1 / 2 < q - n then n + 1
  else if n % 2 = 0 then n
  else n + 1

/-- Exponent of the last bit of the `float64` values around `q`: a normal `float64` has a
significand of 53 bits, so the last bit is 52 places below the leading bit of `|q|`
(`Int.log 2 |q|` is the exponent `k` with `2^k ≤ |q| < 2^(k+1)`); the subnormal ones stop
at `2^-1074`. -/
def float64Exp (q : Rat) : Int := max (Int.log 2 |q| - 52) (-1074)

/-- The `float64` nearest to `q`, ties to even: the rounding that IEEE 754 binary64, and
so Go, applies to the exact result of a conversion or of one arithmetic operation. -/
def roundFloat64 (q : Rat) : Rat :=
  (roundHalfEven (q / (2 : Rat) ^ float64Exp q) : Rat) * (2 : Rat) ^ float64Exp q

/-- Conversion `float64(n)` of an `int`. -/
def float64OfInt (n : Int) : Rat := roundFloat64 (n : Rat)

/-- Product `a * b` of two `float64` values. -/
def float64Mul (a b : Rat) : Rat := roundFloat64 (a * b)

/-- Difference `a - b` of two `float64` values. -/
def float64Sub (a b : Rat) : Rat := roundFloat64 (a - b)

/-- The local `c1AttackPower` of `Level.Attack`:
`int(float64(c1AttackPower) * c1.Weapon.power)` when a weapon is equipped. The field
`power` is read as the `float64` nearest to the rational that the item holds. -/
def attackPower (c1 : Character) : Int :=
  match c1.Weapon with
  | some weapon =>
      truncToInt (float64Mul (float64OfInt c1.Strength) (roundFloat64 weapon.power))
  | none => c1.Strength

/-- The local `damage` of `Level.Attack`:
`int(float64(damage) * (1.0 - c2.Helmet.power))` when the defender wears a helmet. The
difference and the product are two operations, each rounded. -/
def attackDamage (c1 c2 : Character) : Int :=
  match c2.Helmet with
  | some helmet =>
      truncToInt (float64Mul (float64OfInt (attackPower c1))
        (float64Sub 1 (roundFloat64 helmet.power)))
  | none => attackPower c1

/-- Method `Level.Attack` for two distinct characters. The method updates the attacker
and the defender and only then logs the event, so the result has three parts: the level
after `AddEvent` (or the panic of `AddEvent`), the attacker and the defender as the method
leaves them. -/
def Level.Attack (level : Level) (c1 c2 : Character) : Outcome Level × Character × Character :=
  let c1a := { c1 with ActionPoints := c1.ActionPoints - 1 }
  let damage := attackDamage c1 c2
  let c2a := { c2 with Hitpoints := c2.Hitpoints - damage }
  let event :=
    if c2a.Hitpoints > 0 then
      c1.Name ++ "Attacked" ++ c2.Name ++ " for " ++ toString damage
    else
      c1.Name ++ " Killed " ++ c2.Name
  (level.AddEvent event, c1a, c2a)

/-- Function `equip`. -/
def equip (c : Character) (itemtoEquip : Item) : Outcome Character :=
  let i := c.Items.elems.indexOf itemtoEquip
  if i < c.Items.elems.length then
    let c1 := { c with Items := c.Items.cut i }
    if itemtoEquip.Typ = .Helmet then
      .ok { c1 with Helmet := some itemtoEquip }
    else if itemtoEquip.Typ = .Weapon then
      .ok { c1 with Weapon := some itemtoEquip }
    else
      .ok c1
  else
    .panic "someone tried to equip a thing they don't have"

/-! ## Inventory inputs of `Game.handleInput` -/

/-- The loop `for _, item := range level.Items[p.Pos]` of the `TakeAll` case. The range
expression is evaluated once: the loop runs `n` times, `n` being the length of the slice
at that moment, and iteration `j` reads cell `j` of the backing array at that moment.
`MoveItem` removes items inside that same backing array, so the cell is read from the
cells of the current `level.Items[pos]`; `todo` counts the iterations that remain. -/
def takeAllLoop (pos : Pos) : Nat → Nat → Level → Character → Outcome (Level × Character)
  | 0, _, level, character => .ok (level, character)
  | todo + 1, j, level, character =>
    match (level.itemsAt pos).cells.get? j with
    | none => .panic "index out of range"
    | some item =>
      (level.MoveItem item character).bind
        fun r => takeAllLoop pos todo (j + 1) r.1 r.2

/-- Writes the level behind `game.CurrentLevel` and the player back into the game. -/
def Game.store (game : Game) (level : Level) (character : Character) : Game :=
  { game with
    Levels := GoMap.set game.Levels game.CurrentLevel level
    Player := { toCharacter := character } }

/-- Case `TakeAll` of `Game.handleInput`. -/
def Game.handleTakeAll (game : Game) : Outcome Game :=
  game.level.bind fun level =>
    let p := game.Player
    (takeAllLoop p.toPos (level.itemsAt p.toPos).elems.length 0 level p.toCharacter).bind
      fun r => .ok (game.store { r.1 with LastEvent := .Pickup } r.2)

/-- Case `TakeItem` of `Game.handleInput`. -/
def Game.handleTakeItem (game : Game) (item : Item) : Outcome Game :=
  game.level.bind fun level =>
    (level.MoveItem item game.Player.toCharacter).bind
      fun r => .ok (game.store { r.1 with LastEvent := .Pickup } r.2)

/-- Case `EquipItem` of `Game.handleInput`. -/
def Game.handleEquipItem (game : Game) (item : Item) : Outcome Game :=
  game.level.bind fun level =>
    (equip game.Player.toCharacter item).bind
      fun c => .ok (game.store level c)

/-- Case `DropItem` of `Game.handleInput`. -/
def Game.handleDropItem (game : Game) (item : Item) : Outcome Game :=
  game.level.bind fun level =>
    (level.DropItem item game.Player.toCharacter).bind
      fun r => .ok (game.store { r.1 with LastEvent := .Drop } r.2)

/-! ## Pathfinding -/

/-- Function `getNeighbors`: the walkable ones among right, left, up, down, in that order. -/
def getNeighbors (level : Level) (pos : Pos) : Outcome (List Pos) :=
  let left : Pos := ⟨pos.X - 1, pos.Y⟩
  let right : Pos := ⟨pos.X + 1, pos.Y⟩
  let up : Pos := ⟨pos.X, pos.Y - 1⟩
  let down : Pos := ⟨pos.X, pos.Y + 1⟩
  (canWalk level right).bind fun r =>
  (canWalk level left).bind fun l =>
  (canWalk level up).bind fun u =>
  (canWalk level down).bind fun d =>
  .ok ((if r then [right] else []) ++ (if l then [left] else [])
    ++ (if u then [up] else []) ++ (if d then [down] else []))

/-- Modelled from the spec: the type `pqueue` with its methods `push` and `pop`, which
`aStar` uses as its frontier, is not among the sources. The spec calls it a min-priority
structure whose tie-breaking is left to the implementation, so an implementation is a
parameter: a carrier, the empty queue `make(pqueue, 0, 8)`, `push`, `pop` and `len`. -/
structure PQueueImpl where
  Q : Type
  empty : Q
  push : Q → Pos → Int → Q
  pop : Q → Q × Pos
  len : Q → Nat

/-- Modelled from the spec: the contract of a min-priority frontier. The queue holds a
multiset of entries (position, priority); `push` adds one entry, `len` counts them, and
`pop` on a non-empty queue removes one entry whose priority is minimal and returns its
position. Which of several minimal entries is popped is not fixed. -/
def PQueueImpl.PopsMinimum (pq : PQueueImpl) : Prop :=
  ∃ entries : pq.Q → Multiset (Pos × Int),
    entries pq.empty = 0 ∧
    (∀ q p pr, entries (pq.push q p pr) = (p, pr) ::ₘ entries q) ∧
    (∀ q, pq.len q = Multiset.card (entries q)) ∧
    (∀ q, entries q ≠ 0 → ∃ pr, entries q = ((pq.pop q).2, pr) ::ₘ entries (pq.pop q).1 ∧
      ∀ e ∈ entries q, pr ≤ e.2)

/-- Modelled from the spec: the part of the contract of the frontier that does not
depend on the priorities. The queue holds a multiset of entries; `push` adds one entry,
`len` counts them, and `pop` on a non-empty queue removes one entry and returns its
position. -/
def PQueueImpl.IsQueue (pq : PQueueImpl) : Prop :=
  ∃ entries : pq.Q → Multiset (Pos × Int),
    entries pq.empty = 0 ∧
    (∀ q p pr, entries (pq.push q p pr) = (p, pr) ::ₘ entries q) ∧
    (∀ q, pq.len q = Multiset.card (entries q)) ∧
    (∀ q, entries q ≠ 0 → ∃ pr, entries q = ((pq.pop q).2, pr) ::ₘ entries (pq.pop q).1)

/-- The first entry of least priority among `e` and the entries of the list. -/
def leastEntry : (Pos × Int) → List (Pos × Int) → (Pos × Int)
  | e, [] => e
  | e, e2 :: rest => if e.2 ≤ (leastEntry e2 rest).2 then e else leastEntry e2 rest

/-- The list without the first entry equal to `m`. -/
def removeEntry (m : Pos × Int) : List (Pos × Int) → List (Pos × Int)
  | [] => []
  | e :: rest => if e = m then rest else e :: removeEntry m rest

/-- Modelled from the spec: one min-priority frontier, a list of entries in insertion
order whose `pop` removes the first entry of least priority. -/
def listPQ : PQueueImpl where
  Q := List (Pos × Int)
  empty := []
  push := fun q p pr => q ++ [(p, pr)]
  pop := fun q =>
    match q with
    | [] => ([], ⟨0, 0⟩)
    | e :: rest => (removeEntry (leastEntry e rest) (e :: rest), (leastEntry e rest).1)
  len := fun q => q.length

/-- The three locals of `aStar` that its loop updates. -/
structure AStarState (Q : Type) where
  frontier : Q
  cameFrom : GoMap Pos Pos
  costSoFar : GoMap Pos Int

/-- Body of the loop `for _, next := range getNeighbors(level, current)` of `aStar`.
A missing key of `costSoFar` reads as 0; `int(math.Abs(float64(d)))` is the absolute
value of `d`. -/
def aStarVisit (pq : PQueueImpl) (goal current : Pos) (st : AStarState pq.Q) (next : Pos) :
    AStarState pq.Q :=
  let newCost := (GoMap.get? st.costSoFar current).getD 0 + 1
  let improves :=
    match GoMap.get? st.costSoFar next with
    | none => true
    | some c => decide (newCost < c)
  if improves then
    let xDist : Int := (goal.X - next.X).natAbs
    let yDist : Int := (goal.Y - next.Y).natAbs
    let priority := newCost + xDist + yDist
    { frontier := pq.push st.frontier next priority
      cameFrom := GoMap.set st.cameFrom next current
      costSoFar := GoMap.set st.costSoFar next newCost }
  else
    st

/-- The path reconstruction of `aStar`: the loop `for p != start` that follows
`cameFrom` (a missing key reads as the zero position), the final append of `start` and
the in-place reversal. -/
def aStarPath (cameFrom : GoMap Pos Pos) (start : Pos) : Nat → Pos → List Pos → Outcome (List Pos)
  | 0, _, _ => .outOfFuel
  | fuel + 1, p, path =>
    if p = start then
      .ok (path ++ [p]).reverse
    else
      aStarPath cameFrom start fuel ((GoMap.get? cameFrom p).getD ⟨0, 0⟩) (path ++ [p])

/-- The main loop `for len(frontier) > 0` of `aStar`; leaving the loop returns nil,
which is the empty list. -/
def aStarLoop (pq : PQueueImpl) (level : Level) (start goal : Pos) :
    Nat → AStarState pq.Q → Outcome (List Pos)
  | 0, _ => .outOfFuel
  | fuel + 1, st =>
    if pq.len st.frontier = 0 then
      .ok []
    else
      let popped := pq.pop st.frontier
      let current := popped.2
      if current = goal then
        aStarPath st.cameFrom start fuel current []
      else
        (getNeighbors level current).bind fun neighbors =>
          aStarLoop pq level start goal fuel
            (neighbors.foldl (aStarVisit pq goal current) { st with frontier := popped.1 })

/-- Method `Level.aStar`, with the frontier implementation and the fuel as parameters. -/
def Level.aStar (pq : PQueueImpl) (level : Level) (start goal : Pos) (fuel : Nat) :
    Outcome (List Pos) :=
  aStarLoop pq level start goal fuel
    { frontier := pq.push pq.empty start 1
      cameFrom := GoMap.set [] start start
      costSoFar := GoMap.set [] start 0 }

/-! ## Notions used to state the properties of the search -/

/-- Two positions are 4-adjacent: `q` is one step right, left, up or down of `p`. -/
def Pos.adjacent (p q : Pos) : Prop :=
  (q.X = p.X + 1 ∧ q.Y = p.Y) ∨ (q.X = p.X - 1 ∧ q.Y = p.Y) ∨
    (q.X = p.X ∧ q.Y = p.Y - 1) ∨ (q.X = p.X ∧ q.Y = p.Y + 1)

instance (p q : Pos) : Decidable (p.adjacent q) := by
  unfold Pos.adjacent
  infer_instance

/-- A route from `start` to `goal`: a list of positions that begins with `start`, ends
with `goal`, whose consecutive positions are 4-adjacent and whose positions after the
first all satisfy `canWalk`. A route of n positions has n - 1 steps. -/
def Level.isRoute (level : Level) (start goal : Pos) (r : List Pos) : Prop :=
  r.head? = some start ∧ r.getLast? = some goal ∧ r.Chain' Pos.adjacent ∧
    ∀ p ∈ r.tail, canWalk level p = .ok true

/-- Manhattan distance from `v` to the goal, the heuristic that `aStar` adds to the cost. -/
def manhattan (goal v : Pos) : Int :=
  ((goal.X - v.X).natAbs : Int) + ((goal.Y - v.Y).natAbs : Int)

/-- The positions of the grid, as `inRange` sees it. -/
def Level.cells (level : Level) : Finset Pos :=
  (Finset.range level.width ×ˢ Finset.range level.height).image
    (fun xy => (⟨(xy.1 : Int), (xy.2 : Int)⟩ : Pos))

/-- The positions that a search from `start` can give a cost to. -/
def Level.searchSpace (level : Level) (start : Pos) : Finset Pos :=
  insert start level.cells

/-- Number of positions of `U` without a cost. -/
def undefCount (U : Finset Pos) (cs : GoMap Pos Int) : Nat :=
  ∑ v ∈ U, (if GoMap.get? cs v = none then 1 else 0)

/-- Room left for the cost of `v` to decrease: the cost itself, or `M` without a cost. -/
def costSlack (M : Nat) (cs : GoMap Pos Int) (v : Pos) : Nat :=
  match GoMap.get? cs v with
  | none => M
  | some c => c.toNat

/-- Termination measure of the main loop of `aStar`: the number of frontier entries
plus twice the total slack of the costs. -/
def searchMeasure (U : Finset Pos) (n : Nat) (cs : GoMap Pos Int) : Nat :=
  n + 2 * ∑ v ∈ U, costSlack U.card cs v

/-- Invariant of the main loop of `aStar`, on the entries `E` of the frontier and the
two maps. -/
structure SearchInv (level : Level) (start : Pos) (U : Finset Pos)
    (E : Multiset (Pos × Int)) (cf : GoMap Pos Pos) (cs : GoMap Pos Int) : Prop where
  start_cost : GoMap.get? cs start = some 0
  nonneg : ∀ v c, GoMap.get? cs v = some c → 0 ≤ c
  pred : ∀ v c, GoMap.get? cs v = some c → v ≠ start →
    ∃ u cu, GoMap.get? cf v = some u ∧ GoMap.get? cs u = some cu ∧ cu + 1 ≤ c ∧
      u.adjacent v ∧ canWalk level v = .ok true
  entry : ∀ e ∈ E, ∃ c, GoMap.get? cs e.1 = some c ∧ c ≤ e.2
  inU : ∀ v c, GoMap.get? cs v = some c → v ∈ U
  bound : ∀ v c, GoMap.get? cs v = some c → c + 1 + (undefCount U cs : Int) ≤ (U.card : Int)

/-- How the frontier entries and the costs evolve: costs only decrease, entries are only
added, and a cost that changed has an entry of priority at most cost plus heuristic. -/
def SearchMono (goal : Pos) (E : Multiset (Pos × Int)) (cs : GoMap Pos Int)
    (E1 : Multiset (Pos × Int)) (cs1 : GoMap Pos Int) : Prop :=
  (∀ w c, GoMap.get? cs w = some c → ∃ c1, GoMap.get? cs1 w = some c1 ∧ c1 ≤ c) ∧
  (∀ e ∈ E, e ∈ E1) ∧
  (∀ w c1, GoMap.get? cs1 w = some c1 →
    GoMap.get? cs w = some c1 ∨ ∃ pr, (w, pr) ∈ E1 ∧ pr ≤ c1 + manhattan goal w)

/-- Invariant of the main loop of `aStar` along a route `v 0, ..., v k` to the goal: a
position of the route whose cost is at most its index either still has a frontier entry
of priority at most index plus heuristic, or its successor on the route has a cost of at
most its own index. -/
def RouteInv (goal : Pos) (v : Nat → Pos) (k : Nat) (E : Multiset (Pos × Int))
    (cs : GoMap Pos Int) : Prop :=
  ∀ i : Nat, i ≤ k → ∀ c : Int, GoMap.get? cs (v i) = some c → c ≤ (i : Int) →
    (∃ pr, (v i, pr) ∈ E ∧ pr ≤ (i : Int) + manhattan goal (v i)) ∨
    (i < k ∧ ∃ c1, GoMap.get? cs (v (i + 1)) = some c1 ∧ c1 ≤ (i : Int) + 1)

/-! ## Field of view (`canSeeThrough`, `bresenham`, `lineOfSight`) -/

/-- Function `canSeeThrough`. -/
def canSeeThrough (level : Level) (pos : Pos) : Outcome Bool :=
  (inRange level pos).bind fun inside =>
    if inside then
      (tileAt level pos).bind fun t =>
        if t.Rune = StoneWall ∨ t.Rune = Blank then
          .ok false
        else if t.OverlayRune = CloseDoor then
          .ok false
        else
          .ok true
    else
      .ok false

/-- The grid after the assignment `level.Map[pos.Y][pos.X] = t`, for a position whose
tile exists. -/
def setTile (grid : List (List Tile)) (pos : Pos) (t : Tile) : List (List Tile) :=
  grid.set pos.Y.toNat ((grid.getD pos.Y.toNat []).set pos.X.toNat t)

/-- The two assignments `level.Map[pos.Y][pos.X].Visible = true` and
`level.Map[pos.Y][pos.X].Seen = true` of `bresenham`, with the bounds checks of the Go
run time. -/
def markTile (level : Level) (pos : Pos) : Outcome Level :=
  (tileAt level pos).bind fun t =>
    .ok { level with Map := setTile level.Map pos { t with Visible := true, Seen := true } }

/-- The two loops of `bresenham`, which differ only in the direction of `x`: `xstep` is
-1 for the loop `for x := start.X; x > end.X; x--` and 1 for the loop
`for x := start.X; x < end.X; x++`. The first argument counts the iterations that
remain, the next three are the locals `x`, `y` and `err`. -/
def bresenhamLoop (steep : Bool) (deltaX deltaY ystep xstep : Int) :
    Nat → Int → Int → Int → Level → Outcome Level
  | 0, _, _, _, level => .ok level
  | todo + 1, x, y, err, level =>
    let pos : Pos := if steep then ⟨y, x⟩ else ⟨x, y⟩
    (markTile level pos).bind fun level1 =>
      (canSeeThrough level1 pos).bind fun through =>
        if !through then
          .ok level1
        else
          let err1 := err + deltaY
          if 2 * err1 ≥ deltaX then
            bresenhamLoop steep deltaX deltaY ystep xstep todo (x + xstep) (y + ystep)
              (err1 - deltaX) level1
          else
            bresenhamLoop steep deltaX deltaY ystep xstep todo (x + xstep) y err1 level1

/-- Method `Level.bresenham`; `math.Abs(float64(d))` of an integer `d` is its absolute
value. The loops stop before `x` reaches `end.X`. -/
def bresenham (level : Level) (start stop : Pos) : Outcome Level :=
  let steep := decide ((stop.Y - start.Y).natAbs > (stop.X - start.X).natAbs)
  let start1 : Pos := if steep then ⟨start.Y, start.X⟩ else start
  let stop1 : Pos := if steep then ⟨stop.Y, stop.X⟩ else stop
  let deltaY : Int := (stop1.Y - start1.Y).natAbs
  let ystep : Int := if start1.Y ≥ stop1.Y then -1 else 1
  if start1.X > stop1.X then
    bresenhamLoop steep (start1.X - stop1.X) deltaY ystep (-1) (start1.X - stop1.X).toNat
      start1.X start1.Y 0 level
  else
    bresenhamLoop steep (stop1.X - start1.X) deltaY ystep 1 (stop1.X - start1.X).toNat
      start1.X start1.Y 0 level

/-- The integers `lo, lo + 1, ..., lo + n - 1`. -/
def intsFrom (lo : Int) (n : Nat) : List Int :=
  (List.range n).map fun i => lo + (i : Int)

/-- The end points of the rays that `lineOfSight` casts, in the order of its two loops:
`y` from `pos.Y - dist` to `pos.Y + dist`, inside it `x` from `pos.X - dist` to
`pos.X + dist`, keeping the points with `math.Sqrt(float64(n)) <= float64(dist)` where
`n` is the squared distance to `pos`. On integers that test is `n ≤ dist * dist`: the
loops run only for a non-negative `dist`, and the square root is correctly rounded. -/
def sightTargets (pos : Pos) (dist : Int) : List Pos :=
  (intsFrom (pos.Y - dist) (2 * dist + 1).toNat).flatMap fun y =>
    (intsFrom (pos.X - dist) (2 * dist + 1).toNat).filterMap fun x =>
      if (pos.X - x) * (pos.X - x) + (pos.Y - y) * (pos.Y - y) ≤ dist * dist then
        some (⟨x, y⟩ : Pos)
      else
        none

/-- The calls `level.bresenham(pos, target)` for the targets of a list, in order. -/
def castRays (start : Pos) : List Pos → Level → Outcome Level
  | [], level => .ok level
  | target :: rest, level => (bresenham level start target).bind (castRays start rest)

/-- Method `Level.lineOfSight`, for the player that the level points to. -/
def Level.lineOfSight (level : Level) (player : Player) : Outcome Level :=
  castRays player.toPos (sightTargets player.toPos player.SightRange) level

/-! ## Movement (`checkDoor`, `Game.Move`, `Game.resolveMovement`) -/

/-- Function `checkDoor`: the read `level.Map[pos.Y][pos.X]` has no range check. -/
def checkDoor (level : Level) (player : Player) (pos : Pos) : Outcome Level :=
  (tileAt level pos).bind fun t =>
    if t.OverlayRune = CloseDoor then
      Level.lineOfSight
        { level with
          Map := setTile level.Map pos { t with OverlayRune := OpenDoor }
          LastEvent := .DoorOpen }
        player
    else
      .ok level

/-- The player after the assignment `player.Pos = pos`. -/
def Player.moveTo (player : Player) (pos : Pos) : Player :=
  { player with X := pos.X, Y := pos.Y }

/-- The loops of `Game.Move` that clear the `Visible` flag of every tile. -/
def clearVisible (grid : List (List Tile)) : List (List Tile) :=
  grid.map fun row => row.map fun t => { t with Visible := false }

/-- Method `Game.Move`, whose parameter `to` is called `dest` here (the line printed on
standard output is not modelled). A key of
`level.Portals` holds a non-nil `*LevelPos`; the assignment through
`game.CurrentLevel.Player` dereferences the linked level. -/
def Game.Move (game : Game) (dest : Pos) : Outcome Game :=
  game.level.bind fun level =>
    match GoMap.get? level.Portals dest with
    | some levelAndPos =>
      match GoMap.get? game.Levels levelAndPos.Level with
      | none => .panic "nil pointer dereference"
      | some _ =>
        .ok { game with
          CurrentLevel := levelAndPos.Level
          Player := game.Player.moveTo levelAndPos.Pos }
    | none =>
      let player := game.Player.moveTo dest
      let level1 := { level with
        LastEvent := .Move
        Map := clearVisible level.Map }
      (level1.lineOfSight player).bind fun level2 =>
        .ok (game.store level2 player.toCharacter)

/-- Method `Monster.Kill`: the monster leaves the map at its own position and its items
go to the ground there, each with its position updated. -/
def Monster.Kill (m : Monster) (level : Level) : Level :=
  let groundItems := m.Character.Items.elems.foldl
    (fun ground item => ground.push { item with X := m.Pos.X, Y := m.Pos.Y })
    (level.itemsAt m.Pos)
  { level with
    Monsters := GoMap.delete level.Monsters m.Pos
    Items := GoMap.set level.Items m.Pos groundItems }

/-- Method `Game.resolveMovement`. The map `level.Monsters` holds pointers: the attack
updates the monster behind the key `pos`, which the embedding writes back under that
key. -/
def Game.resolveMovement (game : Game) (pos : Pos) : Outcome Game :=
  game.level.bind fun level =>
    match GoMap.get? level.Monsters pos with
    | some monster =>
      let r := level.Attack game.Player.toCharacter monster.Character
      r.1.bind fun level1 =>
        let monster1 : Monster := { monster with Character := r.2.2 }
        let level2 := { level1 with
          Monsters := GoMap.set level1.Monsters pos monster1
          LastEvent := .Attack }
        let level3 := if monster1.Character.Hitpoints ≤ 0 then monster1.Kill level2 else level2
        if r.2.1.Hitpoints ≤ 0 then
          .panic "ded"
        else
          .ok (game.store level3 r.2.1)
    | none =>
      (canWalk level pos).bind fun walk =>
        if walk then
          game.Move pos
        else
          (checkDoor level game.Player pos).bind fun level1 =>
            .ok (game.store level1 game.Player.toCharacter)

/-! ## Inputs (`Game.handleInput`) -/

/-- Kind of an input. -/
inductive InputType where
  | None
  | Up
  | Down
  | Left
  | Right
  | TakeAll
  | TakeItem
  | DropItem
  | EquipItem
  | QuitGame
  | CloseWindow
  | MouseClick
  | Search
  deriving Repr, DecidableEq

/-- An input `Input{Typ, Item, LevelChannel}`; `none` is the nil pointer, respectively
the nil channel, and a channel is known by its identity. -/
structure Input where
  Typ : InputType
  Item : Option Item
  LevelChannel : Option Nat
  deriving Repr, DecidableEq

/-- Case `CloseWindow` of `Game.handleInput`. Closing the nil channel panics; the
observer channels of the game are open. The slice expression
`game.LevelChans[chanIndex+1:]` panics on an empty slice. -/
def Game.handleCloseWindow (game : Game) (channel : Option Nat) : Outcome Game :=
  match channel with
  | none => .panic "close of nil channel"
  | some c =>
    let i := game.LevelChans.indexOf c
    let chanIndex := if i < game.LevelChans.length then i else 0
    if chanIndex + 1 ≤ game.LevelChans.length then
      .ok { game with LevelChans := game.LevelChans.eraseIdx chanIndex }
    else
      .panic "slice bounds out of range"

/-- Method `Game.handleInput`. It first reads the player through `game.CurrentLevel`.
A nil `input.Item` is in no slice of items, so `MoveItem` and `equip` panic on it and
`DropItem` returns. -/
def Game.handleInput (game : Game) (input : Input) : Outcome Game :=
  game.level.bind fun level =>
    let p := game.Player
    match input.Typ with
    | .Up => game.resolveMovement ⟨p.X, p.Y - 1⟩
    | .Down => game.resolveMovement ⟨p.X, p.Y + 1⟩
    | .Left => game.resolveMovement ⟨p.X - 1, p.Y⟩
    | .Right => game.resolveMovement ⟨p.X + 1, p.Y⟩
    | .TakeAll => game.handleTakeAll
    | .TakeItem =>
      match input.Item with
      | some item => game.handleTakeItem item
      | none => .panic "Tried to move an item we were not on top of"
    | .EquipItem =>
      match input.Item with
      | some item => game.handleEquipItem item
      | none => .panic "someone tried to equip a thing they don't have"
    | .DropItem =>
      match input.Item with
      | some item => game.handleDropItem item
      | none => .ok (game.store { level with LastEvent := .Drop } p.toCharacter)
    | .CloseWindow => game.handleCloseWindow input.LevelChannel
    | _ => .ok game

/-! ## Monsters (`Monster.Update`, `Monster.Move`, `Monster.Pass`) and the cycle of `Game.Run` -/

/-- Method `Monster.Pass`. -/
def Monster.Pass (m : Monster) : Monster :=
  { m with
    Character :=
      { m.Character with ActionPoints := m.Character.ActionPoints - m.Character.Speed } }

/-- Method `Monster.Move`, whose parameter `to` is called `dest` here. The result is the
monster object, the level and the player as the method leaves them. `m.Name` and
`m.Hitpoints` are fields of the embedded character, `m.Pos` is the outer position. -/
def Monster.Move (m : Monster) (dest : Rpg.Pos) (level : Level) (player : Player) :
    Outcome (Monster × Level × Player) :=
  if (GoMap.get? level.Monsters dest).isNone ∧ dest ≠ player.toPos then
    let m1 : Monster := { m with Pos := dest }
    .ok (m1,
      { level with Monsters := GoMap.set (GoMap.delete level.Monsters m.Pos) dest m1 },
      player)
  else if dest = player.toPos then
    (level.AddEvent (m.Character.Name ++ " Attacks Player")).bind fun level1 =>
      let r := level1.Attack m.Character player.toCharacter
      r.1.bind fun level2 =>
        let m1 : Monster := { m with Character := r.2.1 }
        let level3 :=
          if m1.Character.Hitpoints ≤ 0 then
            { level2 with Monsters := GoMap.delete level2.Monsters m1.Pos }
          else
            level2
        if r.2.2.Hitpoints ≤ 0 then
          .panic "ded"
        else
          .ok (m1, level3, { toCharacter := r.2.2 })
  else
    .ok (m, level, player)

/-- The loop `for i := 0; i < apInt; i++` of `Monster.Update`: the first argument counts
the iterations that remain, the second is the local `moveIndex`. An iteration with
`moveIndex` past the end of the path does nothing. -/
def updateSteps (positions : List Pos) :
    Nat → Nat → Monster → Level → Player → Outcome (Monster × Level × Player)
  | 0, _, m, level, player => .ok (m, level, player)
  | todo + 1, moveIndex, m, level, player =>
    match positions.get? moveIndex with
    | none => updateSteps positions todo moveIndex m level player
    | some dest =>
      (m.Move dest level player).bind fun r =>
        let m1 : Monster :=
          { r.1 with
            Character := { r.1.Character with ActionPoints := r.1.Character.ActionPoints - 1 } }
        updateSteps positions todo (moveIndex + 1) m1 r.2.1 r.2.2

/-- The map `level.Monsters` holds pointers, so a change of a monster object shows in the
entry that points to it. The embedding holds the objects by value and keeps a monster
under the key equal to its position: the entry under `m.Pos`, when there is one, is
refreshed with the state of the object. -/
def Level.syncMonster (level : Level) (m : Monster) : Level :=
  if (GoMap.get? level.Monsters m.Pos).isSome then
    { level with Monsters := GoMap.set level.Monsters m.Pos m }
  else
    level

/-- Method `Monster.Update`, with the frontier implementation and the fuel of `aStar` as
parameters. The result is the monster object, the level (whose entry for the monster is
refreshed at the end) and the player. -/
def Monster.Update (pq : PQueueImpl) (fuel : Nat) (m : Monster) (level : Level)
    (player : Player) : Outcome (Monster × Level × Player) :=
  let m1 : Monster :=
    { m with
      Character :=
        { m.Character with ActionPoints := m.Character.ActionPoints + m.Character.Speed } }
  let playerPos := player.toPos
  let apInt := truncToInt m1.Character.ActionPoints
  (level.aStar pq m1.Pos playerPos fuel).bind fun positions =>
    if positions.length = 0 then
      let m2 := m1.Pass
      .ok (m2, level.syncMonster m2, player)
    else
      (updateSteps positions apInt.toNat 1 m1 level player).bind fun r =>
        .ok (r.1, r.2.1.syncMonster r.1, r.2.2)

/-- The loop `for _, monster := range game.CurrentLevel.Monsters` of `Game.Run`. Go
leaves the order of a range over a map open, and the body of the loop changes the map,
so the keys that the loop produces are a parameter: `order` lists them in the order of
the iteration, and a key that the map no longer holds when its turn comes yields no
monster. -/
def Game.updateMonsters (pq : PQueueImpl) (fuel : Nat) : List Pos → Game → Outcome Game
  | [], game => .ok game
  | key :: rest, game =>
    game.level.bind fun level =>
      match GoMap.get? level.Monsters key with
      | none => Game.updateMonsters pq fuel rest game
      | some m =>
        (m.Update pq fuel level game.Player).bind fun r =>
          Game.updateMonsters pq fuel rest (game.store r.2.1 r.2.2.toCharacter)

/-- One cycle of the loop of `Game.Run` for an input other than `QuitGame`: the input is
handled, then the monsters of the active level are updated (the snapshots sent to the
observers are not modelled). -/
def Game.cycle (pq : PQueueImpl) (fuel : Nat) (game : Game) (input : Input)
    (order : List Pos) : Outcome Game :=
  (game.handleInput input).bind (Game.updateMonsters pq fuel order)

/-- Several cycles of the loop of `Game.Run`, one per input, each with the order in which
its monsters are updated. -/
def Game.cycles (pq : PQueueImpl) (fuel : Nat) : List (Input × List Pos) → Game → Outcome Game
  | [], game => .ok game
  | step :: rest, game =>
    (game.cycle pq fuel step.1 step.2).bind (Game.cycles pq fuel rest)

/-! ## Notions used to state the properties of inputs, visibility and monsters -/

/-- The target of a directional input for a player at `p`, as the cases `Up`, `Down`,
`Left` and `Right` of `Game.handleInput` compute it; `none` for the other inputs. -/
def moveTarget (typ : InputType) (p : Pos) : Option Pos :=
  match typ with
  | .Up => some ⟨p.X, p.Y - 1⟩
  | .Down => some ⟨p.X, p.Y + 1⟩
  | .Left => some ⟨p.X - 1, p.Y⟩
  | .Right => some ⟨p.X + 1, p.Y⟩
  | _ => none

/-- Number of times an item lies on the ground of the level, over all positions. -/
def Level.groundCount (level : Level) (item : Item) : Nat :=
  (((level.Items.map Prod.fst).dedup).map
    fun pos => (level.itemsAt pos).elems.count item).sum

/-- Number of holders of an item: its occurrences on the ground of the level and in the
carried items of the character, plus one for each of the weapon slot and the helmet slot
that holds it. -/
def holderCount (level : Level) (c : Character) (item : Item) : Nat :=
  level.groundCount item + c.Items.elems.count item
    + (if c.Weapon = some item then 1 else 0) + (if c.Helmet = some item then 1 else 0)

/-- The player moved to the target tile: no monster, a walkable tile and no portal at the
target; afterwards the player stands on the target in the same level, whose last event
is a move. -/
def PlayerMoved (game : Game) (level : Level) (target : Pos) (game1 : Game) : Prop :=
  GoMap.get? level.Monsters target = none ∧ canWalk level target = .ok true ∧
    GoMap.get? level.Portals target = none ∧
    game1.CurrentLevel = game.CurrentLevel ∧ game1.Player.toPos = target ∧
    ∃ level1, game1.level = .ok level1 ∧ level1.LastEvent = .Move

/-- The player attacked the monster at the target: a monster is keyed there; afterwards
the player stands where it stood, in the same level, with one action point less, and the
last event of the level is an attack. -/
def PlayerAttacked (game : Game) (level : Level) (target : Pos) (game1 : Game) : Prop :=
  (∃ monster, GoMap.get? level.Monsters target = some monster) ∧
    game1.CurrentLevel = game.CurrentLevel ∧ game1.Player.toPos = game.Player.toPos ∧
    game1.Player.ActionPoints = game.Player.ActionPoints - 1 ∧
    ∃ level1, game1.level = .ok level1 ∧ level1.LastEvent = .Attack

/-- A closed door at the target was opened: no monster at the target, whose tile is not
walkable and carries a closed door; afterwards the tile carries an open door, the last
event of the level is the opening of a door and the player stands where it stood. -/
def DoorOpened (game : Game) (level : Level) (target : Pos) (game1 : Game) : Prop :=
  GoMap.get? level.Monsters target = none ∧ canWalk level target = .ok false ∧
    (∃ t, tileAt level target = .ok t ∧ t.OverlayRune = CloseDoor) ∧
    game1.CurrentLevel = game.CurrentLevel ∧ game1.Player.toPos = game.Player.toPos ∧
    ∃ level1 t1, game1.level = .ok level1 ∧ level1.LastEvent = .DoorOpen ∧
      tileAt level1 target = .ok t1 ∧ t1.OverlayRune = OpenDoor

/-- The player was teleported through a portal: no monster at the target, whose tile is
walkable and holds a portal; afterwards the active level is the linked level and the
player stands on the linked position, and no level has changed. -/
def PlayerTeleported (game : Game) (level : Level) (target : Pos) (game1 : Game) : Prop :=
  GoMap.get? level.Monsters target = none ∧ canWalk level target = .ok true ∧
    ∃ levelAndPos, GoMap.get? level.Portals target = some levelAndPos ∧
      game1.CurrentLevel = levelAndPos.Level ∧ game1.Player.toPos = levelAndPos.Pos ∧
      game1.Levels = game.Levels

/-- Nothing happened: no monster at the target, whose tile is not walkable and carries
no closed door; afterwards the player, the active level and its state are what they
were. -/
def NothingHappened (game : Game) (level : Level) (target : Pos) (game1 : Game) : Prop :=
  GoMap.get? level.Monsters target = none ∧ canWalk level target = .ok false ∧
    (∃ t, tileAt level target = .ok t ∧ t.OverlayRune ≠ CloseDoor) ∧
    game1.CurrentLevel = game.CurrentLevel ∧ game1.Player = game.Player ∧
    game1.level = .ok level

/-- The value of a computation that returned. -/
def Outcome.value? {α : Type} : Outcome α → Option α
  | .ok a => some a
  | _ => none

/-- The terrain of a tile: its terrain code and its overlay code. -/
def Tile.terrain (t : Tile) : Int × Int := (t.Rune, t.OverlayRune)

/-- Applies a function to the value of a computation that returned. -/
def Outcome.map {α β : Type} (f : α → β) : Outcome α → Outcome β
  | .ok a => .ok (f a)
  | .panic msg => .panic msg
  | .outOfFuel => .outOfFuel

/-- Two levels have the same grid up to the flags of the tiles: `inRange` agrees on them
and so do the terrain and the overlay of every tile. -/
def SameTerrain (a b : Level) : Prop :=
  (∀ p, inRange a p = inRange b p) ∧
    ∀ p, (tileAt a p).map Tile.terrain = (tileAt b p).map Tile.terrain

/-- The tile at `p` exists and is both visible and seen. -/
def Level.Marked (level : Level) (p : Pos) : Prop :=
  ∃ t, tileAt level p = .ok t ∧ t.Visible = true ∧ t.Seen = true

/-- Every tile that is seen in `a` is a seen tile of `b`. -/
def Level.SeenLE (a b : Level) : Prop :=
  ∀ p t, tileAt a p = .ok t → t.Seen = true → ∃ t1, tileAt b p = .ok t1 ∧ t1.Seen = true

/-- Every level of `g` is a level of `g1`, under the same name, that has kept its seen
tiles. -/
def Game.SeenLE (g g1 : Game) : Prop :=
  ∀ name level, GoMap.get? g.Levels name = some level →
    ∃ level1, GoMap.get? g1.Levels name = some level1 ∧ level.SeenLE level1

/-- Each monster of the level is keyed at its own position. -/
def Level.monstersKeyed (level : Level) : Prop :=
  ∀ key m, GoMap.get? level.Monsters key = some m → m.Pos = key

/-- The keys of a map, each once. -/
def GoMap.keys {κ ν : Type} [DecidableEq κ] (m : GoMap κ ν) : List κ :=
  (m.map Prod.fst).dedup

/-- Number of monsters of the level: the number of keys of its monster map. -/
def Level.monsterCount (level : Level) : Nat := (GoMap.keys level.Monsters).length

/-- Every monster of the level has positive hitpoints. -/
def Level.monstersAlive (level : Level) : Prop :=
  ∀ key m, GoMap.get? level.Monsters key = some m → 0 < m.Character.Hitpoints

/-- The position lies on the border of the grid: in the first or the last column, or in
the first or the last row. -/
def Level.onBorder (level : Level) (pos : Pos) : Prop :=
  pos.X = 0 ∨ pos.X = (level.width : Int) - 1 ∨ pos.Y = 0 ∨ pos.Y = (level.height : Int) - 1

/-- Every border tile of the grid fails `canSeeThrough`. -/
def Level.borderOpaque (level : Level) : Prop :=
  ∀ pos, level.inBounds pos → level.onBorder pos → canSeeThrough level pos = .ok false

/-- Inside the rectangle of `w` columns and `h` rows every position has a tile, and the
tiles on the border of the rectangle fail `canSeeThrough`. -/
def Level.framed (level : Level) (w h : Int) : Prop :=
  ∀ pos : Pos, 0 ≤ pos.X → pos.X < w → 0 ≤ pos.Y → pos.Y < h →
    (∃ t, tileAt level pos = .ok t) ∧
    ((pos.X = 0 ∨ pos.X = w - 1 ∨ pos.Y = 0 ∨ pos.Y = h - 1) →
      canSeeThrough level pos = .ok false)

/-! ## Concrete inputs -/

/-- A floor tile. -/
def floorTile : Tile := ⟨DirtFloor, Blank, false, false⟩

/-- A wall tile. -/
def wallTile : Tile := ⟨StoneWall, Blank, false, false⟩

/-- A level without monsters, items or portals on the given grid, with an event log of
three slots. -/
def gridLevel (grid : List (List Tile)) : Level :=
  { Map := grid, Monsters := [], Items := [], Portals := [], Events := ["", "", ""],
    EventPos := 0, Debug := [], LastEvent := .Move }

/-- A 3 by 3 room whose centre is a wall. -/
def roomLevel : Level :=
  gridLevel [[floorTile, floorTile, floorTile], [floorTile, wallTile, floorTile],
    [floorTile, floorTile, floorTile]]

/-- A character called hero at the given position: strength 5, 20 hitpoints, no gear. -/
def heroAt (p : Pos) : Character :=
  { toPos := p, Name := "hero", Rune := 64, Hitpoints := 20, Strength := 5, Speed := 1,
    ActionPoints := 0, SightRange := 7, Items := Slice.nil, Helmet := none, Weapon := none }

/-- A level on the room grid with the given items on the ground at (1, 0). -/
def itemLevel (items : List Item) : Level :=
  { roomLevel with Items := [(⟨1, 0⟩, ⟨items, []⟩)] }

/-- The level `itemLevel items` with an event log of capacity 0. -/
def noLogLevel (items : List Item) : Level :=
  { itemLevel items with Events := [] }

/-- The hero at (1, 0) carrying the given items. -/
def carrier (items : List Item) : Character :=
  { heroAt ⟨1, 0⟩ with Items := ⟨items, []⟩ }

/-- A game whose only level is `itemLevel items`, with the hero standing at (1, 0). -/
def itemGame (items : List Item) : Game :=
  { LevelChans := [0], Levels := [("level1", itemLevel items)], CurrentLevel := "level1",
    Player := { toCharacter := heroAt ⟨1, 0⟩ } }

/-- A sword created at (1, 0), at address 1. -/
def sword1 : Item := NewSword 1 ⟨1, 0⟩

/-- A helmet created at (1, 0), at address 2. -/
def helmet2 : Item := NewHelmet 2 ⟨1, 0⟩

/-- A second sword created at (1, 0), at address 3. -/
def sword3 : Item := NewSword 3 ⟨1, 0⟩

/-- A grid with a short second row: row 0 has three tiles, row 1 has one. -/
def raggedLevel : Level :=
  gridLevel [[floorTile, floorTile, floorTile], [floorTile]]

/-- A level whose grid has no rows, as an empty map file yields. -/
def emptyLevel : Level := gridLevel []

/-- The room level with a bat standing on the corner (0, 0). -/
def batLevel : Level :=
  { roomLevel with Monsters := [(⟨0, 0⟩, NewBat ⟨0, 0⟩)] }

/-- A 5 by 5 floor whose centre (2, 2) is a floor tile enclosed by four walls. -/
def cellLevel : Level :=
  gridLevel
    [[floorTile, floorTile, floorTile, floorTile, floorTile],
     [floorTile, floorTile, wallTile, floorTile, floorTile],
     [floorTile, wallTile, floorTile, wallTile, floorTile],
     [floorTile, floorTile, wallTile, floorTile, floorTile],
     [floorTile, floorTile, floorTile, floorTile, floorTile]]

/-- A 5 by 5 grid: a 3 by 3 floor inside a wall. -/
def hallGrid : List (List Tile) :=
  [[wallTile, wallTile, wallTile, wallTile, wallTile],
   [wallTile, floorTile, floorTile, floorTile, wallTile],
   [wallTile, floorTile, floorTile, floorTile, wallTile],
   [wallTile, floorTile, floorTile, floorTile, wallTile],
   [wallTile, wallTile, wallTile, wallTile, wallTile]]

/-- The level on `hallGrid`, without monsters, items or portals. -/
def hallLevel : Level := gridLevel hallGrid

/-- The hero as a player at the given position, with a sight range of 2. -/
def scout (p : Pos) : Player :=
  { toCharacter := { heroAt p with SightRange := 2 } }

/-- A game with three observers and two levels, `first` under the name a, which is the
active level, and `hallLevel` under the name b; the player is the scout at `p`. -/
def hallGame (first : Level) (p : Pos) : Game :=
  { LevelChans := [0, 1, 2], Levels := [("a", first), ("b", hallLevel)],
    CurrentLevel := "a", Player := scout p }

/-- A directional input, or any input that carries neither an item nor a channel. -/
def plainInput (typ : InputType) : Input := ⟨typ, none, none⟩

/-- The hall with a portal at (2, 1) that leads to (3, 3) of the level b. -/
def portalLevel : Level :=
  { hallLevel with Portals := [(⟨2, 1⟩, ⟨"b", ⟨3, 3⟩⟩)] }

/-- The level `portalLevel` with a bat standing on the portal at (2, 1). -/
def guardedPortalLevel : Level :=
  { portalLevel with Monsters := [(⟨2, 1⟩, NewBat ⟨2, 1⟩)] }

/-- A floor tile that is visible and seen. -/
def litTile : Tile := ⟨DirtFloor, Blank, true, true⟩
/-- The hall after `lineOfSight` for the scout at (2, 2): the player's tile and its four
neighbours are lit. -/
def litHallLevel : Level :=
  gridLevel
    [[wallTile, wallTile, wallTile, wallTile, wallTile],
     [wallTile, floorTile, litTile, floorTile, wallTile],
     [wallTile, litTile, litTile, litTile, wallTile],
     [wallTile, floorTile, litTile, floorTile, wallTile],
     [wallTile, wallTile, wallTile, wallTile, wallTile]]

/-- A game on the room level whose hero, at (1, 0), wields the sword at address 1 and
carries the given items. -/
def armedGame (items : List Item) : Game :=
  { LevelChans := [0], Levels := [("level1", roomLevel)], CurrentLevel := "level1",
    Player := { toCharacter := { carrier items with Weapon := some sword1 } } }

/-- An item of kind `Other`, at address 4. -/
def amulet4 : Item :=
  { toPos := ⟨1, 0⟩, Name := "Amulet", Rune := 97, addr := 4, Typ := .Other, power := 1 }

/-- The lit hall with a bat on the corner (3, 3) of its floor. -/
def litBatLevel : Level :=
  { litHallLevel with Monsters := [(⟨3, 3⟩, NewBat ⟨3, 3⟩)] }

/-- The hall with a bat at (2, 1). -/
def batHallLevel : Level :=
  { hallLevel with Monsters := [(⟨2, 1⟩, NewBat ⟨2, 1⟩)] }

/-- The hall with a bat at (3, 3). -/
def cornerBatLevel : Level :=
  { hallLevel with Monsters := [(⟨3, 3⟩, NewBat ⟨3, 3⟩)] }

/-- A game of two levels: the level a is `portalLevel`, whose portal at (2, 1) leads to
(3, 3) of the level b, where a bat stands; the scout is at (1, 1) of the level a. -/
def ambushGame : Game :=
  { LevelChans := [0], Levels := [("a", portalLevel), ("b", cornerBatLevel)],
    CurrentLevel := "a", Player := scout ⟨1, 1⟩ }

/-! ## Theorems -/

section Basics

@[simp] theorem Outcome.ok_bind {α β : Type} (a : α) (f : α → Outcome β) :
    (Outcome.ok a >>= f) = f a := rfl

@[simp] theorem Outcome.panic_bind {α β : Type} (m : String) (f : α → Outcome β) :
    ((Outcome.panic m : Outcome α) >>= f) = Outcome.panic m := rfl

@[simp] theorem Outcome.outOfFuel_bind {α β : Type} (f : α → Outcome β) :
    ((Outcome.outOfFuel : Outcome α) >>= f) = Outcome.outOfFuel := rfl

@[simp] theorem Outcome.pure_eq {α : Type} (a : α) : (pure a : Outcome α) = Outcome.ok a := rfl

theorem GoMap.get?_set {κ ν : Type} [DecidableEq κ] (m : GoMap κ ν) (k k' : κ) (v : ν) :
    GoMap.get? (GoMap.set m k v) k' = if k = k' then some v else GoMap.get? m k' := by
  unfold GoMap.set
  simp only [GoMap.get?]
  by_cases h : k = k'
  · simp [h]
  · simp only [h, if_false]
    induction m with
    | nil => simp [GoMap.delete, GoMap.get?]
    | cons e rest ih =>
      obtain ⟨a, b⟩ := e
      by_cases ha : a = k
      · subst ha
        simp [GoMap.delete, GoMap.get?, h] at ih ⊢
        exact ih
      · by_cases hb : a = k'
        · subst hb
          simp [GoMap.delete, GoMap.get?, ha]
        · simp [GoMap.delete, GoMap.get?, ha, hb] at ih ⊢
          exact ih

end Basics

section Spatial

theorem inRange_eq (level : Level) (pos : Pos) (hne : level.Map ≠ []) :
    inRange level pos = .ok (decide (level.inBounds pos)) := by
  unfold inRange
  split
  · rename_i hm
    exact absurd hm hne
  · rename_i row0 rest hm
    simp only [Outcome.ok.injEq]
    rw [Bool.eq_iff_iff]
    simp only [Bool.and_eq_true, decide_eq_true_eq, ge_iff_le, Level.inBounds, Level.width,
      Level.height, hm, List.headD_cons]
    constructor
    · rintro ⟨⟨⟨h1, h2⟩, h3⟩, h4⟩
      exact ⟨h3, h1, h4, h2⟩
    · rintro ⟨h3, h1, h4, h2⟩
      exact ⟨⟨⟨h1, h2⟩, h3⟩, h4⟩

theorem tileAt_of_inBounds (level : Level) (pos : Pos) (hrows : level.rowsCoverWidth)
    (hin : level.inBounds pos) : ∃ t, tileAt level pos = .ok t := by
  obtain ⟨hx0, hx1, hy0, hy1⟩ := hin
  unfold tileAt
  have hneg : ¬ (pos.Y < 0 ∨ pos.X < 0) := by omega
  rw [if_neg hneg]
  have hy : pos.Y.toNat < level.Map.length := by
    unfold Level.height at hy1
    omega
  have hrow : level.Map.get? pos.Y.toNat = some (level.Map.get ⟨pos.Y.toNat, hy⟩) :=
    List.get?_eq_get hy
  rw [hrow]
  have hlen := hrows _ (List.get_mem level.Map pos.Y.toNat hy)
  have hx : pos.X.toNat < (level.Map.get ⟨pos.Y.toNat, hy⟩).length := by omega
  have hcell := List.get?_eq_get hx
  simp only [hcell]
  exact ⟨_, rfl⟩

theorem rowsCoverWidth_of_rectangular (level : Level) (h : level.rectangular) :
    level.rowsCoverWidth := fun row hrow => le_of_eq (h row hrow).symm

theorem canWalk_total (level : Level) (pos : Pos) (hne : level.Map ≠ [])
    (hrows : level.rowsCoverWidth) : ∃ b, canWalk level pos = .ok b := by
  unfold canWalk
  rw [inRange_eq level pos hne]
  by_cases hin : level.inBounds pos
  · obtain ⟨t, ht⟩ := tileAt_of_inBounds level pos hrows hin
    simp only [hin, decide_True, Outcome.ok_bind, if_true, ht, Outcome.pure_eq]
    split_ifs <;> exact ⟨_, rfl⟩
  · simp only [hin, decide_False, Outcome.ok_bind, Outcome.pure_eq]
    exact ⟨_, rfl⟩

theorem canWalk_true_iff (level : Level) (pos : Pos) (hne : level.Map ≠ [])
    (hrows : level.rowsCoverWidth) :
    canWalk level pos = .ok true ↔
      level.inBounds pos ∧ ∃ t, tileAt level pos = .ok t ∧ t.Rune ≠ StoneWall ∧
        t.Rune ≠ Blank ∧ t.OverlayRune ≠ CloseDoor ∧ GoMap.get? level.Monsters pos = none := by
  unfold canWalk
  rw [inRange_eq level pos hne]
  by_cases hin : level.inBounds pos
  · obtain ⟨t, ht⟩ := tileAt_of_inBounds level pos hrows hin
    simp only [hin, decide_True, Outcome.ok_bind, if_true, ht, Outcome.pure_eq, true_and,
      Outcome.ok.injEq, exists_eq_left']
    split_ifs with h1 h2 h3
    · simp only [Outcome.ok.injEq, Bool.false_eq_true, false_iff]
      rintro ⟨ha, hb, _⟩
      rcases h1 with h1 | h1
      · exact ha h1
      · exact hb h1
    · simp only [Outcome.ok.injEq, Bool.false_eq_true, false_iff]
      rintro ⟨_, _, hc, _⟩
      exact hc h2
    · simp only [Outcome.ok.injEq, Bool.false_eq_true, false_iff]
      rintro ⟨_, _, _, hd⟩
      rw [hd] at h3
      simp at h3
    · simp only [true_iff]
      refine ⟨fun h => h1 (Or.inl h), fun h => h1 (Or.inr h), h2, ?_⟩
      cases hg : GoMap.get? level.Monsters pos with
      | none => rfl
      | some m => rw [hg] at h3; simp at h3
  · simp [hin]

theorem canWalk_false_of_not_inBounds (level : Level) (pos : Pos) (hne : level.Map ≠ [])
    (hout : ¬ level.inBounds pos) : canWalk level pos = .ok false := by
  unfold canWalk
  rw [inRange_eq level pos hne]
  simp [hout]


/-- C1: on a non-empty rectangular grid `canWalk` returns without a panic; it is true
exactly when the position is in range (0 <= x < width of row 0, 0 <= y < row count), the
tile's terrain is neither wall nor blank, the tile's overlay is not a closed door and no
monster is keyed at the position; it is false for every position out of range, and it is
the same for every player the game may hold. -/
theorem canWalk_spec (level : Level) (pos : Pos) (hne : level.Map ≠ [])
    (hrect : level.rectangular) :
    (∃ b, canWalk level pos = .ok b) ∧
    (canWalk level pos = .ok true ↔
      level.inBounds pos ∧ ∃ t, tileAt level pos = .ok t ∧ t.Rune ≠ StoneWall ∧
        t.Rune ≠ Blank ∧ t.OverlayRune ≠ CloseDoor ∧ GoMap.get? level.Monsters pos = none) ∧
    (¬ level.inBounds pos → canWalk level pos = .ok false) ∧
    (∀ (game : Game) (player : Player), game.level = .ok level →
      ({ game with Player := player }).level.bind (fun l => canWalk l pos)
        = canWalk level pos) := by
  have hrows := rowsCoverWidth_of_rectangular level hrect
  refine ⟨canWalk_total level pos hne hrows, canWalk_true_iff level pos hne hrows,
    canWalk_false_of_not_inBounds level pos hne, ?_⟩
  intro game player hlevel
  have h : ({ game with Player := player } : Game).level = game.level := rfl
  rw [h, hlevel]
  rfl

/-- Witness of C1: the room level at its top middle tile. -/
theorem canWalk_spec_witness :
    roomLevel.Map ≠ [] ∧ roomLevel.rectangular ∧ canWalk roomLevel ⟨1, 0⟩ = .ok true ∧
      canWalk roomLevel ⟨1, 1⟩ = .ok false ∧ canWalk roomLevel ⟨3, 0⟩ = .ok false :=
  ⟨by decide, by unfold Level.rectangular; decide,
    (canWalk_spec roomLevel ⟨1, 0⟩ (by decide) (by unfold Level.rectangular; decide)).2.1.mpr
      ⟨by decide, floorTile, by decide, by decide, by decide, by decide, by decide⟩,
    by decide, by decide⟩

end Spatial

section EventLog

theorem AddEvent_ok (level : Level) (e : String) (h0 : 0 ≤ level.EventPos)
    (h1 : level.EventPos < (level.Events.length : Int)) :
    level.AddEvent e = .ok { level with
      Events := level.Events.set level.EventPos.toNat e
      EventPos := if level.EventPos + 1 = (level.Events.length : Int) then 0
        else level.EventPos + 1 } := by
  unfold Level.AddEvent
  simp [h0, h1, List.length_set]

theorem AddEvents_snoc (level : Level) (es : List String) (e : String) :
    level.AddEvents (es ++ [e]) = (level.AddEvents es).bind fun l => l.AddEvent e := by
  induction es generalizing level with
  | nil =>
    simp only [List.nil_append, Level.AddEvents, Outcome.bind]
    cases level.AddEvent e <;> rfl
  | cons x xs ih =>
    simp only [List.cons_append, Level.AddEvents]
    cases hx : level.AddEvent x with
    | ok l1 => simp only [Outcome.bind]; exact ih l1
    | panic m => rfl
    | outOfFuel => rfl

theorem ring_slot_ne (c q i : Nat) (hq : q < c) (hi0 : 0 < i) (hi : i < c) :
    (q + c - i) % c ≠ q := by
  intro h
  by_cases hle : i ≤ q
  · have h1 : q + c - i = (q - i) + c := by omega
    rw [h1, Nat.add_mod_right, Nat.mod_eq_of_lt (by omega)] at h
    omega
  · rw [Nat.mod_eq_of_lt (by omega)] at h
    omega

theorem addEvents_nat (es : List String) : ∀ (level : Level) (q : Nat),
    level.EventPos = (q : Int) → q < level.Events.length →
    ∃ (level1 : Level) (q1 : Nat), level.AddEvents es = .ok level1 ∧ level1.EventPos = (q1 : Int) ∧
      q1 < level.Events.length ∧ level1.Events.length = level.Events.length ∧
      ∀ i : Nat, i < level.Events.length → i < es.length →
        level1.Events[(q1 + level.Events.length - 1 - i) % level.Events.length]?
          = es.reverse[i]? := by
  induction es using List.reverseRecOn with
  | nil =>
    intro level q hq hlt
    exact ⟨level, q, rfl, hq, hlt, rfl, fun i _ hi => absurd hi (by simp)⟩
  | append_singleton es e ih =>
    intro level q hq hlt
    obtain ⟨l1, q1, hrun, hq1, hlt1, hlen1, hslots⟩ := ih level q hq hlt
    have h0 : 0 ≤ l1.EventPos := by omega
    have h1 : l1.EventPos < (l1.Events.length : Int) := by omega
    rw [AddEvents_snoc, hrun]
    simp only [Outcome.bind]
    rw [AddEvent_ok l1 e h0 h1]
    set c := level.Events.length with hc
    have hq1n : l1.EventPos.toNat = q1 := by omega
    by_cases hwrap : q1 + 1 = c
    · refine ⟨_, 0, rfl, ?_, by omega, ?_, ?_⟩
      · have : l1.EventPos + 1 = (l1.Events.length : Int) := by omega
        simp [this]
      · simp [List.length_set, hlen1]
      · intro i hic _
        simp only [List.reverse_append, List.reverse_cons, List.reverse_nil, List.nil_append,
          List.singleton_append, hq1n]
        rcases Nat.eq_zero_or_pos i with hi0 | hi0
        · subst hi0
          have hs : (0 + c - 1 - 0) % c = q1 := by
            rw [Nat.mod_eq_of_lt (by omega)]; omega
          rw [hs]
          simp [List.getElem?_set, hlen1, hlt1]
        · have hs : (0 + c - 1 - i) % c = (q1 + c - i) % c := by
            have : q1 + c - i = (c - 1 - i) + c := by omega
            rw [this, Nat.add_mod_right]; congr 1; omega
          rw [hs]
          have hne := ring_slot_ne c q1 i hlt1 hi0 hic
          rw [List.getElem?_set_ne (Ne.symm hne)]
          obtain ⟨j, rfl⟩ : ∃ j, i = j + 1 := ⟨i - 1, by omega⟩
          simp only [List.getElem?_cons_succ]
          by_cases hj : j < es.length
          · have := hslots j (by omega) hj
            rw [← this]
            congr 1
            have : q1 + c - 1 - j = q1 + c - (j + 1) := by omega
            rw [this]
          · rename_i hlen
            simp at hlen
            omega
    · refine ⟨_, q1 + 1, rfl, ?_, by omega, ?_, ?_⟩
      · have : ¬ (l1.EventPos + 1 = (l1.Events.length : Int)) := by omega
        rw [if_neg this, hq1]
        push_cast
        rfl
      · simp [List.length_set, hlen1]
      · intro i hic _
        simp only [List.reverse_append, List.reverse_cons, List.reverse_nil, List.nil_append,
          List.singleton_append, hq1n]
        rcases Nat.eq_zero_or_pos i with hi0 | hi0
        · subst hi0
          have hs : (q1 + 1 + c - 1 - 0) % c = q1 := by
            have : q1 + 1 + c - 1 - 0 = q1 + c := by omega
            rw [this, Nat.add_mod_right, Nat.mod_eq_of_lt hlt1]
          rw [hs]
          simp [List.getElem?_set, hlen1, hlt1]
        · have hs : (q1 + 1 + c - 1 - i) % c = (q1 + c - i) % c := by
            congr 1; omega
          rw [hs]
          have hne := ring_slot_ne c q1 i hlt1 hi0 hic
          rw [List.getElem?_set_ne (Ne.symm hne)]
          obtain ⟨j, rfl⟩ : ∃ j, i = j + 1 := ⟨i - 1, by omega⟩
          simp only [List.getElem?_cons_succ]
          by_cases hj : j < es.length
          · have := hslots j (by omega) hj
            rw [← this]
            congr 1
            have : q1 + c - 1 - j = q1 + c - (j + 1) := by omega
            rw [this]
          · rename_i hlen
            simp at hlen
            omega
theorem ring_slot_int (c q i : Nat) (hi : i < c) :
    (((q : Int) - 1 - (i : Int)) % (c : Int)).toNat = (q + c - 1 - i) % c := by
  have h1 : ((q : Int) - 1 - (i : Int)) % (c : Int) = (((q + c - 1 - i : Nat) : Int)) % (c : Int) := by
    have : (((q + c - 1 - i : Nat) : Int)) = ((q : Int) - 1 - (i : Int)) + (c : Int) := by omega
    rw [this, Int.add_emod_self]
  rw [h1, ← Int.natCast_mod, Int.toNat_natCast]

theorem ring_slot_onto (c q j : Nat) (hq : q < c) (hj : j < c) :
    ∃ i, i < c ∧ (q + c - 1 - i) % c = j := by
  by_cases h : j < q
  · refine ⟨q - 1 - j, by omega, ?_⟩
    have : q + c - 1 - (q - 1 - j) = j + c := by omega
    rw [this, Nat.add_mod_right, Nat.mod_eq_of_lt hj]
  · refine ⟨q + c - 1 - j, by omega, ?_⟩
    have : q + c - 1 - (q + c - 1 - j) = j := by omega
    rw [this, Nat.mod_eq_of_lt hj]

theorem lastEvents_getElem? (es : List String) (c i : Nat) (hi : i < c) :
    ((es.drop (es.length - c)).reverse)[i]? = es.reverse[i]? := by
  rw [List.reverse_drop]
  have : es.length - (es.length - c) = min c es.length := by omega
  rw [this, List.getElem?_take]
  by_cases h : i < min c es.length
  · simp [h]
  · have hlen : es.reverse.length ≤ i := by simp; omega
    rw [if_neg h, List.getElem?_eq_none hlen]

/-- C5: on an event log of capacity c > 0 whose cursor is in [0, c), writing n >= c
events with `AddEvent` succeeds; the log keeps its length c, the cursor stays in [0, c),
the i-th most recent event (0 <= i < c) is stored at index (cursor - 1 - i) mod c, and
every slot holds one of the last c events written: none older survives, so writing c + 1
events overwrites exactly the oldest one. -/
theorem addEvents_keeps_last (level : Level) (es : List String)
    (h0 : 0 ≤ level.EventPos) (h1 : level.EventPos < (level.Events.length : Int))
    (hn : level.Events.length ≤ es.length) :
    ∃ level1, level.AddEvents es = .ok level1 ∧
      level1.Events.length = level.Events.length ∧
      0 ≤ level1.EventPos ∧ level1.EventPos < (level.Events.length : Int) ∧
      (∀ i : Nat, i < level.Events.length →
        level1.Events[((level1.EventPos - 1 - (i : Int)) % (level.Events.length : Int)).toNat]?
          = ((es.drop (es.length - level.Events.length)).reverse)[i]?) ∧
      (∀ j : Nat, j < level.Events.length → ∃ i, i < level.Events.length ∧
        level1.Events[j]? = ((es.drop (es.length - level.Events.length)).reverse)[i]?) := by
  obtain ⟨l1, q1, hrun, hq1, hlt1, hlen1, hslots⟩ :=
    addEvents_nat es level level.EventPos.toNat (by omega) (by omega)
  refine ⟨l1, hrun, hlen1, by omega, by omega, ?_, ?_⟩
  · intro i hi
    rw [hq1, ring_slot_int _ q1 i hi, lastEvents_getElem? es _ i hi]
    exact hslots i hi (by omega)
  · intro j hj
    obtain ⟨i, hi, hij⟩ := ring_slot_onto _ q1 j hlt1 hj
    refine ⟨i, hi, ?_⟩
    rw [lastEvents_getElem? es _ i hi, ← hij]
    exact hslots i hi (by omega)

/-- Witness of C5: four events written into a log of three slots. -/
theorem addEvents_keeps_last_witness :
    (0 : Int) ≤ roomLevel.EventPos ∧ roomLevel.EventPos < (roomLevel.Events.length : Int) ∧
      roomLevel.Events.length ≤ ["a", "b", "c", "d"].length ∧
      ∃ level1, roomLevel.AddEvents ["a", "b", "c", "d"] = .ok level1 ∧
        level1.Events.length = roomLevel.Events.length ∧
        0 ≤ level1.EventPos ∧ level1.EventPos < (roomLevel.Events.length : Int) ∧
        (∀ i : Nat, i < roomLevel.Events.length →
          level1.Events[((level1.EventPos - 1 - (i : Int)) %
              (roomLevel.Events.length : Int)).toNat]?
            = ((["a", "b", "c", "d"].drop
                (["a", "b", "c", "d"].length - roomLevel.Events.length)).reverse)[i]?) ∧
        (∀ j : Nat, j < roomLevel.Events.length → ∃ i, i < roomLevel.Events.length ∧
          level1.Events[j]? = ((["a", "b", "c", "d"].drop
            (["a", "b", "c", "d"].length - roomLevel.Events.length)).reverse)[i]?) :=
  ⟨by decide, by decide, by decide,
    addEvents_keeps_last roomLevel ["a", "b", "c", "d"] (by decide) (by decide) (by decide)⟩

end EventLog

section Float64

theorem roundHalfEven_intCast (z : Int) : roundHalfEven (z : Rat) = z := by
  have hf : Rat.floor (z : Rat) = z := Int.floor_intCast (α := ℚ) z
  simp [roundHalfEven, hf]

/-- A rational less than 1/2 away from the integer `n` rounds to `n`. -/
theorem roundHalfEven_of_near (x : Rat) (n : Int) (hlo : (n : Rat) - 1 / 2 < x)
    (hhi : x < (n : Rat) + 1 / 2) : roundHalfEven x = n := by
  have hfl : Rat.floor x = ⌊x⌋ := rfl
  have h1 : ((⌊x⌋ : Int) : Rat) ≤ x := Int.floor_le x
  have h2 : x < ((⌊x⌋ : Int) : Rat) + 1 := Int.lt_floor_add_one x
  have hcases : ⌊x⌋ = n ∨ ⌊x⌋ = n - 1 := by
    have a1 : ((⌊x⌋ : Int) : Rat) < (n : Rat) + 1 := by linarith
    have a2 : (n : Rat) - 2 < ((⌊x⌋ : Int) : Rat) := by linarith
    have a3 : ⌊x⌋ < n + 1 := by exact_mod_cast a1
    have a4 : n - 2 < ⌊x⌋ := by exact_mod_cast a2
    omega
  unfold roundHalfEven
  rw [hfl]
  rcases hcases with h | h
  · rw [h] at *
    simp only
    rw [if_pos (by linarith)]
  · rw [h] at *
    simp only
    push_cast at *
    rw [if_neg (by linarith), if_pos (by linarith)]
    ring

theorem float64Exp_of_pos (q : Rat) (k : Int) (h1 : (2 : Rat) ^ k ≤ q)
    (h2 : q < (2 : Rat) ^ (k + 1)) : float64Exp q = max (k - 52) (-1074) := by
  have hq : 0 < q := lt_of_lt_of_le (zpow_pos (by norm_num) k) h1
  have hlog : Int.log 2 q = k := by
    have a : k ≤ Int.log 2 q :=
      (Int.zpow_le_iff_le_log (by norm_num) hq).1 (by exact_mod_cast h1)
    have b : Int.log 2 q < k + 1 :=
      (Int.lt_zpow_iff_log_lt (by norm_num) hq).1 (by exact_mod_cast h2)
    omega
  unfold float64Exp
  rw [abs_of_pos hq, hlog]

/-- The value of `roundFloat64` at a positive `q` of the binade `2^k ≤ q < 2^(k+1)`: the
multiple `n * 2^e` of the last bit `2^e` that is less than half a bit away from `q`. -/
theorem roundFloat64_of_near (q : Rat) (k e n : Int) (h1 : (2 : Rat) ^ k ≤ q)
    (h2 : q < (2 : Rat) ^ (k + 1)) (he : e = max (k - 52) (-1074))
    (hlo : (n : Rat) - 1 / 2 < q / (2 : Rat) ^ e)
    (hhi : q / (2 : Rat) ^ e < (n : Rat) + 1 / 2) :
    roundFloat64 q = (n : Rat) * (2 : Rat) ^ e := by
  unfold roundFloat64
  rw [float64Exp_of_pos q k h1 h2, ← he, roundHalfEven_of_near _ n hlo hhi]

/-- A rational half way between `n` and `n + 1` rounds to the even one of the two. -/
theorem roundHalfEven_of_tie (n : Int) :
    roundHalfEven ((n : Rat) + 1 / 2) = if n % 2 = 0 then n else n + 1 := by
  have hfl : Rat.floor ((n : Rat) + 1 / 2) = n := by
    show ⌊(n : Rat) + 1 / 2⌋ = n
    rw [Int.floor_eq_iff]
    constructor <;> linarith
  unfold roundHalfEven
  rw [hfl]
  simp only
  rw [if_neg (by norm_num), if_neg (by norm_num)]

/-- The value of `roundFloat64` at a positive `q` half way between two neighbouring
multiples of the last bit `2^e`: the one with the even significand. -/
theorem roundFloat64_of_tie (q : Rat) (k e n : Int) (h1 : (2 : Rat) ^ k ≤ q)
    (h2 : q < (2 : Rat) ^ (k + 1)) (he : e = max (k - 52) (-1074))
    (hq : q / (2 : Rat) ^ e = (n : Rat) + 1 / 2) :
    roundFloat64 q = ((if n % 2 = 0 then n else n + 1 : Int) : Rat) * (2 : Rat) ^ e := by
  unfold roundFloat64
  rw [float64Exp_of_pos q k h1 h2, ← he, hq, roundHalfEven_of_tie]

theorem roundFloat64_zero : roundFloat64 0 = 0 := by
  have hf : Rat.floor (0 : Rat) = 0 := Int.floor_zero (α := ℚ)
  simp [roundFloat64, roundHalfEven, hf]

/-- A number `n * 2^e` with a significand `n` of at most 53 bits and an exponent `e` in
the range of `float64` is a `float64`: rounding leaves it as it is. -/
theorem roundFloat64_dyadic (n e : Int) (hn : |n| < 2 ^ 53) (he : -1074 ≤ e) :
    roundFloat64 ((n : Rat) * (2 : Rat) ^ e) = (n : Rat) * (2 : Rat) ^ e := by
  by_cases h0 : n = 0
  · subst h0; simp [roundFloat64_zero]
  set q : Rat := (n : Rat) * (2 : Rat) ^ e with hq
  have h2e : (0 : Rat) < (2 : Rat) ^ e := zpow_pos (by norm_num) e
  have habs : |q| = (|n| : Int) * (2 : Rat) ^ e := by
    rw [hq, abs_mul, abs_of_pos h2e]; push_cast; rfl
  have hpos : 0 < |q| := by
    rw [habs]; apply mul_pos _ h2e
    exact_mod_cast abs_pos.2 h0
  have hlt : |q| < (2 : Rat) ^ (53 + e) := by
    rw [habs, zpow_add₀ (by norm_num : (2 : Rat) ≠ 0)]
    apply mul_lt_mul_of_pos_right _ h2e
    have h53 : ((|n| : Int) : Rat) < ((2 ^ 53 : Int) : Rat) := Int.cast_lt.2 hn
    rw [Int.cast_pow] at h53
    exact_mod_cast h53
  have hlog : Int.log 2 |q| < 53 + e :=
    (Int.lt_zpow_iff_log_lt (by norm_num) hpos).1 (by exact_mod_cast hlt)
  have hle : float64Exp q ≤ e := by
    unfold float64Exp
    exact max_le (by omega) he
  obtain ⟨d, hd⟩ : ∃ d : Nat, e = float64Exp q + d := ⟨(e - float64Exp q).toNat, by omega⟩
  have hne : (2 : Rat) ^ float64Exp q ≠ 0 := (zpow_pos (by norm_num) _).ne'
  have hdiv : q / (2 : Rat) ^ float64Exp q = ((n * 2 ^ d : Int) : Rat) := by
    rw [div_eq_iff hne, hq]
    conv_lhs => rw [hd]
    rw [zpow_add₀ (by norm_num : (2 : Rat) ≠ 0)]
    push_cast
    rw [zpow_natCast]
    ring
  unfold roundFloat64
  rw [hdiv, roundHalfEven_intCast, ← hdiv]
  field_simp

/-- The conversion `float64(n)` is exact for an integer of at most 53 bits. -/
theorem float64OfInt_exact (z : Int) (hz : |z| < 2 ^ 53) : float64OfInt z = z := by
  have h := roundFloat64_dyadic z 0 hz (by norm_num)
  rw [zpow_zero, mul_one] at h
  exact h

theorem roundFloat64_intCast (z : Int) (hz : |z| < 2 ^ 53) : roundFloat64 (z : Rat) = z :=
  float64OfInt_exact z hz

theorem roundFloat64_half : roundFloat64 (1 / 2) = 1 / 2 := by
  have h := roundFloat64_dyadic 1 (-1) (by norm_num) (by norm_num)
  norm_num at h
  exact h

theorem truncToInt_intCast (z : Int) : truncToInt (z : Rat) = z := by
  unfold truncToInt
  have hf : ∀ y : Int, Rat.floor (y : Rat) = y := fun y => Int.floor_intCast (α := ℚ) y
  split_ifs with h
  · exact hf z
  · have : -(z : Rat) = ((-z : Int) : Rat) := by push_cast; rfl
    rw [this, hf]
    omega

/-- The conversion `int(f)` of a `float64` between `n` and `n + 1`, for `n` not negative. -/
theorem truncToInt_of_between (q : Rat) (n : Int) (h1 : (n : Rat) ≤ q)
    (h2 : q < (n : Rat) + 1) (h0 : 0 ≤ n) : truncToInt q = n := by
  have hq : 0 ≤ q := le_trans (by exact_mod_cast h0) h1
  unfold truncToInt
  rw [if_pos hq]
  exact Int.floor_eq_iff.2 ⟨h1, h2⟩

end Float64

section Combat

theorem attackPower_eq (c1 : Character) :
    (c1.Weapon = none → attackPower c1 = c1.Strength) ∧
      (∀ w, c1.Weapon = some w → attackPower c1 =
        truncToInt (float64Mul (float64OfInt c1.Strength) (roundFloat64 w.power))) := by
  unfold attackPower
  constructor
  · intro h; rw [h]
  · intro w h; rw [h]

theorem attackDamage_eq (c1 c2 : Character) :
    (c2.Helmet = none → attackDamage c1 c2 = attackPower c1) ∧
      (∀ h, c2.Helmet = some h → attackDamage c1 c2 =
        truncToInt (float64Mul (float64OfInt (attackPower c1))
          (float64Sub 1 (roundFloat64 h.power)))) := by
  unfold attackDamage
  constructor
  · intro h; rw [h]
  · intro w h; rw [h]

/-- The sword of the game (power 2.0) doubles a strength of at most 52 bits exactly. -/
theorem attackPower_sword (c1 : Character) (w : Item) (hw : c1.Weapon = some w)
    (hp : w.power = 2) (hs : |c1.Strength| < 2 ^ 52) : attackPower c1 = 2 * c1.Strength := by
  rw [(attackPower_eq c1).2 w hw, hp, float64OfInt_exact _ (by omega)]
  have h2 : roundFloat64 2 = 2 := by
    have h := roundFloat64_intCast 2 (by norm_num)
    exact_mod_cast h
  have hprod : (c1.Strength : Rat) * 2 = ((2 * c1.Strength : Int) : Rat) := by
    push_cast; ring
  unfold float64Mul
  rw [h2, hprod, roundFloat64_intCast _ (by rw [abs_mul]; norm_num; omega),
    truncToInt_intCast]

/-- The helmet of the game (power 0.5) halves a blow of at most 53 bits exactly, before
the truncation. -/
theorem attackDamage_helmet (c1 c2 : Character) (h : Item) (hh : c2.Helmet = some h)
    (hp : h.power = 1 / 2) (hb : |attackPower c1| < 2 ^ 53) :
    attackDamage c1 c2 = truncToInt ((attackPower c1 : Rat) * (1 - 1 / 2)) := by
  rw [(attackDamage_eq c1 c2).2 h hh, hp, float64OfInt_exact _ hb, roundFloat64_half]
  unfold float64Sub float64Mul
  have e1 : (1 : Rat) - 1 / 2 = 1 / 2 := by norm_num
  rw [e1, roundFloat64_half]
  have e2 : (attackPower c1 : Rat) * (1 / 2) = (attackPower c1 : Rat) * (2 : Rat) ^ (-1 : Int) := by
    norm_num
  rw [e2, roundFloat64_dyadic _ _ hb (by norm_num)]

/-- With the items of the game, a sword of power 2.0 and a helmet of power 0.5, no
operation of `Level.Attack` rounds, for a strength of at most 52 bits: the damage is the
one of exact arithmetic, the strength doubled and then halved. -/
theorem attackDamage_game_items (c1 c2 : Character) (w h : Item)
    (hw : c1.Weapon = some w) (hwp : w.power = 2)
    (hh : c2.Helmet = some h) (hhp : h.power = 1 / 2) (hs : |c1.Strength| < 2 ^ 52) :
    attackDamage c1 c2
        = truncToInt ((truncToInt ((c1.Strength : Rat) * 2) : Rat) * (1 - 1 / 2)) ∧
      attackDamage c1 c2 = c1.Strength := by
  have hpow : attackPower c1 = 2 * c1.Strength := attackPower_sword c1 w hw hwp hs
  have hd := attackDamage_helmet c1 c2 h hh hhp (by rw [hpow, abs_mul]; norm_num; omega)
  have e1 : (c1.Strength : Rat) * 2 = ((2 * c1.Strength : Int) : Rat) := by push_cast; ring
  have e2 : ((2 * c1.Strength : Int) : Rat) * (1 - 1 / 2) = (c1.Strength : Rat) := by
    push_cast; ring
  refine ⟨?_, ?_⟩
  · rw [hd, hpow, e1, truncToInt_intCast]
  · rw [hd, hpow, e2, truncToInt_intCast]

/-- A power that is not itself a `float64` makes the operations of `Level.Attack`
round. A helmet of power 0.9 under a blow of 10: `1.0 - 0.9` is the `float64`
900719925474099 / 2^53, a little below 1/10, the product stays below 1 and the damage is
0, where exact arithmetic gives 1. A helmet of power 0.2 under a blow of 5: the product
rounds to 4.0 and the damage is 4; on the way `1.0 - 0.2` falls half way between two
`float64` values and goes to the one with the even significand. -/
theorem attackDamage_helmet_rounds (c1 c2 : Character) (h : Item)
    (hw : c1.Weapon = none) (hh : c2.Helmet = some h) :
    (c1.Strength = 10 → h.power = 9 / 10 → attackDamage c1 c2 = 0) ∧
      (c1.Strength = 5 → h.power = 1 / 5 → attackDamage c1 c2 = 4) ∧
      truncToInt (((10 : Int) : Rat) * (1 - 9 / 10)) = 1 := by
  have hd := (attackDamage_eq c1 c2).2 h hh
  rw [(attackPower_eq c1).1 hw] at hd
  refine ⟨?_, ?_, ?_⟩
  · intro hs hp
    rw [hd, hs, hp, float64OfInt_exact _ (by norm_num)]
    have r1 : roundFloat64 (9 / 10) = ((8106479329266893 : Int) : Rat) * (2 : Rat) ^ (-53 : Int) := by
      apply roundFloat64_of_near (9 / 10) (-1) (-53) _ <;> norm_num
    have r2 : float64Sub 1 (((8106479329266893 : Int) : Rat) * (2 : Rat) ^ (-53 : Int))
        = ((900719925474099 : Int) : Rat) * (2 : Rat) ^ (-53 : Int) := by
      unfold float64Sub
      have e : (1 : Rat) - ((8106479329266893 : Int) : Rat) * (2 : Rat) ^ (-53 : Int)
          = ((900719925474099 : Int) : Rat) * (2 : Rat) ^ (-53 : Int) := by norm_num
      rw [e, roundFloat64_dyadic _ _ (by norm_num) (by norm_num)]
    have r3 : float64Mul ((10 : Int) : Rat)
          (((900719925474099 : Int) : Rat) * (2 : Rat) ^ (-53 : Int))
        = ((9007199254740990 : Int) : Rat) * (2 : Rat) ^ (-53 : Int) := by
      unfold float64Mul
      have e : ((10 : Int) : Rat) * (((900719925474099 : Int) : Rat) * (2 : Rat) ^ (-53 : Int))
          = ((9007199254740990 : Int) : Rat) * (2 : Rat) ^ (-53 : Int) := by norm_num
      rw [e, roundFloat64_dyadic _ _ (by norm_num) (by norm_num)]
    rw [r1, r2, r3]
    apply truncToInt_of_between <;> norm_num
  · intro hs hp
    rw [hd, hs, hp, float64OfInt_exact _ (by norm_num)]
    have r1 : roundFloat64 (1 / 5) = ((7205759403792794 : Int) : Rat) * (2 : Rat) ^ (-55 : Int) := by
      apply roundFloat64_of_near (1 / 5) (-3) (-55) _ <;> norm_num
    have r2 : float64Sub 1 (((7205759403792794 : Int) : Rat) * (2 : Rat) ^ (-55 : Int))
        = ((7205759403792794 : Int) : Rat) * (2 : Rat) ^ (-53 : Int) := by
      unfold float64Sub
      have r := roundFloat64_of_tie
        (1 - ((7205759403792794 : Int) : Rat) * (2 : Rat) ^ (-55 : Int))
        (-1) (-53) 7205759403792793 (by norm_num) (by norm_num) (by norm_num) (by norm_num)
      rw [r]; norm_num
    have r3 : float64Mul ((5 : Int) : Rat)
          (((7205759403792794 : Int) : Rat) * (2 : Rat) ^ (-53 : Int))
        = ((4 : Int) : Rat) := by
      unfold float64Mul
      have r := roundFloat64_of_near
        (((5 : Int) : Rat) * (((7205759403792794 : Int) : Rat) * (2 : Rat) ^ (-53 : Int)))
        2 (-50) 4503599627370496 (by norm_num) (by norm_num) (by norm_num) (by norm_num)
        (by norm_num)
      rw [r]; norm_num
    rw [r1, r2, r3, truncToInt_intCast]
  · apply truncToInt_of_between <;> norm_num

/-- A weapon of power 1/3 in a hand of strength 3: the exact product of 3 and the
`float64` nearest to 1/3 is below 1, half way between two `float64` values, and rounds to
the even one, 1.0: the blow is 1. -/
theorem attackPower_weapon_rounds (c1 : Character) (w : Item) (hw : c1.Weapon = some w)
    (hs : c1.Strength = 3) (hp : w.power = 1 / 3) : attackPower c1 = 1 := by
  rw [(attackPower_eq c1).2 w hw, hs, hp, float64OfInt_exact _ (by norm_num)]
  have r1 : roundFloat64 (1 / 3) = ((6004799503160661 : Int) : Rat) * (2 : Rat) ^ (-54 : Int) := by
    apply roundFloat64_of_near (1 / 3) (-2) (-54) _ <;> norm_num
  have r2 : float64Mul ((3 : Int) : Rat)
        (((6004799503160661 : Int) : Rat) * (2 : Rat) ^ (-54 : Int)) = ((1 : Int) : Rat) := by
    unfold float64Mul
    have r := roundFloat64_of_tie
      (((3 : Int) : Rat) * (((6004799503160661 : Int) : Rat) * (2 : Rat) ^ (-54 : Int)))
      (-1) (-53) 9007199254740991 (by norm_num) (by norm_num) (by norm_num) (by norm_num)
    rw [r]; norm_num
  rw [r1, r2, truncToInt_intCast]

end Combat

section Inventory

theorem Slice.cut_elems {α : Type} (s : Slice α) (i : Nat) (hi : i < s.elems.length) :
    (s.cut i).elems = s.elems.eraseIdx i := by
  unfold Slice.cut
  cases hl : s.elems.getLast? with
  | none =>
    rw [List.getLast?_eq_none_iff] at hl
    rw [hl] at hi
    simp at hi
  | some last => rfl

theorem Slice.cut_indexOf_elems {α : Type} [DecidableEq α] (s : Slice α) (a : α)
    (ha : a ∈ s.elems) : (s.cut (s.elems.indexOf a)).elems = s.elems.erase a := by
  rw [Slice.cut_elems s _ (List.indexOf_lt_length.mpr ha), List.eraseIdx_indexOf_eq_erase]

theorem itemsAt_setItems (level : Level) (pos pos1 : Pos) (s : Slice Item) :
    ({ level with Items := GoMap.set level.Items pos s } : Level).itemsAt pos1
      = if pos = pos1 then s else level.itemsAt pos1 := by
  unfold Level.itemsAt
  simp only [GoMap.get?_set]
  split_ifs <;> rfl

theorem MoveItem_found (level : Level) (item : Item) (c : Character)
    (hin : item ∈ (level.itemsAt c.toPos).elems) :
    level.MoveItem item c =
      (({ level with Items := (GoMap.set level.Items c.toPos
            ((level.itemsAt c.toPos).cut ((level.itemsAt c.toPos).elems.indexOf item))) } :
          Level).AddEvent (c.Name ++ " picked up: " ++ item.Name)).bind
        fun level2 => .ok (level2, { c with Items := c.Items.push item }) := by
  unfold Level.MoveItem
  simp only [List.indexOf_lt_length.mpr hin, if_true]

theorem MoveItem_missing (level : Level) (item : Item) (c : Character)
    (hout : item ∉ (level.itemsAt c.toPos).elems) :
    level.MoveItem item c = .panic "Tried to move an item we were not on top of" := by
  unfold Level.MoveItem
  have : ¬ (level.itemsAt c.toPos).elems.indexOf item < (level.itemsAt c.toPos).elems.length := by
    rw [List.indexOf_lt_length]; exact hout
  simp only [this, if_false]

/-- C7, amended: on a level whose event log has capacity > 0 and its cursor in
[0, capacity), `MoveItem(item, character)` fails if and only if the item is not among the
ground items at the character's position; the failure is then the final `panic` of the
method, which is reached before any assignment; when it succeeds the first occurrence of
the item is removed from the ground items at that position (the others keep their order),
the ground items elsewhere are unchanged, the item is appended to the end of the
character's inventory, nothing else of the character changes, and one pickup event is
written at the cursor, which advances by one slot. -/
theorem moveItem_spec (level : Level) (item : Item) (c : Character)
    (h0 : 0 ≤ level.EventPos) (h1 : level.EventPos < (level.Events.length : Int)) :
    ((∀ r, level.MoveItem item c ≠ .ok r) ↔ item ∉ (level.itemsAt c.toPos).elems) ∧
    (item ∉ (level.itemsAt c.toPos).elems →
      level.MoveItem item c = .panic "Tried to move an item we were not on top of") ∧
    (item ∈ (level.itemsAt c.toPos).elems →
      ∃ level1 c1, level.MoveItem item c = .ok (level1, c1) ∧
        (level1.itemsAt c.toPos).elems = (level.itemsAt c.toPos).elems.erase item ∧
        (∀ pos, pos ≠ c.toPos → level1.itemsAt pos = level.itemsAt pos) ∧
        c1.Items.elems = c.Items.elems ++ [item] ∧
        c1 = { c with Items := c1.Items } ∧
        level1.Events = level.Events.set level.EventPos.toNat
          (c.Name ++ " picked up: " ++ item.Name) ∧
        level1.EventPos = (if level.EventPos + 1 = (level.Events.length : Int) then 0
          else level.EventPos + 1) ∧
        level1 = { level with
          Items := level1.Items, Events := level1.Events, EventPos := level1.EventPos }) := by
  have hfound : item ∈ (level.itemsAt c.toPos).elems →
      ∃ level1 c1, level.MoveItem item c = .ok (level1, c1) ∧
        (level1.itemsAt c.toPos).elems = (level.itemsAt c.toPos).elems.erase item ∧
        (∀ pos, pos ≠ c.toPos → level1.itemsAt pos = level.itemsAt pos) ∧
        c1.Items.elems = c.Items.elems ++ [item] ∧
        c1 = { c with Items := c1.Items } ∧
        level1.Events = level.Events.set level.EventPos.toNat
          (c.Name ++ " picked up: " ++ item.Name) ∧
        level1.EventPos = (if level.EventPos + 1 = (level.Events.length : Int) then 0
          else level.EventPos + 1) ∧
        level1 = { level with
          Items := level1.Items, Events := level1.Events, EventPos := level1.EventPos } := by
    intro hin
    rw [MoveItem_found level item c hin]
    have hlog := AddEvent_ok ({ level with Items := (GoMap.set level.Items c.toPos
      ((level.itemsAt c.toPos).cut ((level.itemsAt c.toPos).elems.indexOf item))) } : Level)
      (c.Name ++ " picked up: " ++ item.Name) h0 h1
    rw [hlog]
    refine ⟨_, _, rfl, ?_, ?_, rfl, rfl, rfl, rfl, rfl⟩
    · show (Level.itemsAt { level with Items := _ } c.toPos).elems = _
      rw [itemsAt_setItems, if_pos rfl, Slice.cut_indexOf_elems _ _ hin]
    · intro pos hpos
      show Level.itemsAt { level with Items := _ } pos = _
      rw [itemsAt_setItems, if_neg (Ne.symm hpos)]
  refine ⟨?_, MoveItem_missing level item c, hfound⟩
  constructor
  · intro hfail hin
    obtain ⟨level1, c1, hrun, _⟩ := hfound hin
    exact hfail _ hrun
  · intro hout r hr
    rw [MoveItem_missing level item c hout] at hr
    exact Outcome.noConfusion hr


theorem DropItem_missing (level : Level) (item : Item) (c : Character)
    (hout : item ∉ c.Items.elems) : level.DropItem item c = .ok (level, c) := by
  unfold Level.DropItem
  have : ¬ c.Items.elems.indexOf item < c.Items.elems.length := by
    rw [List.indexOf_lt_length]; exact hout
  simp only [this, if_false]

theorem equip_missing (c : Character) (item : Item) (hout : item ∉ c.Items.elems) :
    equip c item = .panic "someone tried to equip a thing they don't have" := by
  unfold equip
  have : ¬ c.Items.elems.indexOf item < c.Items.elems.length := by
    rw [List.indexOf_lt_length]; exact hout
  simp only [this, if_false]

/-- C10, amended: `equip(character, item)` fails if and only if the item is not in the
carried-items list; when it succeeds the first occurrence of the item is removed from the
list (so an item that occurred once is no longer in it), a weapon is held in the weapon slot
with the helmet slot unchanged, a helmet is held in the helmet slot with the weapon slot
unchanged, an item of another kind leaves both slots unchanged, and no other attribute of
the character changes. -/
theorem equip_spec (c : Character) (item : Item) :
    ((∀ r, equip c item ≠ .ok r) ↔ item ∉ c.Items.elems) ∧
    (item ∈ c.Items.elems →
      ∃ c1, equip c item = .ok c1 ∧
        c1.Items.elems = c.Items.elems.erase item ∧
        (c.Items.elems.count item = 1 → item ∉ c1.Items.elems) ∧
        (item.Typ = .Weapon → c1.Weapon = some item ∧ c1.Helmet = c.Helmet) ∧
        (item.Typ = .Helmet → c1.Helmet = some item ∧ c1.Weapon = c.Weapon) ∧
        (item.Typ = .Other → c1.Helmet = c.Helmet ∧ c1.Weapon = c.Weapon) ∧
        c1 = { c with Items := c1.Items, Helmet := c1.Helmet, Weapon := c1.Weapon }) := by
  have hfound : item ∈ c.Items.elems →
      ∃ c1, equip c item = .ok c1 ∧
        c1.Items.elems = c.Items.elems.erase item ∧
        (c.Items.elems.count item = 1 → item ∉ c1.Items.elems) ∧
        (item.Typ = .Weapon → c1.Weapon = some item ∧ c1.Helmet = c.Helmet) ∧
        (item.Typ = .Helmet → c1.Helmet = some item ∧ c1.Weapon = c.Weapon) ∧
        (item.Typ = .Other → c1.Helmet = c.Helmet ∧ c1.Weapon = c.Weapon) ∧
        c1 = { c with Items := c1.Items, Helmet := c1.Helmet, Weapon := c1.Weapon } := by
    intro hin
    have hcut := Slice.cut_indexOf_elems c.Items item hin
    have hgone : c.Items.elems.count item = 1 → item ∉ c.Items.elems.erase item := by
      intro hcount
      rw [← List.count_eq_zero, List.count_erase_self, hcount]
    unfold equip
    simp only [List.indexOf_lt_length.mpr hin, if_true]
    cases hty : item.Typ
    · exact ⟨_, rfl, hcut, by rw [hcut]; exact hgone, fun _ => ⟨rfl, rfl⟩,
        fun h => ItemType.noConfusion h, fun h => ItemType.noConfusion h, rfl⟩
    · exact ⟨_, rfl, hcut, by rw [hcut]; exact hgone, fun h => ItemType.noConfusion h,
        fun _ => ⟨rfl, rfl⟩, fun h => ItemType.noConfusion h, rfl⟩
    · exact ⟨_, rfl, hcut, by rw [hcut]; exact hgone, fun h => ItemType.noConfusion h,
        fun h => ItemType.noConfusion h, fun _ => ⟨rfl, rfl⟩, rfl⟩
  refine ⟨?_, hfound⟩
  constructor
  · intro hfail hin
    obtain ⟨c1, hrun, _⟩ := hfound hin
    exact hfail _ hrun
  · intro hout r hr
    rw [equip_missing c item hout] at hr
    exact Outcome.noConfusion hr


/-- Counterexample to C7 as stated: with an event log of capacity 0 `MoveItem` fails,
in `AddEvent`, although the item lies on the ground at the character's position. -/
theorem moveItem_counterexample :
    sword1 ∈ ((noLogLevel [sword1]).itemsAt (heroAt ⟨1, 0⟩).toPos).elems ∧
      (noLogLevel [sword1]).MoveItem sword1 (heroAt ⟨1, 0⟩) = .panic "index out of range" := by
  decide

/-- Witness of C7 amended: the hero picks up a sword that lies twice on the ground. -/
theorem moveItem_spec_witness :
    (0 : Int) ≤ (itemLevel [sword1, helmet2, sword1]).EventPos ∧
      (itemLevel [sword1, helmet2, sword1]).EventPos
        < ((itemLevel [sword1, helmet2, sword1]).Events.length : Int) ∧
      ∃ level1 c1,
        (itemLevel [sword1, helmet2, sword1]).MoveItem sword1 (heroAt ⟨1, 0⟩) = .ok (level1, c1) ∧
        (level1.itemsAt ⟨1, 0⟩).elems = [helmet2, sword1] ∧ c1.Items.elems = [sword1] ∧
        level1.Events = ["hero picked up: Sword", "", ""] ∧ level1.EventPos = 1 := by
  refine ⟨by decide, by decide, ?_⟩
  obtain ⟨level1, c1, hrun, hground, _, hinv, _, hev, hpos, _⟩ :=
    (moveItem_spec (itemLevel [sword1, helmet2, sword1]) sword1 (heroAt ⟨1, 0⟩)
      (by decide) (by decide)).2.2 (by decide)
  refine ⟨level1, c1, hrun, ?_, ?_, ?_, ?_⟩
  · rw [show (⟨1, 0⟩ : Pos) = (heroAt ⟨1, 0⟩).toPos from rfl, hground]
    decide
  · rw [hinv]; rfl
  · rw [hev]; decide
  · rw [hpos]; decide

/-- C9, the code at the failing input: `DropItem` of an item that the character does not
carry returns normally and leaves the level and the character as they were, where the
claim requires a fatal invariant violation. -/
theorem dropItem_not_carried_returns :
    sword1 ∉ (carrier [helmet2]).Items.elems ∧
      (itemLevel []).DropItem sword1 (carrier [helmet2])
        = .ok (itemLevel [], carrier [helmet2]) := by
  decide

/-- Counterexample to C10 as stated: a list that holds the same item twice still holds
it after a successful `equip`. -/
theorem equip_counterexample :
    ∃ c1, equip (carrier [sword1, sword1]) sword1 = .ok c1 ∧ sword1 ∈ c1.Items.elems :=
  ⟨_, rfl, by decide⟩

/-- Witness of C10 amended: the hero equips a carried helmet. -/
theorem equip_spec_witness :
    helmet2 ∈ (carrier [sword1, helmet2]).Items.elems ∧
      ∃ c1, equip (carrier [sword1, helmet2]) helmet2 = .ok c1 ∧
        c1.Items.elems = [sword1] ∧ c1.Helmet = some helmet2 ∧ c1.Weapon = none := by
  refine ⟨by decide, ?_⟩
  obtain ⟨c1, hrun, hinv, _, _, hhelmet, _, _⟩ :=
    (equip_spec (carrier [sword1, helmet2]) helmet2).2 (by decide)
  exact ⟨c1, hrun, by rw [hinv]; decide, (hhelmet rfl).1, (hhelmet rfl).2⟩

/-- C6, the code at the failing input: with three distinct items on the ground at the
player's position the `TakeAll` case panics in its third `MoveItem`, where the claim
requires all three items to be picked up. -/
theorem takeAll_three_items_panics :
    [sword1, helmet2, sword3].Nodup ∧
      (itemGame [sword1, helmet2, sword3]).handleTakeAll
        = .panic "Tried to move an item we were not on top of" := by
  decide

end Inventory

section SearchBasics

theorem Pos.adjacent_ne (p q : Pos) (h : p.adjacent q) : q ≠ p := by
  intro hq
  subst hq
  unfold Pos.adjacent at h
  omega

theorem manhattan_nonneg (goal v : Pos) : 0 ≤ manhattan goal v := by
  unfold manhattan
  omega

theorem manhattan_self (goal : Pos) : manhattan goal goal = 0 := by
  unfold manhattan
  simp

theorem manhattan_pos (goal v : Pos) (h : v ≠ goal) : 1 ≤ manhattan goal v := by
  unfold manhattan
  by_contra hlt
  apply h
  have hx : goal.X - v.X = 0 := by omega
  have hy : goal.Y - v.Y = 0 := by omega
  cases v; cases goal
  simp only [Pos.mk.injEq] at *
  constructor <;> omega

theorem manhattan_adjacent (goal u v : Pos) (h : u.adjacent v) :
    manhattan goal u ≤ manhattan goal v + 1 := by
  unfold Pos.adjacent at h
  unfold manhattan
  omega

theorem mem_cells (level : Level) (v : Pos) (h : level.inBounds v) : v ∈ level.cells := by
  obtain ⟨hx0, hx1, hy0, hy1⟩ := h
  unfold Level.cells
  rw [Finset.mem_image]
  refine ⟨(v.X.toNat, v.Y.toNat), ?_, ?_⟩
  · rw [Finset.mem_product, Finset.mem_range, Finset.mem_range]
    constructor <;> simp only <;> omega
  · cases v
    simp only [Pos.mk.injEq] at *
    constructor <;> omega

theorem inBounds_of_canWalk (level : Level) (v : Pos) (h : canWalk level v = .ok true) :
    level.inBounds v := by
  by_cases hne : level.Map = []
  · unfold canWalk inRange at h
    rw [hne] at h
    exact Outcome.noConfusion h
  · unfold canWalk at h
    rw [inRange_eq level v hne] at h
    by_contra hout
    simp [hout] at h

theorem mem_searchSpace_of_canWalk (level : Level) (start v : Pos)
    (h : canWalk level v = .ok true) : v ∈ level.searchSpace start :=
  Finset.mem_insert_of_mem (mem_cells level v (inBounds_of_canWalk level v h))

theorem getNeighbors_spec (level : Level) (p : Pos)
    (htot : ∀ q, ∃ b, canWalk level q = .ok b) :
    ∃ ns, getNeighbors level p = .ok ns ∧
      ∀ n, n ∈ ns ↔ p.adjacent n ∧ canWalk level n = .ok true := by
  unfold getNeighbors
  obtain ⟨r, hr⟩ := htot ⟨p.X + 1, p.Y⟩
  obtain ⟨l, hl⟩ := htot ⟨p.X - 1, p.Y⟩
  obtain ⟨u, hu⟩ := htot ⟨p.X, p.Y - 1⟩
  obtain ⟨d, hd⟩ := htot ⟨p.X, p.Y + 1⟩
  simp only [hr, hl, hu, hd, Outcome.bind]
  refine ⟨_, rfl, ?_⟩
  intro n
  simp only [List.mem_append]
  constructor
  · rintro (((h | h) | h) | h)
    · cases r <;> simp at h
      subst h
      exact ⟨Or.inl ⟨rfl, rfl⟩, hr⟩
    · cases l <;> simp at h
      subst h
      exact ⟨Or.inr (Or.inl ⟨rfl, rfl⟩), hl⟩
    · cases u <;> simp at h
      subst h
      exact ⟨Or.inr (Or.inr (Or.inl ⟨rfl, rfl⟩)), hu⟩
    · cases d <;> simp at h
      subst h
      exact ⟨Or.inr (Or.inr (Or.inr ⟨rfl, rfl⟩)), hd⟩
  · rintro ⟨hadj, hw⟩
    have hn : ∀ q : Pos, q.X = n.X → q.Y = n.Y → q = n := by
      intro q hx hy
      cases q; cases n
      simp only [Pos.mk.injEq] at *
      exact ⟨hx, hy⟩
    rcases hadj with ⟨hx, hy⟩ | ⟨hx, hy⟩ | ⟨hx, hy⟩ | ⟨hx, hy⟩
    · have e := hn ⟨p.X + 1, p.Y⟩ hx.symm hy.symm
      rw [e] at hr
      rw [hw] at hr
      simp only [Outcome.ok.injEq] at hr
      subst hr
      left; left; left
      simp [e]
    · have e := hn ⟨p.X - 1, p.Y⟩ hx.symm hy.symm
      rw [e] at hl
      rw [hw] at hl
      simp only [Outcome.ok.injEq] at hl
      subst hl
      left; left; right
      simp [e]
    · have e := hn ⟨p.X, p.Y - 1⟩ hx.symm hy.symm
      rw [e] at hu
      rw [hw] at hu
      simp only [Outcome.ok.injEq] at hu
      subst hu
      left; right
      simp [e]
    · have e := hn ⟨p.X, p.Y + 1⟩ hx.symm hy.symm
      rw [e] at hd
      rw [hw] at hd
      simp only [Outcome.ok.injEq] at hd
      subst hd
      right
      simp [e]

theorem leastEntry_mem (e : Pos × Int) (rest : List (Pos × Int)) :
    leastEntry e rest ∈ e :: rest := by
  induction rest generalizing e with
  | nil => simp [leastEntry]
  | cons e2 rest ih =>
    unfold leastEntry
    split_ifs
    · exact List.mem_cons_self _ _
    · exact List.mem_cons_of_mem _ (ih e2)

theorem leastEntry_le (e : Pos × Int) (rest : List (Pos × Int)) :
    ∀ x ∈ e :: rest, (leastEntry e rest).2 ≤ x.2 := by
  induction rest generalizing e with
  | nil =>
    intro x hx
    simp only [List.mem_singleton] at hx
    subst hx
    simp [leastEntry]
  | cons e2 rest ih =>
    intro x hx
    unfold leastEntry
    rcases List.mem_cons.mp hx with hx | hx
    · subst hx
      split_ifs with h
      · exact le_refl _
      · omega
    · have := ih e2 x hx
      split_ifs with h
      · omega
      · exact this

theorem removeEntry_perm (m : Pos × Int) (l : List (Pos × Int)) (h : m ∈ l) :
    l.Perm (m :: removeEntry m l) := by
  induction l with
  | nil => simp at h
  | cons e rest ih =>
    unfold removeEntry
    split_ifs with he
    · rw [he]
    · have hm : m ∈ rest := by
        rcases List.mem_cons.mp h with h | h
        · exact absurd h.symm he
        · exact h
      exact (List.Perm.cons e (ih hm)).trans (List.Perm.swap m e _)

theorem PQueueImpl.PopsMinimum.isQueue (pq : PQueueImpl) (h : pq.PopsMinimum) :
    pq.IsQueue := by
  obtain ⟨ent, hempty, hpush, hlen, hpop⟩ := h
  refine ⟨ent, hempty, hpush, hlen, fun q hq => ?_⟩
  obtain ⟨pr, hpr, _⟩ := hpop q hq
  exact ⟨pr, hpr⟩

theorem listPQ_popsMinimum : listPQ.PopsMinimum := by
  refine ⟨fun q : List (Pos × Int) => (q : Multiset (Pos × Int)), rfl, ?_, ?_, ?_⟩
  · intro (q : List (Pos × Int)) p pr
    show ((q ++ [(p, pr)] : List (Pos × Int)) : Multiset (Pos × Int))
      = (p, pr) ::ₘ (q : Multiset (Pos × Int))
    rw [Multiset.cons_coe, Multiset.coe_eq_coe]
    exact List.perm_append_singleton _ _
  · intro (q : List (Pos × Int))
    show q.length = Multiset.card (q : Multiset (Pos × Int))
    simp
  · intro (q : List (Pos × Int)) hq
    cases q with
    | nil => exact absurd rfl hq
    | cons e rest =>
      refine ⟨(leastEntry e rest).2, ?_, ?_⟩
      · show ((e :: rest : List (Pos × Int)) : Multiset (Pos × Int))
          = ((leastEntry e rest).1, (leastEntry e rest).2) ::ₘ
            ((removeEntry (leastEntry e rest) (e :: rest) : List (Pos × Int)) :
              Multiset (Pos × Int))
        rw [Multiset.cons_coe, Multiset.coe_eq_coe]
        exact removeEntry_perm _ _ (leastEntry_mem e rest)
      · intro x hx
        exact leastEntry_le e rest x (Multiset.mem_coe.mp hx)

end SearchBasics

section SearchUpdate

theorem undefCount_set_le (U : Finset Pos) (cs : GoMap Pos Int) (k : Pos) (x : Int) :
    undefCount U (GoMap.set cs k x) ≤ undefCount U cs := by
  unfold undefCount
  apply Finset.sum_le_sum
  intro v _
  rw [GoMap.get?_set]
  by_cases h : k = v
  · simp [h]
  · simp [h]

theorem undefCount_set_lt (U : Finset Pos) (cs : GoMap Pos Int) (k : Pos) (x : Int)
    (hk : k ∈ U) (hnone : GoMap.get? cs k = none) :
    undefCount U (GoMap.set cs k x) + 1 ≤ undefCount U cs := by
  unfold undefCount
  apply Nat.succ_le_of_lt
  apply Finset.sum_lt_sum
  · intro v _
    rw [GoMap.get?_set]
    by_cases h : k = v
    · simp [h]
    · simp [h]
  · refine ⟨k, hk, ?_⟩
    rw [GoMap.get?_set]
    simp [hnone]

theorem costSlack_set_sum_lt (U : Finset Pos) (cs : GoMap Pos Int) (k : Pos) (x : Int)
    (hk : k ∈ U) (hlt : (x.toNat) < costSlack U.card cs k) :
    (∑ v ∈ U, costSlack U.card (GoMap.set cs k x) v) + 1 ≤ ∑ v ∈ U, costSlack U.card cs v := by
  apply Nat.succ_le_of_lt
  apply Finset.sum_lt_sum
  · intro v _
    unfold costSlack
    rw [GoMap.get?_set]
    by_cases h : k = v
    · subst h
      simp only [if_true]
      exact le_of_lt hlt
    · simp [h]
  · refine ⟨k, hk, ?_⟩
    have : costSlack U.card (GoMap.set cs k x) k = x.toNat := by
      unfold costSlack
      rw [GoMap.get?_set]
      simp
    rw [this]
    exact hlt

theorem searchUpdate (level : Level) (start goal : Pos) (U : Finset Pos)
    (E : Multiset (Pos × Int)) (cf : GoMap Pos Pos) (cs : GoMap Pos Int)
    (current next : Pos) (cu : Int)
    (hinv : SearchInv level start U E cf cs)
    (hcur : GoMap.get? cs current = some cu)
    (hadj : current.adjacent next) (hw : canWalk level next = .ok true) (hU : next ∈ U)
    (hnew : GoMap.get? cs next = none ∨ ∃ c, GoMap.get? cs next = some c ∧ cu + 1 < c) :
    SearchInv level start U ((next, cu + 1 + manhattan goal next) ::ₘ E)
        (GoMap.set cf next current) (GoMap.set cs next (cu + 1)) ∧
      searchMeasure U (Multiset.card E + 1) (GoMap.set cs next (cu + 1))
        ≤ searchMeasure U (Multiset.card E) cs ∧
      SearchMono goal E cs ((next, cu + 1 + manhattan goal next) ::ₘ E)
        (GoMap.set cs next (cu + 1)) := by
  have hcu0 : 0 ≤ cu := hinv.nonneg current cu hcur
  have hnc : next ≠ current := Pos.adjacent_ne current next hadj
  have hns : next ≠ start := by
    intro h
    rw [h, hinv.start_cost] at hnew
    rcases hnew with h1 | ⟨c, h1, h2⟩
    · exact Option.noConfusion h1
    · simp only [Option.some.injEq] at h1
      omega
  have hh := manhattan_nonneg goal next
  have hbcur := hinv.bound current cu hcur
  -- the count of positions without a cost
  have hundef : (undefCount U (GoMap.set cs next (cu + 1)) : Int) ≤ undefCount U cs := by
    exact_mod_cast undefCount_set_le U cs next (cu + 1)
  have hboundNext : cu + 1 + 1 + (undefCount U (GoMap.set cs next (cu + 1)) : Int)
      ≤ (U.card : Int) := by
    rcases hnew with h1 | ⟨c, h1, h2⟩
    · have := undefCount_set_lt U cs next (cu + 1) hU h1
      have : (undefCount U (GoMap.set cs next (cu + 1)) : Int) + 1 ≤ undefCount U cs := by
        exact_mod_cast this
      omega
    · have := hinv.bound next c h1
      omega
  have hslack : (cu + 1).toNat < costSlack U.card cs next := by
    unfold costSlack
    rcases hnew with h1 | ⟨c, h1, h2⟩
    · rw [h1]
      simp only
      omega
    · rw [h1]
      simp only
      omega
  refine ⟨⟨?_, ?_, ?_, ?_, ?_, ?_⟩, ?_, ⟨?_, ?_, ?_⟩⟩
  · rw [GoMap.get?_set, if_neg hns]
    exact hinv.start_cost
  · intro v c hv
    rw [GoMap.get?_set] at hv
    split_ifs at hv with h
    · simp only [Option.some.injEq] at hv
      omega
    · exact hinv.nonneg v c hv
  · intro v c hv hvs
    rw [GoMap.get?_set] at hv
    split_ifs at hv with h
    · subst h
      simp only [Option.some.injEq] at hv
      refine ⟨current, cu, ?_, ?_, by omega, hadj, hw⟩
      · rw [GoMap.get?_set, if_pos rfl]
      · rw [GoMap.get?_set, if_neg hnc]
        exact hcur
    · obtain ⟨u, cu1, hfrom, hcost, hle, hadj1, hw1⟩ := hinv.pred v c hv hvs
      by_cases hu : next = u
      · subst hu
        refine ⟨next, cu + 1, ?_, ?_, ?_, hadj1, hw1⟩
        · rw [GoMap.get?_set, if_neg h]
          exact hfrom
        · rw [GoMap.get?_set, if_pos rfl]
        · rcases hnew with h1 | ⟨c2, h1, h2⟩
          · rw [h1] at hcost
            exact Option.noConfusion hcost
          · rw [h1] at hcost
            simp only [Option.some.injEq] at hcost
            omega
      · refine ⟨u, cu1, ?_, ?_, hle, hadj1, hw1⟩
        · rw [GoMap.get?_set, if_neg h]
          exact hfrom
        · rw [GoMap.get?_set, if_neg hu]
          exact hcost
  · intro e he
    rcases Multiset.mem_cons.mp he with he | he
    · subst he
      refine ⟨cu + 1, ?_, by simp only; omega⟩
      simp only
      rw [GoMap.get?_set, if_pos rfl]
    · obtain ⟨c, hc, hle⟩ := hinv.entry e he
      by_cases h : next = e.1
      · refine ⟨cu + 1, ?_, ?_⟩
        · rw [GoMap.get?_set, if_pos h]
        · rcases hnew with h1 | ⟨c2, h1, h2⟩
          · rw [h, hc] at h1
            exact Option.noConfusion h1
          · rw [h, hc] at h1
            simp only [Option.some.injEq] at h1
            omega
      · refine ⟨c, ?_, hle⟩
        rw [GoMap.get?_set, if_neg h]
        exact hc
  · intro v c hv
    rw [GoMap.get?_set] at hv
    split_ifs at hv with h
    · subst h
      exact hU
    · exact hinv.inU v c hv
  · intro v c hv
    rw [GoMap.get?_set] at hv
    split_ifs at hv with h
    · simp only [Option.some.injEq] at hv
      omega
    · have := hinv.bound v c hv
      omega
  · unfold searchMeasure
    have := costSlack_set_sum_lt U cs next (cu + 1) hU hslack
    omega
  · intro w c hwc
    by_cases h : next = w
    · subst h
      refine ⟨cu + 1, ?_, ?_⟩
      · rw [GoMap.get?_set, if_pos rfl]
      · rcases hnew with h1 | ⟨c2, h1, h2⟩
        · rw [hwc] at h1
          exact Option.noConfusion h1
        · rw [hwc] at h1
          simp only [Option.some.injEq] at h1
          omega
    · refine ⟨c, ?_, le_refl c⟩
      rw [GoMap.get?_set, if_neg h]
      exact hwc
  · intro e he
    exact Multiset.mem_cons_of_mem he
  · intro w c1 hwc
    rw [GoMap.get?_set] at hwc
    split_ifs at hwc with h
    · subst h
      simp only [Option.some.injEq] at hwc
      right
      refine ⟨cu + 1 + manhattan goal next, Multiset.mem_cons_self _ _, by omega⟩
    · left
      exact hwc

end SearchUpdate

section SearchVisit

theorem SearchMono.refl (goal : Pos) (E : Multiset (Pos × Int)) (cs : GoMap Pos Int) :
    SearchMono goal E cs E cs :=
  ⟨fun _ c h => ⟨c, h, le_refl c⟩, fun _ h => h, fun _ _ h => Or.inl h⟩

theorem SearchMono.trans (goal : Pos) (E E1 E2 : Multiset (Pos × Int))
    (cs cs1 cs2 : GoMap Pos Int) (h1 : SearchMono goal E cs E1 cs1)
    (h2 : SearchMono goal E1 cs1 E2 cs2) : SearchMono goal E cs E2 cs2 := by
  obtain ⟨a1, b1, c1⟩ := h1
  obtain ⟨a2, b2, c2⟩ := h2
  refine ⟨?_, fun e he => b2 e (b1 e he), ?_⟩
  · intro w c hw
    obtain ⟨x, hx, hxc⟩ := a1 w c hw
    obtain ⟨y, hy, hyx⟩ := a2 w x hx
    exact ⟨y, hy, le_trans hyx hxc⟩
  · intro w x hw
    rcases c2 w x hw with h | ⟨pr, hpr, hle⟩
    · rcases c1 w x h with h | ⟨pr, hpr, hle⟩
      · exact Or.inl h
      · exact Or.inr ⟨pr, b2 _ hpr, hle⟩
    · exact Or.inr ⟨pr, hpr, hle⟩

theorem aStarVisit_spec (pq : PQueueImpl) (ent : pq.Q → Multiset (Pos × Int))
    (hpush : ∀ q p pr, ent (pq.push q p pr) = (p, pr) ::ₘ ent q)
    (level : Level) (start goal current next : Pos) (U : Finset Pos)
    (st : AStarState pq.Q) (cu : Int)
    (hinv : SearchInv level start U (ent st.frontier) st.cameFrom st.costSoFar)
    (hcur : GoMap.get? st.costSoFar current = some cu)
    (hadj : current.adjacent next) (hw : canWalk level next = .ok true) (hU : next ∈ U) :
    SearchInv level start U (ent (aStarVisit pq goal current st next).frontier)
        (aStarVisit pq goal current st next).cameFrom
        (aStarVisit pq goal current st next).costSoFar ∧
      searchMeasure U (Multiset.card (ent (aStarVisit pq goal current st next).frontier))
          (aStarVisit pq goal current st next).costSoFar
        ≤ searchMeasure U (Multiset.card (ent st.frontier)) st.costSoFar ∧
      GoMap.get? (aStarVisit pq goal current st next).costSoFar current = some cu ∧
      SearchMono goal (ent st.frontier) st.costSoFar
        (ent (aStarVisit pq goal current st next).frontier)
        (aStarVisit pq goal current st next).costSoFar ∧
      ∃ c1, GoMap.get? (aStarVisit pq goal current st next).costSoFar next = some c1 ∧
        c1 ≤ cu + 1 := by
  have hnc : next ≠ current := Pos.adjacent_ne current next hadj
  by_cases hnew : GoMap.get? st.costSoFar next = none ∨
      ∃ c, GoMap.get? st.costSoFar next = some c ∧ cu + 1 < c
  · have hst : aStarVisit pq goal current st next =
        { frontier := pq.push st.frontier next (cu + 1 + manhattan goal next)
          cameFrom := GoMap.set st.cameFrom next current
          costSoFar := GoMap.set st.costSoFar next (cu + 1) } := by
      unfold aStarVisit
      simp only [hcur, Option.getD_some]
      have himp : (match GoMap.get? st.costSoFar next with
          | none => true
          | some c => decide (cu + 1 < c)) = true := by
        rcases hnew with h | ⟨c, h, hlt⟩
        · rw [h]
        · rw [h]
          simp [hlt]
      rw [if_pos himp]
      unfold manhattan
      rw [add_assoc (cu + 1)]
    rw [hst]
    simp only [hpush]
    obtain ⟨h1, h2, h3⟩ := searchUpdate level start goal U (ent st.frontier) st.cameFrom
      st.costSoFar current next cu hinv hcur hadj hw hU hnew
    refine ⟨h1, ?_, ?_, h3, ⟨cu + 1, ?_, le_refl _⟩⟩
    · rw [Multiset.card_cons]
      exact h2
    · rw [GoMap.get?_set, if_neg hnc]
      exact hcur
    · rw [GoMap.get?_set, if_pos rfl]
  · have hold : ∃ c, GoMap.get? st.costSoFar next = some c ∧ c ≤ cu + 1 := by
      cases hg : GoMap.get? st.costSoFar next with
      | none => exact absurd (Or.inl hg) hnew
      | some c =>
        refine ⟨c, rfl, ?_⟩
        by_contra hlt
        exact hnew (Or.inr ⟨c, hg, by omega⟩)
    obtain ⟨c, hc, hle⟩ := hold
    have hst : aStarVisit pq goal current st next = st := by
      unfold aStarVisit
      simp only [hcur, Option.getD_some, hc]
      have : ¬ (cu + 1 < c) := by omega
      simp [this]
    rw [hst]
    exact ⟨hinv, le_refl _, hcur, SearchMono.refl _ _ _, c, hc, hle⟩

theorem aStarVisits_spec (pq : PQueueImpl) (ent : pq.Q → Multiset (Pos × Int))
    (hpush : ∀ q p pr, ent (pq.push q p pr) = (p, pr) ::ₘ ent q)
    (level : Level) (start goal current : Pos) (U : Finset Pos) (cu : Int)
    (ns : List Pos)
    (hns : ∀ n ∈ ns, current.adjacent n ∧ canWalk level n = .ok true ∧ n ∈ U) :
    ∀ st : AStarState pq.Q,
      SearchInv level start U (ent st.frontier) st.cameFrom st.costSoFar →
      GoMap.get? st.costSoFar current = some cu →
      SearchInv level start U (ent (ns.foldl (aStarVisit pq goal current) st).frontier)
          (ns.foldl (aStarVisit pq goal current) st).cameFrom
          (ns.foldl (aStarVisit pq goal current) st).costSoFar ∧
        searchMeasure U (Multiset.card (ent (ns.foldl (aStarVisit pq goal current) st).frontier))
            (ns.foldl (aStarVisit pq goal current) st).costSoFar
          ≤ searchMeasure U (Multiset.card (ent st.frontier)) st.costSoFar ∧
        GoMap.get? (ns.foldl (aStarVisit pq goal current) st).costSoFar current = some cu ∧
        SearchMono goal (ent st.frontier) st.costSoFar
          (ent (ns.foldl (aStarVisit pq goal current) st).frontier)
          (ns.foldl (aStarVisit pq goal current) st).costSoFar ∧
        ∀ n ∈ ns, ∃ c1,
          GoMap.get? (ns.foldl (aStarVisit pq goal current) st).costSoFar n = some c1 ∧
            c1 ≤ cu + 1 := by
  induction ns with
  | nil =>
    intro st hinv hcur
    exact ⟨hinv, le_refl _, hcur, SearchMono.refl _ _ _, fun n hn => absurd hn (List.not_mem_nil n)⟩
  | cons n rest ih =>
    intro st hinv hcur
    obtain ⟨hadj, hw, hU⟩ := hns n (List.mem_cons_self _ _)
    obtain ⟨i1, m1, c1, mono1, x, hx, hxle⟩ :=
      aStarVisit_spec pq ent hpush level start goal current n U st cu hinv hcur hadj hw hU
    obtain ⟨i2, m2, c2, mono2, hrest⟩ :=
      ih (fun k hk => hns k (List.mem_cons_of_mem _ hk)) (aStarVisit pq goal current st n) i1 c1
    simp only [List.foldl_cons]
    refine ⟨i2, le_trans m2 m1, c2, SearchMono.trans _ _ _ _ _ _ _ mono1 mono2, ?_⟩
    intro k hk
    rcases List.mem_cons.mp hk with hk | hk
    · subst hk
      obtain ⟨y, hy, hyx⟩ := mono2.1 k x hx
      exact ⟨y, hy, le_trans hyx hxle⟩
    · exact hrest k hk

end SearchVisit

section SearchPath

theorem aStarPath_spec (level : Level) (start : Pos) (U : Finset Pos)
    (E : Multiset (Pos × Int)) (cf : GoMap Pos Pos) (cs : GoMap Pos Int)
    (hinv : SearchInv level start U E cf cs) :
    ∀ (n : Nat) (v : Pos) (c : Int), GoMap.get? cs v = some c → c.toNat ≤ n →
      ∀ (fuel : Nat) (acc : List Pos), n + 1 ≤ fuel →
        ∃ chain, aStarPath cf start fuel v acc = .ok (chain ++ acc.reverse) ∧
          level.isRoute start v chain ∧ (chain.length : Int) ≤ c + 1 := by
  intro n
  induction n with
  | zero =>
    intro v c hv hc fuel acc hfuel
    have hc0 := hinv.nonneg v c hv
    have hvs : v = start := by
      by_contra hne
      obtain ⟨u, cu, _, hcu, hle, _, _⟩ := hinv.pred v c hv hne
      have := hinv.nonneg u cu hcu
      omega
    obtain ⟨f, rfl⟩ : ∃ f, fuel = f + 1 := ⟨fuel - 1, by omega⟩
    refine ⟨[start], ?_, ⟨rfl, by rw [hvs]; rfl, List.chain'_singleton _, by simp⟩, by simp; omega⟩
    unfold aStarPath
    rw [if_pos hvs, hvs]
    simp
  | succ m ih =>
    intro v c hv hc fuel acc hfuel
    have hc0 := hinv.nonneg v c hv
    obtain ⟨f, rfl⟩ : ∃ f, fuel = f + 1 := ⟨fuel - 1, by omega⟩
    by_cases hvs : v = start
    · refine ⟨[start], ?_, ⟨rfl, by rw [hvs]; rfl, List.chain'_singleton _, by simp⟩,
        by simp; omega⟩
      unfold aStarPath
      rw [if_pos hvs, hvs]
      simp
    · obtain ⟨u, cu, hfrom, hcu, hle, hadj, hw⟩ := hinv.pred v c hv hvs
      have hcu0 := hinv.nonneg u cu hcu
      obtain ⟨chain, hrun, ⟨hhead, hlast, hchain, htail⟩, hlen⟩ :=
        ih u cu hcu (by omega) f (acc ++ [v]) (by omega)
      refine ⟨chain ++ [v], ?_, ⟨?_, ?_, ?_, ?_⟩, ?_⟩
      · unfold aStarPath
        rw [if_neg hvs, hfrom]
        simp only [Option.getD_some]
        rw [hrun]
        simp
      · cases chain with
        | nil => simp at hhead
        | cons x xs => simpa using hhead
      · simp
      · rw [List.chain'_append]
        refine ⟨hchain, List.chain'_singleton _, ?_⟩
        intro x hx y hy
        rw [hlast] at hx
        simp only [Option.mem_def, Option.some.injEq] at hx
        simp only [List.head?_cons, Option.mem_def, Option.some.injEq] at hy
        subst hx; subst hy
        exact hadj
      · intro p hp
        cases chain with
        | nil => simp at hhead
        | cons x xs =>
          simp only [List.cons_append, List.tail_cons, List.mem_append, List.mem_singleton] at hp
          rcases hp with hp | hp
          · exact htail p (by simpa using hp)
          · rw [hp]; exact hw
      · simp only [List.length_append, List.length_singleton]
        push_cast
        omega

end SearchPath

section SearchLoop

theorem SearchInv.of_entries_subset (level : Level) (start : Pos) (U : Finset Pos)
    (E E1 : Multiset (Pos × Int)) (cf : GoMap Pos Pos) (cs : GoMap Pos Int)
    (hinv : SearchInv level start U E cf cs) (hsub : ∀ e ∈ E1, e ∈ E) :
    SearchInv level start U E1 cf cs :=
  ⟨hinv.start_cost, hinv.nonneg, hinv.pred, fun e he => hinv.entry e (hsub e he), hinv.inU,
    hinv.bound⟩

theorem aStarLoop_succ (pq : PQueueImpl) (level : Level) (start goal : Pos) (fuel : Nat)
    (st : AStarState pq.Q) :
    aStarLoop pq level start goal (fuel + 1) st =
      if pq.len st.frontier = 0 then .ok []
      else if (pq.pop st.frontier).2 = goal then
        aStarPath st.cameFrom start fuel (pq.pop st.frontier).2 []
      else
        (getNeighbors level (pq.pop st.frontier).2).bind fun neighbors =>
          aStarLoop pq level start goal fuel
            (neighbors.foldl (aStarVisit pq goal (pq.pop st.frontier).2)
              { st with frontier := (pq.pop st.frontier).1 }) := rfl

/-- One iteration of the main loop that does not pop the goal: the invariant is kept
and the measure decreases. -/
theorem aStarLoop_iteration (pq : PQueueImpl) (ent : pq.Q → Multiset (Pos × Int))
    (hpush : ∀ q p pr, ent (pq.push q p pr) = (p, pr) ::ₘ ent q)
    (level : Level) (start goal : Pos)
    (htot : ∀ q, ∃ b, canWalk level q = .ok b)
    (st : AStarState pq.Q) (pr : Int)
    (hinv : SearchInv level start (level.searchSpace start) (ent st.frontier)
      st.cameFrom st.costSoFar)
    (hpop : ent st.frontier = ((pq.pop st.frontier).2, pr) ::ₘ ent (pq.pop st.frontier).1) :
    ∃ cu ns st1, GoMap.get? st.costSoFar (pq.pop st.frontier).2 = some cu ∧ cu ≤ pr ∧
      getNeighbors level (pq.pop st.frontier).2 = .ok ns ∧
      (∀ n, n ∈ ns ↔ (pq.pop st.frontier).2.adjacent n ∧ canWalk level n = .ok true) ∧
      st1 = ns.foldl (aStarVisit pq goal (pq.pop st.frontier).2)
        { st with frontier := (pq.pop st.frontier).1 } ∧
      SearchInv level start (level.searchSpace start) (ent st1.frontier)
        st1.cameFrom st1.costSoFar ∧
      searchMeasure (level.searchSpace start) (Multiset.card (ent st1.frontier)) st1.costSoFar
        + 1 ≤ searchMeasure (level.searchSpace start) (Multiset.card (ent st.frontier))
          st.costSoFar ∧
      GoMap.get? st1.costSoFar (pq.pop st.frontier).2 = some cu ∧
      SearchMono goal (ent (pq.pop st.frontier).1) st.costSoFar (ent st1.frontier)
        st1.costSoFar ∧
      ∀ n ∈ ns, ∃ c1, GoMap.get? st1.costSoFar n = some c1 ∧ c1 ≤ cu + 1 := by
  have hmem : ((pq.pop st.frontier).2, pr) ∈ ent st.frontier := by
    rw [hpop]; exact Multiset.mem_cons_self _ _
  obtain ⟨cu, hcu, hle⟩ := hinv.entry _ hmem
  obtain ⟨ns, hns, hnsmem⟩ := getNeighbors_spec level (pq.pop st.frontier).2 htot
  have hinv1 : SearchInv level start (level.searchSpace start) (ent (pq.pop st.frontier).1)
      st.cameFrom st.costSoFar :=
    SearchInv.of_entries_subset level start _ _ _ _ _ hinv
      (fun e he => by rw [hpop]; exact Multiset.mem_cons_of_mem he)
  obtain ⟨i2, m2, c2, mono2, hrest⟩ :=
    aStarVisits_spec pq ent hpush level start goal (pq.pop st.frontier).2
      (level.searchSpace start) cu ns
      (fun n hn => ⟨((hnsmem n).mp hn).1, ((hnsmem n).mp hn).2,
        mem_searchSpace_of_canWalk level start n ((hnsmem n).mp hn).2⟩)
      { st with frontier := (pq.pop st.frontier).1 } hinv1 hcu
  refine ⟨cu, ns, _, hcu, hle, hns, hnsmem, rfl, i2, ?_, c2, mono2, hrest⟩
  have hcard : Multiset.card (ent st.frontier)
      = Multiset.card (ent (pq.pop st.frontier).1) + 1 := by
    rw [hpop, Multiset.card_cons]
  have hm : searchMeasure (level.searchSpace start) (Multiset.card (ent st.frontier))
      st.costSoFar = searchMeasure (level.searchSpace start)
        (Multiset.card (ent (pq.pop st.frontier).1)) st.costSoFar + 1 := by
    unfold searchMeasure
    rw [hcard]
    omega
  rw [hm]
  exact Nat.succ_le_succ m2

theorem aStarLoop_unreachable (pq : PQueueImpl) (ent : pq.Q → Multiset (Pos × Int))
    (hpush : ∀ q p pr, ent (pq.push q p pr) = (p, pr) ::ₘ ent q)
    (hlen : ∀ q, pq.len q = Multiset.card (ent q))
    (hpop : ∀ q, ent q ≠ 0 → ∃ pr, ent q = ((pq.pop q).2, pr) ::ₘ ent (pq.pop q).1)
    (level : Level) (start goal : Pos)
    (htot : ∀ q, ∃ b, canWalk level q = .ok b)
    (hno : ∀ r, ¬ level.isRoute start goal r) :
    ∀ (n : Nat) (st : AStarState pq.Q),
      SearchInv level start (level.searchSpace start) (ent st.frontier)
        st.cameFrom st.costSoFar →
      searchMeasure (level.searchSpace start) (Multiset.card (ent st.frontier))
        st.costSoFar ≤ n →
      ∀ fuel, n + 1 ≤ fuel → aStarLoop pq level start goal fuel st = .ok [] := by
  intro n
  induction n with
  | zero =>
    intro st _ hm fuel hfuel
    obtain ⟨f, rfl⟩ : ∃ f, fuel = f + 1 := ⟨fuel - 1, by omega⟩
    rw [aStarLoop_succ]
    have : pq.len st.frontier = 0 := by
      rw [hlen]
      unfold searchMeasure at hm
      omega
    rw [if_pos this]
  | succ m ih =>
    intro st hinv hm fuel hfuel
    obtain ⟨f, rfl⟩ : ∃ f, fuel = f + 1 := ⟨fuel - 1, by omega⟩
    rw [aStarLoop_succ]
    by_cases hz : pq.len st.frontier = 0
    · rw [if_pos hz]
    · rw [if_neg hz]
      have hne : ent st.frontier ≠ 0 := by
        intro h
        apply hz
        rw [hlen, h]
        rfl
      obtain ⟨pr, hpopq⟩ := hpop st.frontier hne
      obtain ⟨cu, ns, st1, hcu, _, hns, _, hst1, hinv1, hm1, _⟩ :=
        aStarLoop_iteration pq ent hpush level start goal htot st pr hinv hpopq
      by_cases hg : (pq.pop st.frontier).2 = goal
      · exfalso
        rw [hg] at hcu
        obtain ⟨chain, _, hroute, _⟩ :=
          aStarPath_spec level start _ _ _ _ hinv cu.toNat goal cu hcu (le_refl _)
            (cu.toNat + 1) [] (le_refl _)
        exact hno chain hroute
      · rw [if_neg hg, hns]
        simp only [Outcome.bind]
        rw [← hst1]
        exact ih st1 hinv1 (by omega) f (by omega)

end SearchLoop

section SearchRoute

theorem route_admissible (level : Level) (goal : Pos) (v : Nat → Pos) (k : Nat)
    (hvk : v k = goal)
    (hstep : ∀ i, i < k → (v i).adjacent (v (i + 1)) ∧ canWalk level (v (i + 1)) = .ok true) :
    ∀ j, j ≤ k → manhattan goal (v (k - j)) ≤ (j : Int) := by
  intro j
  induction j with
  | zero =>
    intro _
    rw [Nat.sub_zero, hvk, manhattan_self]
    rfl
  | succ j ih =>
    intro hj
    have h1 := ih (by omega)
    have h2 := (hstep (k - (j + 1)) (by omega)).1
    have e : k - (j + 1) + 1 = k - j := by omega
    rw [e] at h2
    have h3 := manhattan_adjacent goal _ _ h2
    push_cast
    omega

theorem routeInv_entry (goal : Pos) (v : Nat → Pos) (k : Nat) (E : Multiset (Pos × Int))
    (cs : GoMap Pos Int) (hroute : RouteInv goal v k E cs)
    (hadm : ∀ j, j ≤ k → manhattan goal (v (k - j)) ≤ (j : Int)) :
    ∀ j i, k - i = j → i ≤ k → (∃ c, GoMap.get? cs (v i) = some c ∧ c ≤ (i : Int)) →
      ∃ i1 pr, (v i1, pr) ∈ E ∧ pr ≤ (k : Int) := by
  intro j
  induction j with
  | zero =>
    intro i hj hi ⟨c, hc, hle⟩
    rcases hroute i hi c hc hle with ⟨pr, hpr, hprle⟩ | ⟨hlt, _⟩
    · have := hadm (k - i) (by omega)
      have e : k - (k - i) = i := by omega
      rw [e] at this
      exact ⟨i, pr, hpr, by omega⟩
    · omega
  | succ j ih =>
    intro i hj hi ⟨c, hc, hle⟩
    rcases hroute i hi c hc hle with ⟨pr, hpr, hprle⟩ | ⟨hlt, c1, hc1, hc1le⟩
    · have := hadm (k - i) (by omega)
      have e : k - (k - i) = i := by omega
      rw [e] at this
      exact ⟨i, pr, hpr, by omega⟩
    · exact ih (i + 1) (by omega) (by omega) ⟨c1, hc1, by push_cast; omega⟩

theorem aStarLoop_reaches (pq : PQueueImpl) (ent : pq.Q → Multiset (Pos × Int))
    (hpush : ∀ q p pr, ent (pq.push q p pr) = (p, pr) ::ₘ ent q)
    (hlen : ∀ q, pq.len q = Multiset.card (ent q))
    (hpop : ∀ q, ent q ≠ 0 → ∃ pr, ent q = ((pq.pop q).2, pr) ::ₘ ent (pq.pop q).1 ∧
      ∀ e ∈ ent q, pr ≤ e.2)
    (level : Level) (start goal : Pos)
    (htot : ∀ q, ∃ b, canWalk level q = .ok b)
    (v : Nat → Pos) (k : Nat) (hv0 : v 0 = start) (hvk : v k = goal)
    (hstep : ∀ i, i < k → (v i).adjacent (v (i + 1)) ∧ canWalk level (v (i + 1)) = .ok true) :
    ∀ (n : Nat) (st : AStarState pq.Q),
      SearchInv level start (level.searchSpace start) (ent st.frontier)
        st.cameFrom st.costSoFar →
      RouteInv goal v k (ent st.frontier) st.costSoFar →
      searchMeasure (level.searchSpace start) (Multiset.card (ent st.frontier))
        st.costSoFar ≤ n →
      ∀ fuel, n + (level.searchSpace start).card + 1 ≤ fuel →
        ∃ path, aStarLoop pq level start goal fuel st = .ok path ∧
          level.isRoute start goal path ∧ path.length ≤ k + 1 := by
  have hadm := route_admissible level goal v k hvk hstep
  have hgood : ∀ st : AStarState pq.Q,
      SearchInv level start (level.searchSpace start) (ent st.frontier)
        st.cameFrom st.costSoFar →
      RouteInv goal v k (ent st.frontier) st.costSoFar →
      ∃ i1 pr, (v i1, pr) ∈ ent st.frontier ∧ pr ≤ (k : Int) := by
    intro st hinv hroute
    exact routeInv_entry goal v k _ _ hroute hadm k 0 (by omega) (by omega)
      ⟨0, by rw [hv0]; exact hinv.start_cost, by simp⟩
  intro n
  induction n with
  | zero =>
    intro st hinv hroute hm fuel _
    exfalso
    obtain ⟨i1, pr, hmem, _⟩ := hgood st hinv hroute
    have : 0 < Multiset.card (ent st.frontier) := Multiset.card_pos_iff_exists_mem.mpr ⟨_, hmem⟩
    unfold searchMeasure at hm
    omega
  | succ m ih =>
    intro st hinv hroute hm fuel hfuel
    obtain ⟨f, rfl⟩ : ∃ f, fuel = f + 1 := ⟨fuel - 1, by omega⟩
    obtain ⟨i1, pr1, hmem1, hpr1⟩ := hgood st hinv hroute
    have hne : ent st.frontier ≠ 0 := by
      intro h
      rw [h] at hmem1
      exact Multiset.not_mem_zero _ hmem1
    have hz : pq.len st.frontier ≠ 0 := by
      rw [hlen]
      exact fun h => hne (Multiset.card_eq_zero.mp h)
    obtain ⟨pr, hpopq, hmin⟩ := hpop st.frontier hne
    have hprk : pr ≤ (k : Int) := le_trans (hmin _ hmem1) hpr1
    obtain ⟨cu, ns, st1, hcu, hcule, hns, hnsmem, hst1, hinv1, hm1, hcu1, mono, hrest⟩ :=
      aStarLoop_iteration pq ent hpush level start goal htot st pr hinv hpopq
    rw [aStarLoop_succ, if_neg hz]
    by_cases hg : (pq.pop st.frontier).2 = goal
    · rw [if_pos hg, hg]
      rw [hg] at hcu
      have hb := hinv.bound goal cu hcu
      have hcu0 := hinv.nonneg goal cu hcu
      obtain ⟨chain, hrun, hchain, hlen1⟩ :=
        aStarPath_spec level start _ _ _ _ hinv cu.toNat goal cu hcu (le_refl _) f []
          (by omega)
      refine ⟨chain, ?_, hchain, ?_⟩
      · rw [hrun]
        simp
      · omega
    · rw [if_neg hg, hns]
      simp only [Outcome.bind]
      rw [← hst1]
      refine ih st1 hinv1 ?_ (by omega) f (by omega)
      intro i hi c1 hc1 hle
      rcases mono.2.2 (v i) c1 hc1 with hold | ⟨pr0, hpr0, hle0⟩
      · rcases hroute i hi c1 hold hle with ⟨pr0, hpr0, hle0⟩ | ⟨hlt, c2, hc2, hc2le⟩
        · rw [hpopq] at hpr0
          rcases Multiset.mem_cons.mp hpr0 with heq | hin
          · have hvi : v i = (pq.pop st.frontier).2 := (Prod.mk.inj heq).1
            have hik : i < k := by
              rcases Nat.lt_or_ge i k with h | h
              · exact h
              · exfalso
                have : i = k := by omega
                rw [this, hvk] at hvi
                exact hg hvi.symm
            right
            refine ⟨hik, ?_⟩
            have hnext := hstep i hik
            rw [hvi] at hnext
            obtain ⟨c3, hc3, hc3le⟩ := hrest (v (i + 1)) ((hnsmem _).mpr hnext)
            refine ⟨c3, hc3, ?_⟩
            rw [hvi, hcu] at hold
            simp only [Option.some.injEq] at hold
            omega
          · left
            exact ⟨pr0, mono.2.1 _ hin, hle0⟩
        · right
          obtain ⟨c3, hc3, hc3le⟩ := mono.1 (v (i + 1)) c2 hc2
          exact ⟨hlt, c3, hc3, by omega⟩
      · left
        exact ⟨pr0, hpr0, by omega⟩

end SearchRoute

section SearchMain

theorem isRoute_function (level : Level) (start goal : Pos) (r : List Pos)
    (h : level.isRoute start goal r) :
    ∃ (v : Nat → Pos) (k : Nat), k + 1 = r.length ∧ v 0 = start ∧ v k = goal ∧
      ∀ i, i < k → (v i).adjacent (v (i + 1)) ∧ canWalk level (v (i + 1)) = .ok true := by
  obtain ⟨hhead, hlast, hchain, htail⟩ := h
  have hne : r ≠ [] := by
    intro h0
    rw [h0] at hhead
    exact Option.noConfusion hhead
  have hlen : 0 < r.length := List.length_pos.mpr hne
  refine ⟨fun i => r.getD i start, r.length - 1, by omega, ?_, ?_, ?_⟩
  · cases r with
    | nil => exact absurd rfl hne
    | cons x xs =>
      simp only [List.head?_cons, Option.some.injEq] at hhead
      simp [hhead]
  · rw [List.getLast?_eq_getElem?] at hlast
    simp only [List.getD_eq_getElem?_getD, hlast, Option.getD_some]
  · intro i hi
    have h1 : i < r.length := by omega
    have h2 : i + 1 < r.length := by omega
    have e1 : r.getD i start = r[i] := List.getD_eq_getElem _ _ h1
    have e2 : r.getD (i + 1) start = r[i + 1] := List.getD_eq_getElem _ _ h2
    simp only [e1, e2]
    constructor
    · have := List.chain'_iff_get.mp hchain i hi
      simpa using this
    · apply htail
      rw [List.mem_iff_getElem?]
      refine ⟨i, ?_⟩
      rw [List.getElem?_tail, List.getElem?_eq_getElem h2]

theorem undefCount_nil (U : Finset Pos) : undefCount U [] = U.card := by
  unfold undefCount
  simp [GoMap.get?]

theorem costSlack_le (M : Nat) (cs : GoMap Pos Int) (v : Pos)
    (h : ∀ c, GoMap.get? cs v = some c → c.toNat ≤ M) : costSlack M cs v ≤ M := by
  unfold costSlack
  cases hc : GoMap.get? cs v with
  | none => exact le_refl _
  | some c => exact h c hc

theorem aStar_init (pq : PQueueImpl) (ent : pq.Q → Multiset (Pos × Int))
    (hempty : ent pq.empty = 0)
    (hpush : ∀ q p pr, ent (pq.push q p pr) = (p, pr) ::ₘ ent q)
    (level : Level) (start : Pos) :
    ent (pq.push pq.empty start 1) = {(start, 1)} ∧
    SearchInv level start (level.searchSpace start) (ent (pq.push pq.empty start 1))
      (GoMap.set [] start start) (GoMap.set [] start 0) ∧
    searchMeasure (level.searchSpace start) (Multiset.card (ent (pq.push pq.empty start 1)))
      (GoMap.set [] start 0)
      ≤ 1 + 2 * ((level.searchSpace start).card * (level.searchSpace start).card) := by
  have hE : ent (pq.push pq.empty start 1) = {(start, 1)} := by
    rw [hpush, hempty]
    rfl
  have hsU : start ∈ level.searchSpace start := Finset.mem_insert_self _ _
  have hget : ∀ v c, GoMap.get? (GoMap.set ([] : GoMap Pos Int) start 0) v = some c →
      v = start ∧ c = 0 := by
    intro v c hv
    rw [GoMap.get?_set] at hv
    split_ifs at hv with h
    · simp only [Option.some.injEq] at hv
      exact ⟨h.symm, hv.symm⟩
    · simp [GoMap.get?] at hv
  have hundef := undefCount_set_lt (level.searchSpace start) [] start 0 hsU rfl
  rw [undefCount_nil] at hundef
  refine ⟨hE, ⟨?_, ?_, ?_, ?_, ?_, ?_⟩, ?_⟩
  · rw [GoMap.get?_set, if_pos rfl]
  · intro v c hv
    rw [(hget v c hv).2]
  · intro v c hv hne
    exact absurd (hget v c hv).1 hne
  · intro e he
    rw [hE, Multiset.mem_singleton] at he
    subst he
    exact ⟨0, by rw [GoMap.get?_set, if_pos rfl], by simp⟩
  · intro v c hv
    rw [(hget v c hv).1]
    exact hsU
  · intro v c hv
    rw [(hget v c hv).2]
    omega
  · unfold searchMeasure
    rw [hE]
    have hsum : ∑ v ∈ level.searchSpace start,
        costSlack (level.searchSpace start).card (GoMap.set [] start 0) v
        ≤ (level.searchSpace start).card * (level.searchSpace start).card := by
      have := Finset.sum_le_card_nsmul (level.searchSpace start)
        (fun v => costSlack (level.searchSpace start).card (GoMap.set [] start 0) v)
        (level.searchSpace start).card
        (fun v _ => costSlack_le _ _ v (fun c hc => by rw [(hget v c hc).2]; simp))
      simpa using this
    simp only [Multiset.card_singleton]
    omega

theorem mapNonempty_of_canWalk (level : Level) (p : Pos) (h : canWalk level p = .ok true) :
    level.Map ≠ [] := by
  intro hm
  unfold canWalk inRange at h
  rw [hm] at h
  exact Outcome.noConfusion h

/-- C2, amended: on a level whose rows are all at least as wide as row 0 (every
rectangular grid is), with a frontier that always pops an entry of minimum priority, if
some 4-directional route leads from start to goal whose every position after the start
satisfies `canWalk`, then `aStar(start, goal)` terminates (every fuel from some N on is
enough) and returns a list that begins with start, ends with goal, has every consecutive
pair 4-adjacent and every position after the first walkable, and that is no longer than
any such route: its number of steps is the minimum. -/
theorem aStar_shortest (pq : PQueueImpl) (hpq : pq.PopsMinimum) (level : Level)
    (start goal : Pos) (hrows : level.rowsCoverWidth) (route : List Pos)
    (hroute : level.isRoute start goal route) :
    ∃ N, ∀ fuel, N ≤ fuel →
      ∃ path, level.aStar pq start goal fuel = .ok path ∧ level.isRoute start goal path ∧
        ∀ r, level.isRoute start goal r → path.length ≤ r.length := by
  obtain ⟨ent, hempty, hpush, hlen, hpop⟩ := hpq
  obtain ⟨hE, hinv0, hm0⟩ := aStar_init pq ent hempty hpush level start
  refine ⟨1 + 2 * ((level.searchSpace start).card * (level.searchSpace start).card)
    + (level.searchSpace start).card + 1, ?_⟩
  intro fuel hfuel
  by_cases hsg : start = goal
  · subst hsg
    obtain ⟨f, rfl⟩ : ∃ f, fuel = f + 1 := ⟨fuel - 1, by omega⟩
    obtain ⟨g, rfl⟩ : ∃ g, f = g + 1 := ⟨f - 1, by
      have : 0 < (level.searchSpace start).card :=
        Finset.card_pos.mpr ⟨start, Finset.mem_insert_self _ _⟩
      omega⟩
    have hne : ent (pq.push pq.empty start 1) ≠ 0 := by
      rw [hE]
      exact Multiset.singleton_ne_zero _
    obtain ⟨pr, hpopq, _⟩ := hpop _ hne
    have hcur : (pq.pop (pq.push pq.empty start 1)).2 = start := by
      have hmem : ((pq.pop (pq.push pq.empty start 1)).2, pr)
          ∈ ent (pq.push pq.empty start 1) := by
        rw [hpopq]
        exact Multiset.mem_cons_self _ _
      rw [hE, Multiset.mem_singleton] at hmem
      exact (Prod.mk.inj hmem).1
    have hz : pq.len (pq.push pq.empty start 1) ≠ 0 := by
      rw [hlen, hE]
      simp
    refine ⟨[start], ?_, ⟨rfl, rfl, List.chain'_singleton _, by simp⟩, ?_⟩
    · unfold Level.aStar
      rw [aStarLoop_succ]
      simp only [hz, if_false, hcur, if_true]
      unfold aStarPath
      simp
    · intro r hr
      have : r ≠ [] := by
        intro h0
        rw [h0] at hr
        exact Option.noConfusion hr.1
      exact List.length_pos.mpr this
  · obtain ⟨v, k, hk, hv0, hvk, hstep⟩ := isRoute_function level start goal route hroute
    have hk0 : 0 < k := by
      rcases Nat.eq_zero_or_pos k with h | h
      · exfalso
        rw [h] at hvk
        exact hsg (hv0.symm.trans hvk)
      · exact h
    have hne : level.Map ≠ [] := mapNonempty_of_canWalk level _ (hstep 0 hk0).2
    have htot : ∀ q, ∃ b, canWalk level q = .ok b := fun q => canWalk_total level q hne hrows
    have hrun : ∀ r, level.isRoute start goal r →
        ∃ path, level.aStar pq start goal fuel = .ok path ∧ level.isRoute start goal path ∧
          path.length ≤ r.length := by
      intro r hr
      obtain ⟨w, j, hj, hw0, hwj, hwstep⟩ := isRoute_function level start goal r hr
      have hrinv : RouteInv goal w j (ent (pq.push pq.empty start 1))
          (GoMap.set [] start 0) := by
        intro i _ c hc _
        rw [GoMap.get?_set] at hc
        split_ifs at hc with h
        · left
          refine ⟨1, ?_, ?_⟩
          · rw [hE, ← h]
            exact Multiset.mem_singleton_self _
          · have := manhattan_pos goal (w i) (by rw [← h]; exact hsg)
            omega
        · simp [GoMap.get?] at hc
      obtain ⟨path, hp, hproute, hplen⟩ :=
        aStarLoop_reaches pq ent hpush hlen hpop level start goal htot w j hw0 hwj hwstep
          (1 + 2 * ((level.searchSpace start).card * (level.searchSpace start).card))
          { frontier := pq.push pq.empty start 1, cameFrom := GoMap.set [] start start,
            costSoFar := GoMap.set [] start 0 }
          hinv0 hrinv hm0 fuel (by omega)
      exact ⟨path, hp, hproute, by omega⟩
    obtain ⟨path, hp, hproute, _⟩ := hrun route hroute
    refine ⟨path, hp, hproute, ?_⟩
    intro r hr
    obtain ⟨path1, hp1, _, hlen1⟩ := hrun r hr
    rw [hp] at hp1
    simp only [Outcome.ok.injEq] at hp1
    rw [hp1]
    exact hlen1

/-- C3, amended: on a level with a non-empty grid whose rows are all at least as wide as
row 0, for start != goal such that no 4-directional route leads from start to goal whose
every position after the start satisfies `canWalk`, `aStar(start, goal)` terminates (every
fuel from some N on is enough) and returns the empty (nil) path, whatever entry the
frontier pops. -/
theorem aStar_unreachable (pq : PQueueImpl) (hpq : pq.IsQueue) (level : Level)
    (start goal : Pos) (hne : level.Map ≠ []) (hrows : level.rowsCoverWidth)
    (_hsg : start ≠ goal) (hno : ∀ r, ¬ level.isRoute start goal r) :
    ∃ N, ∀ fuel, N ≤ fuel → level.aStar pq start goal fuel = .ok [] := by
  obtain ⟨ent, hempty, hpush, hlen, hpop⟩ := hpq
  obtain ⟨_, hinv0, hm0⟩ := aStar_init pq ent hempty hpush level start
  have htot : ∀ q, ∃ b, canWalk level q = .ok b := fun q => canWalk_total level q hne hrows
  refine ⟨1 + 2 * ((level.searchSpace start).card * (level.searchSpace start).card) + 1, ?_⟩
  intro fuel hfuel
  exact aStarLoop_unreachable pq ent hpush hlen hpop level start goal htot hno
    (1 + 2 * ((level.searchSpace start).card * (level.searchSpace start).card))
    { frontier := pq.push pq.empty start 1, cameFrom := GoMap.set [] start start,
      costSoFar := GoMap.set [] start 0 }
    hinv0 hm0 fuel hfuel

end SearchMain

section SearchExamples

/-- A goal that is not walkable and differs from the start has no route to it. -/
theorem no_route_of_goal_not_walkable (level : Level) (start goal : Pos) (hsg : start ≠ goal)
    (hw : canWalk level goal ≠ .ok true) : ∀ r, ¬ level.isRoute start goal r := by
  rintro r ⟨hhead, hlast, _, htail⟩
  cases r with
  | nil => exact Option.noConfusion hhead
  | cons x t =>
    simp only [List.head?_cons, Option.some.injEq] at hhead
    subst hhead
    cases t with
    | nil =>
      simp only [List.getLast?_singleton, Option.some.injEq] at hlast
      exact hsg hlast
    | cons y t1 =>
      apply hw
      apply htail
      rw [List.getLast?_cons_cons] at hlast
      simp only [List.tail_cons]
      exact List.mem_of_getLast?_eq_some hlast

/-- A goal whose four neighbours are all not walkable, none of them being the start, has
no route to it. -/
theorem no_route_of_goal_enclosed (level : Level) (start goal : Pos) (hsg : start ≠ goal)
    (hns : ¬ start.adjacent goal)
    (hwalls : ∀ n : Pos, n.adjacent goal → canWalk level n ≠ .ok true) :
    ∀ r, ¬ level.isRoute start goal r := by
  intro r hr
  obtain ⟨v, k, _, hv0, hvk, hstep⟩ := isRoute_function level start goal r hr
  have hk0 : 0 < k := by
    rcases Nat.eq_zero_or_pos k with h | h
    · exfalso
      rw [h] at hvk
      exact hsg (hv0.symm.trans hvk)
    · exact h
  have hlast := (hstep (k - 1) (by omega)).1
  have e : k - 1 + 1 = k := by omega
  rw [e, hvk] at hlast
  rcases Nat.eq_zero_or_pos (k - 1) with h | h
  · rw [h, hv0] at hlast
    exact hns hlast
  · have hw := (hstep (k - 2) (by omega)).2
    have e2 : k - 2 + 1 = k - 1 := by omega
    rw [e2] at hw
    exact hwalls _ hlast hw

/-- Counterexample to C2 as stated: on a grid whose second row is shorter than row 0 a
route from (0, 0) to (2, 0) exists along row 0, and `aStar` panics in its second
iteration, when `canWalk` indexes the tile (1, 1) that `inRange` accepts. -/
theorem aStar_shortest_counterexample :
    listPQ.PopsMinimum ∧
      raggedLevel.isRoute ⟨0, 0⟩ ⟨2, 0⟩ [⟨0, 0⟩, ⟨1, 0⟩, ⟨2, 0⟩] ∧
      ∀ fuel, raggedLevel.aStar listPQ ⟨0, 0⟩ ⟨2, 0⟩ (fuel + 2)
        = .panic "index out of range" := by
  refine ⟨listPQ_popsMinimum, ⟨rfl, rfl, ?_, by decide⟩, fun fuel => rfl⟩
  simp only [List.chain'_cons, List.chain'_singleton, and_true]
  decide

/-- Witness of C2 amended: from corner to corner of the room whose centre is a wall. -/
theorem aStar_shortest_witness :
    listPQ.PopsMinimum ∧ roomLevel.rowsCoverWidth ∧
      roomLevel.isRoute ⟨0, 0⟩ ⟨2, 2⟩ [⟨0, 0⟩, ⟨0, 1⟩, ⟨0, 2⟩, ⟨1, 2⟩, ⟨2, 2⟩] ∧
      ∃ N, ∀ fuel, N ≤ fuel →
        ∃ path, roomLevel.aStar listPQ ⟨0, 0⟩ ⟨2, 2⟩ fuel = .ok path ∧
          roomLevel.isRoute ⟨0, 0⟩ ⟨2, 2⟩ path ∧
          ∀ r, roomLevel.isRoute ⟨0, 0⟩ ⟨2, 2⟩ r → path.length ≤ r.length := by
  have hrows : roomLevel.rowsCoverWidth := by
    unfold Level.rowsCoverWidth
    decide
  have hroute : roomLevel.isRoute ⟨0, 0⟩ ⟨2, 2⟩ [⟨0, 0⟩, ⟨0, 1⟩, ⟨0, 2⟩, ⟨1, 2⟩, ⟨2, 2⟩] := by
    refine ⟨rfl, rfl, ?_, by decide⟩
    simp only [List.chain'_cons, List.chain'_singleton, and_true]
    decide
  exact ⟨listPQ_popsMinimum, hrows, hroute,
    aStar_shortest listPQ listPQ_popsMinimum roomLevel ⟨0, 0⟩ ⟨2, 2⟩ hrows _ hroute⟩

/-- Counterexample to C3 as stated: on a grid without rows `aStar` panics in its first
iteration (`inRange` reads `level.Map[0]`), and on a grid whose second row is shorter
than row 0 it panics in its second iteration, in both cases with start != goal and no
route to the goal. On a rectangular room, a search that starts on the tile of a monster,
which is not walkable, returns a path: the tiles that have to be walkable are those
after the start. -/
theorem aStar_unreachable_counterexample :
    listPQ.PopsMinimum ∧
      ((⟨0, 0⟩ : Pos) ≠ ⟨1, 0⟩ ∧ (∀ r, ¬ emptyLevel.isRoute ⟨0, 0⟩ ⟨1, 0⟩ r) ∧
        ∀ fuel, emptyLevel.aStar listPQ ⟨0, 0⟩ ⟨1, 0⟩ (fuel + 1)
          = .panic "index out of range") ∧
      ((⟨0, 0⟩ : Pos) ≠ ⟨5, 5⟩ ∧ (∀ r, ¬ raggedLevel.isRoute ⟨0, 0⟩ ⟨5, 5⟩ r) ∧
        ∀ fuel, raggedLevel.aStar listPQ ⟨0, 0⟩ ⟨5, 5⟩ (fuel + 2)
          = .panic "index out of range") ∧
      (batLevel.Map ≠ [] ∧ batLevel.rectangular ∧ canWalk batLevel ⟨0, 0⟩ = .ok false ∧
        ∀ fuel, batLevel.aStar listPQ ⟨0, 0⟩ ⟨2, 0⟩ (fuel + 6)
          = .ok [⟨0, 0⟩, ⟨1, 0⟩, ⟨2, 0⟩]) :=
  ⟨listPQ_popsMinimum,
    ⟨by decide, no_route_of_goal_not_walkable emptyLevel _ _ (by decide) (by decide),
      fun _ => rfl⟩,
    ⟨by decide, no_route_of_goal_not_walkable raggedLevel _ _ (by decide) (by decide),
      fun _ => rfl⟩,
    ⟨by decide, by unfold Level.rectangular; decide, by decide, fun _ => rfl⟩⟩

/-- Witness of C3 amended: the goal is a floor tile enclosed by four walls. -/
theorem aStar_unreachable_witness :
    listPQ.IsQueue ∧ cellLevel.Map ≠ [] ∧ cellLevel.rowsCoverWidth ∧
      (⟨0, 0⟩ : Pos) ≠ ⟨2, 2⟩ ∧ (∀ r, ¬ cellLevel.isRoute ⟨0, 0⟩ ⟨2, 2⟩ r) ∧
      ∃ N, ∀ fuel, N ≤ fuel → cellLevel.aStar listPQ ⟨0, 0⟩ ⟨2, 2⟩ fuel = .ok [] := by
  have hrows : cellLevel.rowsCoverWidth := by
    unfold Level.rowsCoverWidth
    decide
  have hwalls : ∀ n : Pos, n.adjacent ⟨2, 2⟩ → canWalk cellLevel n ≠ .ok true := by
    intro n hn
    have hcases : n = ⟨1, 2⟩ ∨ n = ⟨3, 2⟩ ∨ n = ⟨2, 3⟩ ∨ n = ⟨2, 1⟩ := by
      unfold Pos.adjacent at hn
      cases n
      simp only [Pos.mk.injEq] at *
      omega
    rcases hcases with h | h | h | h <;> subst h <;> decide
  have hno := no_route_of_goal_enclosed cellLevel ⟨0, 0⟩ ⟨2, 2⟩ (by decide) (by decide) hwalls
  have hq : listPQ.IsQueue := PQueueImpl.PopsMinimum.isQueue listPQ listPQ_popsMinimum
  exact ⟨hq, by decide, hrows, by decide, hno,
    aStar_unreachable listPQ hq cellLevel ⟨0, 0⟩ ⟨2, 2⟩ (by decide) hrows
      (by decide) hno⟩

end SearchExamples

section Inputs

theorem Outcome.bind_of_ok {α β : Type} {x : Outcome α} {a : α} (f : α → Outcome β)
    (h : x = .ok a) : x.bind f = f a := by
  subst h
  rfl

theorem Outcome.bind_eq_ok {α β : Type} {x : Outcome α} {f : α → Outcome β} {b : β}
    (h : x.bind f = .ok b) : ∃ a, x = .ok a ∧ f a = .ok b := by
  cases x with
  | ok a => exact ⟨a, rfl, h⟩
  | panic m => simp [Outcome.bind] at h
  | outOfFuel => simp [Outcome.bind] at h

theorem handleInput_directional (game : Game) (level : Level) (input : Input) (target : Pos)
    (hlevel : game.level = .ok level)
    (hdir : moveTarget input.Typ game.Player.toPos = some target) :
    game.handleInput input = game.resolveMovement target := by
  unfold Game.handleInput
  rw [Outcome.bind_of_ok _ hlevel]
  cases htyp : input.Typ <;> simp [moveTarget, htyp] at hdir <;> simp [hdir]

theorem handleInput_closeWindow (game : Game) (level : Level) (input : Input)
    (hlevel : game.level = .ok level) (htyp : input.Typ = .CloseWindow) :
    game.handleInput input = game.handleCloseWindow input.LevelChannel := by
  unfold Game.handleInput
  rw [Outcome.bind_of_ok _ hlevel]
  simp [htyp]

/-- Claim C16. For a game with an active level whose observer channels are pairwise
distinct, handling a `CloseWindow` input that carries a channel `c` of the broadcast set
returns, and the new broadcast set is the old one without `c`: it does not contain `c`,
it keeps every other channel once and in the previous order, and it has one channel
less. -/
theorem closeWindow_removes_channel (game : Game) (level : Level) (input : Input) (c : Nat)
    (hlevel : game.level = .ok level) (htyp : input.Typ = .CloseWindow)
    (hchan : input.LevelChannel = some c)
    (hdistinct : game.LevelChans.Nodup) (hc : c ∈ game.LevelChans) :
    ∃ game1, game.handleInput input = .ok game1 ∧
      c ∉ game1.LevelChans ∧
      game1.LevelChans = game.LevelChans.filter (fun d => decide (d ≠ c)) ∧
      game1.LevelChans.Nodup ∧
      game1.LevelChans.length + 1 = game.LevelChans.length ∧
      game1.Levels = game.Levels ∧ game1.CurrentLevel = game.CurrentLevel ∧
      game1.Player = game.Player := by
  have hidx : game.LevelChans.indexOf c < game.LevelChans.length :=
    List.indexOf_lt_length.mpr hc
  have herase : game.LevelChans.eraseIdx (game.LevelChans.indexOf c)
      = game.LevelChans.erase c := List.eraseIdx_indexOf_eq_erase c game.LevelChans
  have hfilter : game.LevelChans.erase c = game.LevelChans.filter (fun d => decide (d ≠ c)) := by
    rw [List.Nodup.erase_eq_filter hdistinct c]
    apply List.filter_congr
    intro d _
    by_cases h : d = c <;> simp [h]
  refine ⟨{ game with LevelChans := game.LevelChans.erase c }, ?_, ?_, hfilter, ?_, ?_,
    rfl, rfl, rfl⟩
  · rw [handleInput_closeWindow game level input hlevel htyp, hchan]
    unfold Game.handleCloseWindow
    simp only [if_pos hidx]
    rw [if_pos (by omega), herase]
  · exact fun h => (List.Nodup.mem_erase_iff hdistinct).mp h |>.1 rfl
  · exact hdistinct.erase c
  · show (game.LevelChans.erase c).length + 1 = game.LevelChans.length
    rw [List.length_erase_of_mem hc]
    have : 0 < game.LevelChans.length := List.length_pos_of_mem hc
    omega

/-- Three attached observers become two: the middle channel of the game `hallGame` is
closed. -/
theorem closeWindow_removes_channel_witness :
    ∃ game1, (hallGame hallLevel ⟨1, 1⟩).handleInput ⟨.CloseWindow, none, some 1⟩ = .ok game1 ∧
      1 ∉ game1.LevelChans ∧
      game1.LevelChans = (hallGame hallLevel ⟨1, 1⟩).LevelChans.filter (fun d => decide (d ≠ 1)) ∧
      game1.LevelChans.Nodup ∧
      game1.LevelChans.length + 1 = (hallGame hallLevel ⟨1, 1⟩).LevelChans.length ∧
      game1.Levels = (hallGame hallLevel ⟨1, 1⟩).Levels ∧
      game1.CurrentLevel = (hallGame hallLevel ⟨1, 1⟩).CurrentLevel ∧
      game1.Player = (hallGame hallLevel ⟨1, 1⟩).Player :=
  closeWindow_removes_channel (hallGame hallLevel ⟨1, 1⟩) hallLevel ⟨.CloseWindow, none, some 1⟩ 1
    (by decide) rfl rfl (by decide) (by decide)

end Inputs

section Grid

theorem tileAt_eq_ok_iff (level : Level) (p : Pos) (t : Tile) :
    tileAt level p = .ok t ↔
      0 ≤ p.Y ∧ 0 ≤ p.X ∧ ∃ row, level.Map[p.Y.toNat]? = some row ∧ row[p.X.toNat]? = some t := by
  unfold tileAt
  by_cases hneg : p.Y < 0 ∨ p.X < 0
  · rw [if_pos hneg]
    constructor
    · intro h
      cases h
    · rintro ⟨h1, h2, -⟩
      omega
  · rw [if_neg hneg]
    have h1 : 0 ≤ p.Y := by omega
    have h2 : 0 ≤ p.X := by omega
    simp only [List.get?_eq_getElem?]
    cases hrow : level.Map[p.Y.toNat]? with
    | none => simp
    | some row =>
      cases ht : row[p.X.toNat]? with
      | none => simp [ht]
      | some t1 => simp [ht, h1, h2]

theorem toNat_inj_of_nonneg {a b : Int} (ha : 0 ≤ a) (hb : 0 ≤ b) (h : a.toNat = b.toNat) :
    a = b := by
  omega

theorem tileAt_setTile (level : Level) (q : Pos) (t0 t : Tile) (h : tileAt level q = .ok t0)
    (p : Pos) :
    tileAt { level with Map := setTile level.Map q t } p
      = if p = q then .ok t else tileAt level p := by
  obtain ⟨hy, hx, row, hrow, ht0⟩ := (tileAt_eq_ok_iff level q t0).mp h
  have hylt : q.Y.toNat < level.Map.length := by
    by_contra hc
    rw [List.getElem?_eq_none (by omega)] at hrow
    cases hrow
  have hxlt : q.X.toNat < row.length := by
    by_contra hc
    rw [List.getElem?_eq_none (by omega)] at ht0
    cases ht0
  have hgetD : level.Map.getD q.Y.toNat [] = row := by
    rw [List.getD_eq_getElem?_getD, hrow]
    rfl
  by_cases hpq : p = q
  · subst hpq
    rw [if_pos rfl]
    apply (tileAt_eq_ok_iff _ _ _).mpr
    refine ⟨hy, hx, row.set p.X.toNat t, ?_, ?_⟩
    · show (setTile level.Map p t)[p.Y.toNat]? = _
      unfold setTile
      rw [hgetD, List.getElem?_set_self hylt]
    · rw [List.getElem?_set_self hxlt]
  · rw [if_neg hpq]
    unfold tileAt
    by_cases hneg : p.Y < 0 ∨ p.X < 0
    · rw [if_pos hneg, if_pos hneg]
    · rw [if_neg hneg, if_neg hneg]
      simp only [List.get?_eq_getElem?]
      show (match (setTile level.Map q t)[p.Y.toNat]? with
        | none => Outcome.panic "index out of range"
        | some row =>
          match row[p.X.toNat]? with
          | none => Outcome.panic "index out of range"
          | some t => Outcome.ok t) = _
      unfold setTile
      rw [hgetD]
      by_cases hyy : q.Y.toNat = p.Y.toNat
      · rw [hyy, List.getElem?_set_self (hyy ▸ hylt)]
        have hrow1 : level.Map[p.Y.toNat]? = some row := hyy ▸ hrow
        rw [hrow1]
        have hxx : q.X.toNat ≠ p.X.toNat := by
          intro hxx
          apply hpq
          have e1 : p.Y = q.Y := by omega
          have e2 : p.X = q.X := by omega
          cases p
          cases q
          simp_all
        simp only []
        rw [List.getElem?_set_ne hxx]
      · rw [List.getElem?_set_ne hyy]

theorem inRange_setTile (level : Level) (q : Pos) (t : Tile) (p : Pos) :
    inRange { level with Map := setTile level.Map q t } p = inRange level p := by
  unfold inRange
  show (match setTile level.Map q t with
    | [] => Outcome.panic "index out of range"
    | row0 :: _ =>
      Outcome.ok (decide (p.X < (row0.length : Int))
        && decide (p.Y < ((setTile level.Map q t).length : Int))
        && decide (p.X ≥ 0) && decide (p.Y ≥ 0))) = _
  unfold setTile
  cases hm : level.Map with
  | nil => rfl
  | cons r rest =>
    cases hy : q.Y.toNat with
    | zero => simp [List.set]
    | succ n => simp [List.set]

theorem setTile_self (level : Level) (q : Pos) (t : Tile) (h : tileAt level q = .ok t) :
    setTile level.Map q t = level.Map := by
  obtain ⟨hy, hx, row, hrow, ht0⟩ := (tileAt_eq_ok_iff level q t).mp h
  have hgetD : level.Map.getD q.Y.toNat [] = row := by
    rw [List.getD_eq_getElem?_getD, hrow]
    rfl
  unfold setTile
  rw [hgetD]
  have hr : row.set q.X.toNat t = row := by
    apply List.ext_getElem?
    intro i
    by_cases hi : q.X.toNat = i
    · subst hi
      by_cases hlt : q.X.toNat < row.length
      · rw [List.getElem?_set_self hlt, ht0]
      · rw [List.getElem?_eq_none (by simp; omega), List.getElem?_eq_none (by omega)]
    · rw [List.getElem?_set_ne hi]
  rw [hr]
  apply List.ext_getElem?
  intro i
  by_cases hi : q.Y.toNat = i
  · subst hi
    by_cases hlt : q.Y.toNat < level.Map.length
    · rw [List.getElem?_set_self hlt, hrow]
    · rw [List.getElem?_eq_none (by simp; omega), List.getElem?_eq_none (by omega)]
  · rw [List.getElem?_set_ne hi]

end Grid
section Visibility

theorem markTile_eq_ok (level level1 : Level) (p : Pos) (h : markTile level p = .ok level1) :
    ∃ t, tileAt level p = .ok t ∧
      level1 = { level with Map := setTile level.Map p { t with Visible := true, Seen := true } } := by
  unfold markTile at h
  obtain ⟨t, ht, h1⟩ := Outcome.bind_eq_ok h
  exact ⟨t, ht, (Outcome.ok.inj h1).symm⟩

theorem SameTerrain.same_refl (a : Level) : SameTerrain a a := ⟨fun _ => rfl, fun _ => rfl⟩

theorem SameTerrain.same_symm {a b : Level} (h : SameTerrain a b) : SameTerrain b a :=
  ⟨fun p => (h.1 p).symm, fun p => (h.2 p).symm⟩

theorem SameTerrain.same_trans {a b c : Level} (h1 : SameTerrain a b) (h2 : SameTerrain b c) :
    SameTerrain a c :=
  ⟨fun p => (h1.1 p).trans (h2.1 p), fun p => (h1.2 p).trans (h2.2 p)⟩

theorem sameTerrain_setTile (level : Level) (q : Pos) (t0 t : Tile)
    (h : tileAt level q = .ok t0) (hterrain : t.terrain = t0.terrain) :
    SameTerrain level { level with Map := setTile level.Map q t } := by
  refine ⟨fun p => (inRange_setTile level q t p).symm, fun p => ?_⟩
  rw [tileAt_setTile level q t0 t h p]
  by_cases hpq : p = q
  · subst hpq
    rw [if_pos rfl, h]
    simp [Outcome.map, hterrain]
  · rw [if_neg hpq]

theorem markTile_sameTerrain (level level1 : Level) (p : Pos)
    (h : markTile level p = .ok level1) : SameTerrain level level1 := by
  obtain ⟨t, ht, rfl⟩ := markTile_eq_ok level level1 p h
  exact sameTerrain_setTile level p t _ ht rfl

theorem canSeeThrough_congr (a b : Level) (h : SameTerrain a b) (p : Pos) :
    canSeeThrough a p = canSeeThrough b p := by
  unfold canSeeThrough
  rw [h.1 p]
  have h2 := h.2 p
  cases hin : inRange b p with
  | ok inside =>
    simp only [Outcome.bind]
    by_cases hi : inside = true
    · simp only [hi, if_true]
      cases ha : tileAt a p with
      | ok ta =>
        cases hb : tileAt b p with
        | ok tb =>
          rw [ha, hb] at h2
          simp only [Outcome.map, Outcome.ok.injEq, Tile.terrain, Prod.mk.injEq] at h2
          simp only [h2.1, h2.2]
        | panic m => rw [ha, hb] at h2; simp [Outcome.map] at h2
        | outOfFuel => rw [ha, hb] at h2; simp [Outcome.map] at h2
      | panic m =>
        cases hb : tileAt b p with
        | ok tb => rw [ha, hb] at h2; simp [Outcome.map] at h2
        | panic m2 =>
          rw [ha, hb] at h2
          simp only [Outcome.map, Outcome.panic.injEq] at h2
          simp [h2]
        | outOfFuel => rw [ha, hb] at h2; simp [Outcome.map] at h2
      | outOfFuel =>
        cases hb : tileAt b p with
        | ok tb => rw [ha, hb] at h2; simp [Outcome.map] at h2
        | panic m2 => rw [ha, hb] at h2; simp [Outcome.map] at h2
        | outOfFuel => rfl
    · simp [hi]
  | panic m => rfl
  | outOfFuel => rfl

theorem markTile_marked (level level1 : Level) (q : Pos) (h : markTile level q = .ok level1) :
    level1.Marked q := by
  obtain ⟨t, ht, rfl⟩ := markTile_eq_ok level level1 q h
  refine ⟨{ t with Visible := true, Seen := true }, ?_, rfl, rfl⟩
  rw [tileAt_setTile level q t _ ht q, if_pos rfl]

theorem markTile_keeps_marked (level level1 : Level) (q : Pos)
    (h : markTile level q = .ok level1) (p : Pos) (hp : level.Marked p) : level1.Marked p := by
  by_cases hpq : p = q
  · subst hpq
    exact markTile_marked level level1 p h
  · obtain ⟨t, ht, rfl⟩ := markTile_eq_ok level level1 q h
    obtain ⟨tp, htp, hv, hs⟩ := hp
    refine ⟨tp, ?_, hv, hs⟩
    rw [tileAt_setTile level q t _ ht p, if_neg hpq, htp]

theorem markTile_of_marked (level : Level) (p : Pos) (hp : level.Marked p) :
    markTile level p = .ok level := by
  obtain ⟨t, ht, hv, hs⟩ := hp
  unfold markTile
  rw [Outcome.bind_of_ok _ ht]
  have ht1 : ({ t with Visible := true, Seen := true } : Tile) = t := by
    cases t
    simp_all
  rw [ht1, setTile_self level p t ht]

theorem markTile_seenLE (level level1 : Level) (q : Pos) (h : markTile level q = .ok level1) :
    level.SeenLE level1 := by
  obtain ⟨t, ht, rfl⟩ := markTile_eq_ok level level1 q h
  intro p tp htp hseen
  rw [tileAt_setTile level q t _ ht p]
  by_cases hpq : p = q
  · rw [if_pos hpq]
    exact ⟨_, rfl, rfl⟩
  · rw [if_neg hpq]
    exact ⟨tp, htp, hseen⟩

theorem Level.SeenLE.seen_refl (a : Level) : a.SeenLE a := fun _ t ht hs => ⟨t, ht, hs⟩

theorem Level.SeenLE.seen_trans {a b c : Level} (h1 : a.SeenLE b) (h2 : b.SeenLE c) : a.SeenLE c := by
  intro p t ht hs
  obtain ⟨t1, ht1, hs1⟩ := h1 p t ht hs
  exact h2 p t1 ht1 hs1

/-- A relation on levels that is reflexive, transitive and holds across `markTile` holds
across the loop of `bresenham`. -/
theorem bresenhamLoop_rel (R : Level → Level → Prop) (hrefl : ∀ a, R a a)
    (htrans : ∀ a b c, R a b → R b c → R a c)
    (hmark : ∀ a b p, markTile a p = .ok b → R a b)
    (steep : Bool) (deltaX deltaY ystep xstep : Int) :
    ∀ (todo : Nat) (x y err : Int) (level level1 : Level),
      bresenhamLoop steep deltaX deltaY ystep xstep todo x y err level = .ok level1 →
      R level level1 := by
  intro todo
  induction todo with
  | zero =>
    intro x y err level level1 h
    simp only [bresenhamLoop, Outcome.ok.injEq] at h
    subst h
    exact hrefl _
  | succ n ih =>
    intro x y err level level1 h
    simp only [bresenhamLoop] at h
    obtain ⟨levelA, hA, h⟩ := Outcome.bind_eq_ok h
    obtain ⟨through, _, h⟩ := Outcome.bind_eq_ok h
    have hRA := hmark _ _ _ hA
    by_cases hthrough : through = true
    · simp only [hthrough, Bool.not_true, Bool.false_eq_true, if_false] at h
      split at h
      · exact htrans _ _ _ hRA (ih _ _ _ _ _ h)
      · exact htrans _ _ _ hRA (ih _ _ _ _ _ h)
    · simp only [hthrough, Bool.not_eq_true, Bool.not_false, if_true] at h
      simp only [Bool.not_eq_true] at hthrough
      simp only [hthrough, Bool.not_false, if_true, Outcome.ok.injEq] at h
      subst h
      exact hRA

/-- A call of `bresenham` is a run of its loop from `err = 0`, with parameters that depend
on the two end points only. -/
theorem bresenham_eq_loop (start stop : Pos) :
    ∃ (steep : Bool) (dx dy ys xs : Int) (n : Nat) (x y : Int),
      ∀ level, bresenham level start stop = bresenhamLoop steep dx dy ys xs n x y 0 level := by
  unfold bresenham
  simp only []
  split_ifs <;> exact ⟨_, _, _, _, _, _, _, _, fun _ => rfl⟩

theorem bresenham_rel (R : Level → Level → Prop) (hrefl : ∀ a, R a a)
    (htrans : ∀ a b c, R a b → R b c → R a c)
    (hmark : ∀ a b p, markTile a p = .ok b → R a b)
    (level level1 : Level) (start stop : Pos) (h : bresenham level start stop = .ok level1) :
    R level level1 := by
  obtain ⟨steep, dx, dy, ys, xs, n, x, y, heq⟩ := bresenham_eq_loop start stop
  rw [heq] at h
  exact bresenhamLoop_rel R hrefl htrans hmark _ _ _ _ _ _ _ _ _ _ _ h

theorem castRays_rel (R : Level → Level → Prop) (hrefl : ∀ a, R a a)
    (htrans : ∀ a b c, R a b → R b c → R a c)
    (hmark : ∀ a b p, markTile a p = .ok b → R a b) (start : Pos) :
    ∀ (targets : List Pos) (level level1 : Level),
      castRays start targets level = .ok level1 → R level level1 := by
  intro targets
  induction targets with
  | nil =>
    intro level level1 h
    simp only [castRays, Outcome.ok.injEq] at h
    subst h
    exact hrefl _
  | cons target rest ih =>
    intro level level1 h
    simp only [castRays] at h
    obtain ⟨levelA, hA, h⟩ := Outcome.bind_eq_ok h
    exact htrans _ _ _ (bresenham_rel R hrefl htrans hmark _ _ _ _ hA) (ih _ _ h)

theorem lineOfSight_rel (R : Level → Level → Prop) (hrefl : ∀ a, R a a)
    (htrans : ∀ a b c, R a b → R b c → R a c)
    (hmark : ∀ a b p, markTile a p = .ok b → R a b)
    (level level1 : Level) (player : Player) (h : level.lineOfSight player = .ok level1) :
    R level level1 :=
  castRays_rel R hrefl htrans hmark _ _ _ _ h

end Visibility
section VisibilityMain

theorem bresenhamLoop_absorbed (steep : Bool) (deltaX deltaY ystep xstep : Int) :
    ∀ (todo : Nat) (x y err : Int) (a b a1 : Level), SameTerrain a b →
      bresenhamLoop steep deltaX deltaY ystep xstep todo x y err a = .ok a1 →
      (∀ p, a1.Marked p → b.Marked p) →
      bresenhamLoop steep deltaX deltaY ystep xstep todo x y err b = .ok b := by
  intro todo
  induction todo with
  | zero =>
    intro x y err a b a1 _ _ _
    rfl
  | succ n ih =>
    intro x y err a b a1 hsame h habs
    simp only [bresenhamLoop] at h ⊢
    obtain ⟨aA, hA, h⟩ := Outcome.bind_eq_ok h
    obtain ⟨through, hthrough, h⟩ := Outcome.bind_eq_ok h
    have hsameA : SameTerrain aA b := (markTile_sameTerrain _ _ _ hA).same_symm.same_trans hsame
    have hkeep : ∀ p, aA.Marked p → a1.Marked p := by
      intro p hp
      by_cases ht : through = true
      · simp only [ht, Bool.not_true, Bool.false_eq_true, if_false] at h
        split at h
        · exact bresenhamLoop_rel (fun u v => u.Marked p → v.Marked p) (fun _ hu => hu)
            (fun _ _ _ h1 h2 hu => h2 (h1 hu))
            (fun u v q hm hu => markTile_keeps_marked u v q hm p hu) _ _ _ _ _ _ _ _ _ _ _ h hp
        · exact bresenhamLoop_rel (fun u v => u.Marked p → v.Marked p) (fun _ hu => hu)
            (fun _ _ _ h1 h2 hu => h2 (h1 hu))
            (fun u v q hm hu => markTile_keeps_marked u v q hm p hu) _ _ _ _ _ _ _ _ _ _ _ h hp
      · simp only [Bool.not_eq_true] at ht
        simp only [ht, Bool.not_false, if_true, Outcome.ok.injEq] at h
        subst h
        exact hp
    have hb : markTile b (if steep = true then ⟨y, x⟩ else ⟨x, y⟩) = .ok b :=
      markTile_of_marked b _ (habs _ (hkeep _ (markTile_marked _ _ _ hA)))
    rw [Outcome.bind_of_ok _ hb, ← canSeeThrough_congr aA b hsameA, Outcome.bind_of_ok _ hthrough]
    by_cases ht : through = true
    · simp only [ht, Bool.not_true, Bool.false_eq_true, if_false] at h ⊢
      split at h
      · rename_i hc
        rw [if_pos hc]
        exact ih _ _ _ aA b a1 hsameA h habs
      · rename_i hc
        rw [if_neg hc]
        exact ih _ _ _ aA b a1 hsameA h habs
    · simp only [Bool.not_eq_true] at ht
      simp [ht]

theorem castRays_absorbed (start : Pos) :
    ∀ (targets : List Pos) (a b a1 : Level), SameTerrain a b →
      castRays start targets a = .ok a1 → (∀ p, a1.Marked p → b.Marked p) →
      castRays start targets b = .ok b := by
  intro targets
  induction targets with
  | nil =>
    intro a b a1 _ _ _
    rfl
  | cons target rest ih =>
    intro a b a1 hsame h habs
    simp only [castRays] at h ⊢
    obtain ⟨aA, hA, h⟩ := Outcome.bind_eq_ok h
    have hsameA : SameTerrain aA b :=
      (bresenham_rel SameTerrain SameTerrain.same_refl (fun _ _ _ => SameTerrain.same_trans)
        markTile_sameTerrain _ _ _ _ hA).same_symm.same_trans hsame
    have hkeep : ∀ p, aA.Marked p → a1.Marked p := fun p =>
      castRays_rel (fun u v => u.Marked p → v.Marked p) (fun _ hu => hu)
        (fun _ _ _ h1 h2 hu => h2 (h1 hu))
        (fun u v q hm hu => markTile_keeps_marked u v q hm p hu) _ _ _ _ h
    have hkeepA : ∀ p, aA.Marked p → b.Marked p := fun p hp => habs p (hkeep p hp)
    obtain ⟨steep, dx, dy, ys, xs, n, x, y, heq⟩ := bresenham_eq_loop start target
    have hb : bresenham b start target = .ok b := by
      rw [heq] at hA ⊢
      exact bresenhamLoop_absorbed steep dx dy ys xs n x y 0 a b aA hsame hA hkeepA
    rw [Outcome.bind_of_ok _ hb]
    exact ih aA b a1 hsameA h habs

/-- Claim C13. Visibility recomputation is idempotent for an unmoved player: when
`lineOfSight` returns, without leaving the grid, the level `level1`, a second run of
`lineOfSight` from the same player (same position, same sight range) returns `level1`
again, so every tile keeps the visible flag and the seen flag of the first run. -/
theorem lineOfSight_idempotent (level level1 : Level) (player : Player)
    (h : level.lineOfSight player = .ok level1) :
    level1.lineOfSight player = .ok level1 :=
  castRays_absorbed player.toPos _ level level1 level1
    (lineOfSight_rel SameTerrain SameTerrain.same_refl (fun _ _ _ => SameTerrain.same_trans)
      markTile_sameTerrain level level1 player h)
    h (fun _ hp => hp)

/-- The scout in the middle of the hall: the first run lights the plus-shaped
neighbourhood of the player, the second run changes nothing. -/
theorem lineOfSight_idempotent_witness :
    hallLevel.lineOfSight (scout ⟨2, 2⟩) = .ok litHallLevel ∧
      litHallLevel.lineOfSight (scout ⟨2, 2⟩) = .ok litHallLevel :=
  ⟨by decide, lineOfSight_idempotent hallLevel litHallLevel (scout ⟨2, 2⟩) (by decide)⟩

end VisibilityMain

section Movement

theorem AddEvent_frame (level level1 : Level) (e : String) (h : level.AddEvent e = .ok level1) :
    level1.Map = level.Map ∧ level1.Monsters = level.Monsters ∧ level1.Items = level.Items ∧
      level1.Portals = level.Portals ∧ level1.LastEvent = level.LastEvent := by
  unfold Level.AddEvent at h
  split at h
  · simp only [Outcome.ok.injEq] at h
    subst h
    exact ⟨rfl, rfl, rfl, rfl, rfl⟩
  · cases h

theorem lineOfSight_frame (level level1 : Level) (player : Player)
    (h : level.lineOfSight player = .ok level1) : level1 = { level with Map := level1.Map } :=
  lineOfSight_rel (fun a b => b = { a with Map := b.Map }) (fun _ => rfl)
    (fun a b c h1 h2 => by rw [h2, h1])
    (fun a b p hm => by
      obtain ⟨t, _, rfl⟩ := markTile_eq_ok a b p hm
      rfl)
    level level1 player h

theorem lineOfSight_sameTerrain (level level1 : Level) (player : Player)
    (h : level.lineOfSight player = .ok level1) : SameTerrain level level1 :=
  lineOfSight_rel SameTerrain SameTerrain.same_refl (fun _ _ _ => SameTerrain.same_trans)
    markTile_sameTerrain level level1 player h

theorem lineOfSight_seenLE (level level1 : Level) (player : Player)
    (h : level.lineOfSight player = .ok level1) : level.SeenLE level1 :=
  lineOfSight_rel Level.SeenLE Level.SeenLE.seen_refl (fun _ _ _ => Level.SeenLE.seen_trans)
    markTile_seenLE level level1 player h

theorem Game.store_level (game : Game) (level : Level) (c : Character) :
    (game.store level c).level = .ok level := by
  unfold Game.level Game.store
  simp [GoMap.get?_set]

theorem Game.level_eq_ok (game : Game) (level : Level) (h : game.level = .ok level) :
    GoMap.get? game.Levels game.CurrentLevel = some level := by
  unfold Game.level at h
  split at h
  · rename_i l hl
    rw [hl]
    exact congrArg some (Outcome.ok.inj h)
  · cases h

theorem resolveMovement_free (game : Game) (level : Level) (target : Pos) (walk : Bool)
    (hlevel : game.level = .ok level) (hfree : GoMap.get? level.Monsters target = none)
    (hwalk : canWalk level target = .ok walk) :
    game.resolveMovement target =
      if walk then game.Move target
      else (checkDoor level game.Player target).bind fun level1 =>
        .ok (game.store level1 game.Player.toCharacter) := by
  unfold Game.resolveMovement
  rw [Outcome.bind_of_ok _ hlevel]
  simp only [hfree]
  rw [Outcome.bind_of_ok _ hwalk]

theorem Move_portal (game : Game) (level linked : Level) (target : Pos) (levelAndPos : LevelPos)
    (hlevel : game.level = .ok level)
    (hportal : GoMap.get? level.Portals target = some levelAndPos)
    (hlinked : GoMap.get? game.Levels levelAndPos.Level = some linked) :
    game.Move target = .ok { game with
      CurrentLevel := levelAndPos.Level
      Player := game.Player.moveTo levelAndPos.Pos } := by
  unfold Game.Move
  rw [Outcome.bind_of_ok _ hlevel]
  simp only [hportal, hlinked]

theorem Move_plain (game : Game) (level : Level) (target : Pos)
    (hlevel : game.level = .ok level) (hportal : GoMap.get? level.Portals target = none) :
    game.Move target =
      (Level.lineOfSight
        { level with
          LastEvent := .Move
          Map := clearVisible level.Map }
        (game.Player.moveTo target)).bind fun level2 =>
          .ok (game.store level2 (game.Player.moveTo target).toCharacter) := by
  unfold Game.Move
  rw [Outcome.bind_of_ok _ hlevel]
  simp only [hportal]

theorem Player.moveTo_toPos (player : Player) (pos : Pos) : (player.moveTo pos).toPos = pos := rfl

/-- Claim C12. For a directional input whose target is walkable, holds no monster and
holds a portal to the level `linked` (under the name `levelAndPos.Level`) and the position
`levelAndPos.Pos`, handling the input returns the game with the active level set to the
linked level and the player set to the linked position. Nothing else changes: the player
keeps its action points and every other attribute, and the map of levels is the same, so
the event logs, the last-event kinds and the visible and seen flags of all tiles of both
levels are what they were. -/
theorem portal_transit (game : Game) (level linked : Level) (input : Input) (target : Pos)
    (levelAndPos : LevelPos)
    (hlevel : game.level = .ok level)
    (hdir : moveTarget input.Typ game.Player.toPos = some target)
    (hwalk : canWalk level target = .ok true)
    (hfree : GoMap.get? level.Monsters target = none)
    (hportal : GoMap.get? level.Portals target = some levelAndPos)
    (hlinked : GoMap.get? game.Levels levelAndPos.Level = some linked) :
    ∃ game1, game.handleInput input = .ok game1 ∧
      game1.CurrentLevel = levelAndPos.Level ∧ game1.level = .ok linked ∧
      game1.Player.toPos = levelAndPos.Pos ∧
      game1.Player = game.Player.moveTo levelAndPos.Pos ∧
      game1.Player.ActionPoints = game.Player.ActionPoints ∧
      game1.Levels = game.Levels ∧
      GoMap.get? game1.Levels game.CurrentLevel = some level ∧
      GoMap.get? game1.Levels levelAndPos.Level = some linked := by
  refine ⟨{ game with
      CurrentLevel := levelAndPos.Level
      Player := game.Player.moveTo levelAndPos.Pos }, ?_, rfl, ?_, rfl, rfl, rfl, rfl,
    Game.level_eq_ok game level hlevel, hlinked⟩
  · rw [handleInput_directional game level input target hlevel hdir,
      resolveMovement_free game level target true hlevel hfree hwalk, if_pos rfl]
    exact Move_portal game level linked target levelAndPos hlevel hportal hlinked
  · unfold Game.level
    simp only [hlinked]

/-- The scout steps right onto the portal at (2, 1) of the level a and arrives at (3, 3)
of the level b. -/
theorem portal_transit_witness :
    ∃ game1, (hallGame portalLevel ⟨1, 1⟩).handleInput (plainInput .Right) = .ok game1 ∧
      game1.CurrentLevel = "b" ∧ game1.level = .ok hallLevel ∧
      game1.Player.toPos = ⟨3, 3⟩ ∧
      game1.Player = (hallGame portalLevel ⟨1, 1⟩).Player.moveTo ⟨3, 3⟩ ∧
      game1.Player.ActionPoints = (hallGame portalLevel ⟨1, 1⟩).Player.ActionPoints ∧
      game1.Levels = (hallGame portalLevel ⟨1, 1⟩).Levels ∧
      GoMap.get? game1.Levels "a" = some portalLevel ∧
      GoMap.get? game1.Levels "b" = some hallLevel :=
  portal_transit (hallGame portalLevel ⟨1, 1⟩) portalLevel hallLevel (plainInput .Right) ⟨2, 1⟩
    ⟨"b", ⟨3, 3⟩⟩ (by decide) (by decide) (by decide) (by decide) (by decide) (by decide)

end Movement

section Outcomes

theorem tileAt_congr (a b : Level) (h : a.Map = b.Map) (p : Pos) : tileAt a p = tileAt b p := by
  unfold tileAt
  rw [h]

theorem inRange_congr (a b : Level) (h : a.Map = b.Map) (p : Pos) :
    inRange a p = inRange b p := by
  unfold inRange
  rw [h]

theorem tileAt_of_setTile (level level1 : Level) (q : Pos) (t0 t : Tile)
    (h : tileAt level q = .ok t0) (hmap : level1.Map = setTile level.Map q t) (p : Pos) :
    tileAt level1 p = if p = q then .ok t else tileAt level p := by
  rw [tileAt_congr level1 { level with Map := setTile level.Map q t } hmap]
  exact tileAt_setTile level q t0 t h p

theorem resolveMovement_attack (game game1 : Game) (level : Level) (target : Pos)
    (monster : Monster) (hlevel : game.level = .ok level)
    (hmon : GoMap.get? level.Monsters target = some monster)
    (h : game.resolveMovement target = .ok game1) :
    PlayerAttacked game level target game1 := by
  unfold Game.resolveMovement at h
  rw [Outcome.bind_of_ok _ hlevel] at h
  simp only [hmon] at h
  obtain ⟨level1, -, h⟩ := Outcome.bind_eq_ok h
  split at h
  · cases h
  · simp only [Outcome.ok.injEq] at h
    subst h
    refine ⟨⟨monster, hmon⟩, rfl, rfl, rfl, _, Game.store_level _ _ _, ?_⟩
    split
    · rfl
    · rfl

theorem resolveMovement_attack_returns (game : Game) (level : Level) (target : Pos)
    (monster : Monster) (hlevel : game.level = .ok level)
    (hmon : GoMap.get? level.Monsters target = some monster)
    (h0 : 0 ≤ level.EventPos) (h1 : level.EventPos < (level.Events.length : Int))
    (halive : 0 < game.Player.Hitpoints) :
    ∃ game1, game.resolveMovement target = .ok game1 := by
  unfold Game.resolveMovement
  rw [Outcome.bind_of_ok _ hlevel]
  simp only [hmon]
  unfold Level.Attack
  simp only []
  rw [AddEvent_ok level _ h0 h1]
  simp only [Outcome.bind]
  rw [if_neg (by omega)]
  exact ⟨_, rfl⟩

theorem checkDoor_closed (level level1 : Level) (player : Player) (target : Pos) (t : Tile)
    (ht : tileAt level target = .ok t) (hdoor : t.OverlayRune = CloseDoor)
    (h : checkDoor level player target = .ok level1) :
    level1.LastEvent = .DoorOpen ∧ level1.Monsters = level.Monsters ∧
      level.SeenLE level1 ∧
      ∃ t1, tileAt level1 target = .ok t1 ∧ t1.OverlayRune = OpenDoor := by
  unfold checkDoor at h
  rw [Outcome.bind_of_ok _ ht, if_pos hdoor] at h
  have hframe := lineOfSight_frame _ _ _ h
  have hsame := lineOfSight_sameTerrain _ _ _ h
  have hseen := lineOfSight_seenLE _ _ _ h
  refine ⟨by rw [hframe], by rw [hframe], ?_, ?_⟩
  · refine Level.SeenLE.seen_trans ?_ hseen
    intro p tp htp hs
    rw [tileAt_of_setTile level _ target t _ ht rfl p]
    by_cases hp : p = target
    · subst hp
      rw [if_pos rfl]
      rw [ht] at htp
      cases htp
      exact ⟨_, rfl, hs⟩
    · rw [if_neg hp]
      exact ⟨tp, htp, hs⟩
  · have h2 := hsame.2 target
    rw [tileAt_of_setTile level _ target t _ ht rfl target, if_pos rfl] at h2
    cases hl : tileAt level1 target with
    | ok t1 =>
      rw [hl] at h2
      simp only [Outcome.map, Outcome.ok.injEq, Tile.terrain, Prod.mk.injEq] at h2
      exact ⟨t1, rfl, h2.2.symm⟩
    | panic m => rw [hl] at h2; simp [Outcome.map] at h2
    | outOfFuel => rw [hl] at h2; simp [Outcome.map] at h2

theorem checkDoor_other (level : Level) (player : Player) (target : Pos) (t : Tile)
    (ht : tileAt level target = .ok t) (hdoor : t.OverlayRune ≠ CloseDoor) :
    checkDoor level player target = .ok level := by
  unfold checkDoor
  rw [Outcome.bind_of_ok _ ht, if_neg hdoor]

theorem checkDoor_tile (level level1 : Level) (player : Player) (target : Pos)
    (h : checkDoor level player target = .ok level1) : ∃ t, tileAt level target = .ok t := by
  unfold checkDoor at h
  obtain ⟨t, ht, -⟩ := Outcome.bind_eq_ok h
  exact ⟨t, ht⟩

theorem Game.store_same_player (game : Game) (level : Level) :
    (game.store level game.Player.toCharacter).Player = game.Player := rfl

theorem resolveMovement_blocked (game game1 : Game) (level : Level) (target : Pos)
    (hlevel : game.level = .ok level) (hfree : GoMap.get? level.Monsters target = none)
    (hwalk : canWalk level target = .ok false)
    (h : game.resolveMovement target = .ok game1) :
    DoorOpened game level target game1 ∨ NothingHappened game level target game1 := by
  rw [resolveMovement_free game level target false hlevel hfree hwalk] at h
  simp only [Bool.false_eq_true, if_false] at h
  obtain ⟨level1, hdoor, h⟩ := Outcome.bind_eq_ok h
  simp only [Outcome.ok.injEq] at h
  subst h
  obtain ⟨t, ht⟩ := checkDoor_tile level level1 game.Player target hdoor
  by_cases hclosed : t.OverlayRune = CloseDoor
  · left
    obtain ⟨hlast, -, -, t1, ht1, hopen⟩ :=
      checkDoor_closed level level1 game.Player target t ht hclosed hdoor
    exact ⟨hfree, hwalk, ⟨t, ht, hclosed⟩, rfl, rfl, level1, t1, Game.store_level _ _ _, hlast,
      ht1, hopen⟩
  · right
    rw [checkDoor_other level game.Player target t ht hclosed] at hdoor
    cases hdoor
    exact ⟨hfree, hwalk, ⟨t, ht, hclosed⟩, rfl, rfl, Game.store_level _ _ _⟩

theorem resolveMovement_walk (game game1 : Game) (level : Level) (target : Pos)
    (hlevel : game.level = .ok level) (hfree : GoMap.get? level.Monsters target = none)
    (hwalk : canWalk level target = .ok true)
    (h : game.resolveMovement target = .ok game1) :
    PlayerMoved game level target game1 ∨ PlayerTeleported game level target game1 := by
  rw [resolveMovement_free game level target true hlevel hfree hwalk, if_pos rfl] at h
  cases hportal : GoMap.get? level.Portals target with
  | none =>
    left
    rw [Move_plain game level target hlevel hportal] at h
    obtain ⟨level2, hsight, h⟩ := Outcome.bind_eq_ok h
    simp only [Outcome.ok.injEq] at h
    subst h
    refine ⟨hfree, hwalk, hportal, rfl, rfl, level2, Game.store_level _ _ _, ?_⟩
    rw [lineOfSight_frame _ _ _ hsight]
  | some levelAndPos =>
    right
    unfold Game.Move at h
    rw [Outcome.bind_of_ok _ hlevel] at h
    simp only [hportal] at h
    split at h
    · cases h
    · simp only [Outcome.ok.injEq] at h
      subst h
      exact ⟨hfree, hwalk, levelAndPos, hportal, rfl, rfl, rfl⟩

theorem canWalk_false_of_monster (level : Level) (target : Pos) (monster : Monster) (walk : Bool)
    (hmon : GoMap.get? level.Monsters target = some monster)
    (hwalk : canWalk level target = .ok walk) : walk = false := by
  cases walk with
  | false => rfl
  | true =>
    exfalso
    unfold canWalk at hwalk
    simp only [bind, pure] at hwalk
    obtain ⟨inside, -, hwalk⟩ := Outcome.bind_eq_ok hwalk
    split at hwalk
    · obtain ⟨t, -, hwalk⟩ := Outcome.bind_eq_ok hwalk
      rw [hmon] at hwalk
      split_ifs at hwalk <;> simp_all
    · simp at hwalk

end Outcomes
section OutcomeClaims

/-- Claim C15 (amended). When handling a directional input returns, exactly one of five
things has happened, fixed by the target: the player attacked the monster keyed there;
or, without a monster, the tile is walkable and the player moved onto it, or was
teleported by the portal it holds; or the tile is not walkable and its closed door was
opened, or, without a closed door (a wall or a blank tile), nothing happened at all and
the state of the game is what it was. So the four outcomes of the claim exclude one
another, and none of them occurs in the last case. -/
theorem directional_outcome (game game1 : Game) (level : Level) (input : Input) (target : Pos)
    (hlevel : game.level = .ok level)
    (hdir : moveTarget input.Typ game.Player.toPos = some target)
    (hrun : game.handleInput input = .ok game1) :
    (PlayerMoved game level target game1 ∨ PlayerAttacked game level target game1 ∨
      DoorOpened game level target game1 ∨ PlayerTeleported game level target game1 ∨
      NothingHappened game level target game1) ∧
    ¬ (PlayerMoved game level target game1 ∧ PlayerAttacked game level target game1) ∧
    ¬ (PlayerMoved game level target game1 ∧ DoorOpened game level target game1) ∧
    ¬ (PlayerMoved game level target game1 ∧ PlayerTeleported game level target game1) ∧
    ¬ (PlayerAttacked game level target game1 ∧ DoorOpened game level target game1) ∧
    ¬ (PlayerAttacked game level target game1 ∧ PlayerTeleported game level target game1) ∧
    ¬ (DoorOpened game level target game1 ∧ PlayerTeleported game level target game1) ∧
    (NothingHappened game level target game1 →
      ¬ PlayerMoved game level target game1 ∧ ¬ PlayerAttacked game level target game1 ∧
      ¬ DoorOpened game level target game1 ∧ ¬ PlayerTeleported game level target game1) := by
  rw [handleInput_directional game level input target hlevel hdir] at hrun
  refine ⟨?_, ?_, ?_, ?_, ?_, ?_, ?_, ?_⟩
  · cases hmon : GoMap.get? level.Monsters target with
    | some monster =>
      exact Or.inr (Or.inl (resolveMovement_attack game game1 level target monster hlevel hmon hrun))
    | none =>
      have hrun1 := hrun
      unfold Game.resolveMovement at hrun1
      rw [Outcome.bind_of_ok _ hlevel] at hrun1
      simp only [hmon] at hrun1
      obtain ⟨walk, hwalk, -⟩ := Outcome.bind_eq_ok hrun1
      cases walk with
      | true =>
        rcases resolveMovement_walk game game1 level target hlevel hmon hwalk hrun with h | h
        · exact Or.inl h
        · exact Or.inr (Or.inr (Or.inr (Or.inl h)))
      | false =>
        rcases resolveMovement_blocked game game1 level target hlevel hmon hwalk hrun with h | h
        · exact Or.inr (Or.inr (Or.inl h))
        · exact Or.inr (Or.inr (Or.inr (Or.inr h)))
  · rintro ⟨⟨hfree, -⟩, ⟨⟨monster, hmon⟩, -⟩⟩
    rw [hfree] at hmon
    cases hmon
  · rintro ⟨⟨-, hwalk, -⟩, ⟨-, hblocked, -⟩⟩
    rw [hwalk] at hblocked
    cases hblocked
  · rintro ⟨⟨-, -, hnone, -⟩, ⟨-, -, levelAndPos, hportal, -⟩⟩
    rw [hnone] at hportal
    cases hportal
  · rintro ⟨⟨⟨monster, hmon⟩, -⟩, ⟨hfree, -⟩⟩
    rw [hfree] at hmon
    cases hmon
  · rintro ⟨⟨⟨monster, hmon⟩, -⟩, ⟨hfree, -⟩⟩
    rw [hfree] at hmon
    cases hmon
  · rintro ⟨⟨-, hblocked, -⟩, ⟨-, hwalk, -⟩⟩
    rw [hwalk] at hblocked
    cases hblocked
  · rintro ⟨hfree, hblocked, ⟨t, ht, hopen⟩, -⟩
    refine ⟨?_, ?_, ?_, ?_⟩
    · rintro ⟨-, hwalk, -⟩
      rw [hwalk] at hblocked
      cases hblocked
    · rintro ⟨⟨monster, hmon⟩, -⟩
      rw [hfree] at hmon
      cases hmon
    · rintro ⟨-, -, ⟨t1, ht1, hclosed⟩, -⟩
      rw [ht] at ht1
      cases ht1
      exact hopen hclosed
    · rintro ⟨-, hwalk, -⟩
      rw [hwalk] at hblocked
      cases hblocked

/-- Claim C15 (counterexample). The scout at (1, 1) of the hall is sent left, towards the
wall tile (0, 1), which is in range: the input is handled and returns the game as it
was, so the player has not moved, nothing was attacked, no door was opened and nobody
was teleported. And on the room level, which has no wall around it, the scout at (0, 0)
is sent right to the walkable tile (1, 0), which is in range: the rays of `lineOfSight`
leave the grid and the resolution panics instead of returning. -/
theorem directional_outcome_counterexample :
    hallLevel.inBounds ⟨0, 1⟩ ∧
      moveTarget InputType.Left (hallGame hallLevel ⟨1, 1⟩).Player.toPos = some ⟨0, 1⟩ ∧
      (hallGame hallLevel ⟨1, 1⟩).handleInput (plainInput .Left)
        = .ok (hallGame hallLevel ⟨1, 1⟩) ∧
      roomLevel.inBounds ⟨1, 0⟩ ∧ canWalk roomLevel ⟨1, 0⟩ = .ok true ∧
      moveTarget InputType.Right (hallGame roomLevel ⟨0, 0⟩).Player.toPos = some ⟨1, 0⟩ ∧
      (hallGame roomLevel ⟨0, 0⟩).handleInput (plainInput .Right)
        = .panic "index out of range" := by
  refine ⟨by decide, by decide, by decide, by decide, by decide, by decide, by decide⟩

/-- The scout at (1, 1) of the hall steps right onto the free floor tile (2, 1): of the
five cases the first one holds. -/
theorem directional_outcome_witness :
    ∃ game1, (hallGame hallLevel ⟨1, 1⟩).handleInput (plainInput .Right) = .ok game1 ∧
      PlayerMoved (hallGame hallLevel ⟨1, 1⟩) hallLevel ⟨2, 1⟩ game1 ∧
      ¬ PlayerAttacked (hallGame hallLevel ⟨1, 1⟩) hallLevel ⟨2, 1⟩ game1 := by
  obtain ⟨game1, hrun⟩ :
      ∃ g, (hallGame hallLevel ⟨1, 1⟩).handleInput (plainInput .Right) = .ok g := ⟨_, rfl⟩
  have h := directional_outcome (hallGame hallLevel ⟨1, 1⟩) _ hallLevel (plainInput .Right)
    ⟨2, 1⟩ (by decide) (by decide) hrun
  refine ⟨_, hrun, ?_, ?_⟩
  · rcases h.1 with h1 | h1 | h1 | h1 | h1
    · exact h1
    · obtain ⟨⟨monster, hmon⟩, -⟩ := h1
      cases hmon
    · exact absurd h1.2.1 (by decide)
    · obtain ⟨-, -, levelAndPos, hportal, -⟩ := h1
      cases hportal
    · exact absurd h1.2.1 (by decide)
  · rintro ⟨⟨monster, hmon⟩, -⟩
    cases hmon

end OutcomeClaims
section PortalOrder

/-- Claim C18 (amended). For a directional input whose target holds a portal, the monster
at the target is looked at first, then the tile, and the portal last. With no monster
keyed at the target and a walkable tile the portal branch is taken: the active level
becomes the linked level, the player is relocated to the linked position and no level
changes, so no attack is resolved. With a monster keyed at the target the player attacks
it instead (the input returns when the event log has room and the player is alive) and
stays in the same level at the same position. With no monster and a tile that is not
walkable the player stays where it is as well. -/
theorem portal_branch_order (game : Game) (level : Level) (input : Input) (target : Pos)
    (levelAndPos : LevelPos)
    (hlevel : game.level = .ok level)
    (hdir : moveTarget input.Typ game.Player.toPos = some target)
    (hportal : GoMap.get? level.Portals target = some levelAndPos) :
    (∀ linked, GoMap.get? level.Monsters target = none → canWalk level target = .ok true →
      GoMap.get? game.Levels levelAndPos.Level = some linked →
      game.handleInput input = .ok { game with
        CurrentLevel := levelAndPos.Level
        Player := game.Player.moveTo levelAndPos.Pos }) ∧
    (∀ monster, GoMap.get? level.Monsters target = some monster →
      (0 ≤ level.EventPos → level.EventPos < (level.Events.length : Int) →
        0 < game.Player.Hitpoints → ∃ game1, game.handleInput input = .ok game1) ∧
      ∀ game1, game.handleInput input = .ok game1 → PlayerAttacked game level target game1) ∧
    (∀ game1, GoMap.get? level.Monsters target = none → canWalk level target = .ok false →
      game.handleInput input = .ok game1 →
      game1.CurrentLevel = game.CurrentLevel ∧ game1.Player.toPos = game.Player.toPos) := by
  rw [handleInput_directional game level input target hlevel hdir]
  refine ⟨?_, ?_, ?_⟩
  · intro linked hfree hwalk hlinked
    rw [resolveMovement_free game level target true hlevel hfree hwalk, if_pos rfl]
    exact Move_portal game level linked target levelAndPos hlevel hportal hlinked
  · intro monster hmon
    exact ⟨fun h0 h1 halive =>
        resolveMovement_attack_returns game level target monster hlevel hmon h0 h1 halive,
      fun game1 hrun => resolveMovement_attack game game1 level target monster hlevel hmon hrun⟩
  · intro game1 hfree hwalk hrun
    rcases resolveMovement_blocked game game1 level target hlevel hfree hwalk hrun with h | h
    · exact ⟨h.2.2.2.1, h.2.2.2.2.1⟩
    · exact ⟨h.2.2.2.1, by rw [h.2.2.2.2.1]⟩

/-- Claim C18 (counterexample). A bat stands on the portal at (2, 1) and the scout at
(1, 1) is sent right: the player attacks the bat, which loses 5 hitpoints, and stays at
(1, 1) of the level a; the portal is not taken. -/
theorem portal_branch_order_counterexample :
    GoMap.get? guardedPortalLevel.Portals ⟨2, 1⟩ = some ⟨"b", ⟨3, 3⟩⟩ ∧
      ∃ game1 level1 bat,
        (hallGame guardedPortalLevel ⟨1, 1⟩).handleInput (plainInput .Right) = .ok game1 ∧
        game1.CurrentLevel = "a" ∧ game1.Player.toPos = ⟨1, 1⟩ ∧
        game1.level = .ok level1 ∧ level1.LastEvent = .Attack ∧
        level1.Events = ["heroAttackedBat for 5", "", ""] ∧
        GoMap.get? level1.Monsters ⟨2, 1⟩ = some bat ∧ bat.Character.Hitpoints = 45 :=
  ⟨by decide, _, _, _, rfl, rfl, rfl, rfl, rfl, by decide, rfl, by decide⟩

/-- The scout steps right onto the portal at (2, 1), which no monster guards: the portal
branch is taken. -/
theorem portal_branch_order_witness :
    (hallGame portalLevel ⟨1, 1⟩).handleInput (plainInput .Right)
      = .ok { hallGame portalLevel ⟨1, 1⟩ with
          CurrentLevel := "b"
          Player := (hallGame portalLevel ⟨1, 1⟩).Player.moveTo ⟨3, 3⟩ } :=
  (portal_branch_order (hallGame portalLevel ⟨1, 1⟩) portalLevel (plainInput .Right) ⟨2, 1⟩
    ⟨"b", ⟨3, 3⟩⟩ (by decide) (by decide) (by decide)).1 hallLevel (by decide) (by decide)
    (by decide)

end PortalOrder

section EndTile

theorem markTile_other (level level1 : Level) (q p : Pos) (h : markTile level q = .ok level1)
    (hpq : p ≠ q) : tileAt level1 p = tileAt level p := by
  obtain ⟨t, ht, rfl⟩ := markTile_eq_ok level level1 q h
  rw [tileAt_setTile level q t _ ht p, if_neg hpq]

/-- The loop of `bresenham` leaves alone every tile whose coordinate along the direction
of travel is the one at which the loop stops. -/
theorem bresenhamLoop_keeps_end (steep : Bool) (deltaX deltaY ystep xstep stopX : Int)
    (p : Pos) (hp : (if steep = true then p.Y else p.X) = stopX) :
    ∀ (todo : Nat) (x y err : Int) (level level1 : Level),
      (xstep = 1 ∧ x + (todo : Int) = stopX) ∨ (xstep = -1 ∧ x - (todo : Int) = stopX) →
      bresenhamLoop steep deltaX deltaY ystep xstep todo x y err level = .ok level1 →
      tileAt level1 p = tileAt level p := by
  intro todo
  induction todo with
  | zero =>
    intro x y err level level1 _ h
    simp only [bresenhamLoop, Outcome.ok.injEq] at h
    rw [h]
  | succ n ih =>
    intro x y err level level1 hx h
    simp only [bresenhamLoop] at h
    obtain ⟨levelA, hA, h⟩ := Outcome.bind_eq_ok h
    obtain ⟨through, -, h⟩ := Outcome.bind_eq_ok h
    have hne : p ≠ (if steep = true then (⟨y, x⟩ : Pos) else ⟨x, y⟩) := by
      intro hpe
      cases steep with
      | true =>
        simp only [if_true] at hpe hp
        rw [hpe] at hp
        simp only [] at hp
        push_cast at hx
        omega
      | false =>
        simp only [Bool.false_eq_true, if_false] at hpe hp
        rw [hpe] at hp
        simp only [] at hp
        push_cast at hx
        omega
    have hA1 := markTile_other level levelA _ p hA hne
    have hx1 : (xstep = 1 ∧ x + xstep + (n : Int) = stopX) ∨
        (xstep = -1 ∧ x + xstep - (n : Int) = stopX) := by
      push_cast at hx
      omega
    by_cases ht : through = true
    · simp only [ht, Bool.not_true, Bool.false_eq_true, if_false] at h
      split at h
      · rw [ih _ _ _ _ _ hx1 h, hA1]
      · rw [ih _ _ _ _ _ hx1 h, hA1]
    · simp only [Bool.not_eq_true] at ht
      simp only [ht, Bool.not_false, if_true, Outcome.ok.injEq] at h
      rw [← h, hA1]

/-- A ray never marks its end point: after `bresenham(start, stop)` the tile at `stop` is
what it was. -/
theorem bresenham_keeps_end (level level1 : Level) (start stop : Pos)
    (h : bresenham level start stop = .ok level1) : tileAt level1 stop = tileAt level stop := by
  unfold bresenham at h
  simp only [] at h
  by_cases hsteep : (stop.Y - start.Y).natAbs > (stop.X - start.X).natAbs
  · simp only [hsteep, decide_True, if_true] at h
    split at h
    · rename_i hgt
      exact bresenhamLoop_keeps_end true _ _ _ (-1) stop.Y stop rfl _ _ _ _ _ _
        (Or.inr ⟨rfl, by omega⟩) h
    · rename_i hgt
      exact bresenhamLoop_keeps_end true _ _ _ 1 stop.Y stop rfl _ _ _ _ _ _
        (Or.inl ⟨rfl, by omega⟩) h
  · simp only [hsteep, decide_False, Bool.false_eq_true, if_false] at h
    split at h
    · rename_i hgt
      exact bresenhamLoop_keeps_end false _ _ _ (-1) stop.X stop rfl _ _ _ _ _ _
        (Or.inr ⟨rfl, by omega⟩) h
    · rename_i hgt
      exact bresenhamLoop_keeps_end false _ _ _ 1 stop.X stop rfl _ _ _ _ _ _
        (Or.inl ⟨rfl, by omega⟩) h

/-- Claim C17 (failing input). In the hall every tile of the row from (1, 1) to (3, 1)
and of the column from (1, 1) to (1, 3) lets the sight through, yet the ray
`bresenham((1, 1), (3, 1))` marks (1, 1) and (2, 1) and leaves the end tile (3, 1)
neither visible nor seen; the same holds for the opposite direction, whose end tile is
(1, 1), and for the steep ray from (1, 1) to (1, 3). -/
theorem bresenham_skips_end_tile :
    canSeeThrough hallLevel ⟨1, 1⟩ = .ok true ∧ canSeeThrough hallLevel ⟨2, 1⟩ = .ok true ∧
    canSeeThrough hallLevel ⟨3, 1⟩ = .ok true ∧ canSeeThrough hallLevel ⟨1, 2⟩ = .ok true ∧
    canSeeThrough hallLevel ⟨1, 3⟩ = .ok true ∧
    (∃ level1, bresenham hallLevel ⟨1, 1⟩ ⟨3, 1⟩ = .ok level1 ∧
      tileAt level1 ⟨1, 1⟩ = .ok litTile ∧ tileAt level1 ⟨2, 1⟩ = .ok litTile ∧
      tileAt level1 ⟨3, 1⟩ = .ok floorTile) ∧
    (∃ level1, bresenham hallLevel ⟨3, 1⟩ ⟨1, 1⟩ = .ok level1 ∧
      tileAt level1 ⟨3, 1⟩ = .ok litTile ∧ tileAt level1 ⟨2, 1⟩ = .ok litTile ∧
      tileAt level1 ⟨1, 1⟩ = .ok floorTile) ∧
    (∃ level1, bresenham hallLevel ⟨1, 1⟩ ⟨1, 3⟩ = .ok level1 ∧
      tileAt level1 ⟨1, 1⟩ = .ok litTile ∧ tileAt level1 ⟨1, 2⟩ = .ok litTile ∧
      tileAt level1 ⟨1, 3⟩ = .ok floorTile) :=
  ⟨by decide, by decide, by decide, by decide, by decide,
    ⟨_, rfl, by decide, by decide, by decide⟩, ⟨_, rfl, by decide, by decide, by decide⟩,
    ⟨_, rfl, by decide, by decide, by decide⟩⟩

end EndTile

section Ownership

/-- Claim C11 (failing input). The hero wields the sword at address 1 and carries the
sword at address 3, so each of the two swords has exactly one holder. The input
`EquipItem` for the second sword succeeds; afterwards the second sword has one holder,
the weapon slot, and the first sword has none: it is in no slot, not carried and not on
the ground. Likewise an item of kind `Other` that the hero carries has no holder left
after it is equipped. -/
theorem equip_loses_item :
    holderCount roomLevel (armedGame [sword3]).Player.toCharacter sword1 = 1 ∧
    holderCount roomLevel (armedGame [sword3]).Player.toCharacter sword3 = 1 ∧
    (∃ game1, (armedGame [sword3]).handleInput ⟨.EquipItem, some sword3, none⟩ = .ok game1 ∧
      game1.level = .ok roomLevel ∧
      game1.Player.Weapon = some sword3 ∧
      holderCount roomLevel game1.Player.toCharacter sword3 = 1 ∧
      holderCount roomLevel game1.Player.toCharacter sword1 = 0) ∧
    holderCount roomLevel (armedGame [amulet4]).Player.toCharacter amulet4 = 1 ∧
    (∃ game1, (armedGame [amulet4]).handleInput ⟨.EquipItem, some amulet4, none⟩ = .ok game1 ∧
      game1.level = .ok roomLevel ∧
      holderCount roomLevel game1.Player.toCharacter amulet4 = 0) :=
  ⟨by decide, by decide, ⟨_, rfl, by decide, by decide, by decide, by decide⟩, by decide,
    ⟨_, rfl, by decide, by decide⟩⟩

end Ownership

section SeenFlags

theorem Level.SeenLE.of_map_eq {a b : Level} (h : b.Map = a.Map) : a.SeenLE b := by
  intro p t ht hs
  exact ⟨t, by rw [tileAt_congr b a h p, ht], hs⟩

theorem Game.SeenLE.levels_refl (g : Game) : g.SeenLE g :=
  fun _ level h => ⟨level, h, Level.SeenLE.seen_refl level⟩

theorem Game.SeenLE.levels_trans {g g1 g2 : Game} (h1 : g.SeenLE g1) (h2 : g1.SeenLE g2) :
    g.SeenLE g2 := by
  intro name level h
  obtain ⟨level1, hl1, hs1⟩ := h1 name level h
  obtain ⟨level2, hl2, hs2⟩ := h2 name level1 hl1
  exact ⟨level2, hl2, hs1.seen_trans hs2⟩

theorem Game.SeenLE.of_levels_eq {g g1 : Game} (h : g1.Levels = g.Levels) : g.SeenLE g1 :=
  fun _ level hl => ⟨level, by rw [h, hl], Level.SeenLE.seen_refl level⟩

theorem Game.store_seenLE (game : Game) (level level1 : Level) (c : Character)
    (hlevel : game.level = .ok level) (hseen : level.SeenLE level1) :
    game.SeenLE (game.store level1 c) := by
  intro name l hl
  unfold Game.store
  simp only [GoMap.get?_set]
  by_cases hname : game.CurrentLevel = name
  · subst hname
    rw [if_pos rfl]
    rw [Game.level_eq_ok game level hlevel] at hl
    cases hl
    exact ⟨level1, rfl, hseen⟩
  · rw [if_neg hname]
    exact ⟨l, hl, Level.SeenLE.seen_refl l⟩

theorem MoveItem_map (level level1 : Level) (item : Item) (c c1 : Character)
    (h : level.MoveItem item c = .ok (level1, c1)) : level1.Map = level.Map := by
  unfold Level.MoveItem at h
  simp only [] at h
  split at h
  · obtain ⟨level2, hadd, h⟩ := Outcome.bind_eq_ok h
    simp only [Outcome.ok.injEq, Prod.mk.injEq] at h
    rw [← h.1, (AddEvent_frame _ _ _ hadd).1]
  · cases h

theorem DropItem_map (level level1 : Level) (item : Item) (c c1 : Character)
    (h : level.DropItem item c = .ok (level1, c1)) : level1.Map = level.Map := by
  unfold Level.DropItem at h
  simp only [] at h
  split at h
  · obtain ⟨level2, hadd, h⟩ := Outcome.bind_eq_ok h
    simp only [Outcome.ok.injEq, Prod.mk.injEq] at h
    rw [← h.1, (AddEvent_frame _ _ _ hadd).1]
  · simp only [Outcome.ok.injEq, Prod.mk.injEq] at h
    rw [← h.1]

theorem takeAllLoop_map (pos : Pos) :
    ∀ (todo j : Nat) (level level1 : Level) (c c1 : Character),
      takeAllLoop pos todo j level c = .ok (level1, c1) → level1.Map = level.Map := by
  intro todo
  induction todo with
  | zero =>
    intro j level level1 c c1 h
    simp only [takeAllLoop, Outcome.ok.injEq, Prod.mk.injEq] at h
    rw [← h.1]
  | succ n ih =>
    intro j level level1 c c1 h
    simp only [takeAllLoop] at h
    split at h
    · cases h
    · obtain ⟨r, hmove, h⟩ := Outcome.bind_eq_ok h
      rw [ih _ _ _ _ _ h, MoveItem_map level r.1 _ c r.2 hmove]

theorem clearVisible_seenLE (level level1 : Level) (h : level1.Map = clearVisible level.Map) :
    level.SeenLE level1 := by
  intro p t ht hs
  obtain ⟨hy, hx, row, hrow, htile⟩ := (tileAt_eq_ok_iff level p t).mp ht
  refine ⟨{ t with Visible := false }, ?_, hs⟩
  apply (tileAt_eq_ok_iff level1 p _).mpr
  refine ⟨hy, hx, row.map (fun t => { t with Visible := false }), ?_, ?_⟩
  · rw [h]
    unfold clearVisible
    rw [List.getElem?_map, hrow]
    rfl
  · rw [List.getElem?_map, htile]
    rfl

theorem Monster.Kill_map (m : Monster) (level : Level) : (m.Kill level).Map = level.Map := rfl

theorem resolveMovement_seenLE (game game1 : Game) (target : Pos)
    (h : game.resolveMovement target = .ok game1) : game.SeenLE game1 := by
  unfold Game.resolveMovement at h
  obtain ⟨level, hlevel, h⟩ := Outcome.bind_eq_ok h
  split at h
  · rename_i monster hmon
    obtain ⟨level1, hadd, h⟩ := Outcome.bind_eq_ok h
    split at h
    · cases h
    · simp only [Outcome.ok.injEq] at h
      subst h
      apply Game.store_seenLE game level _ _ hlevel
      apply Level.SeenLE.of_map_eq
      have hmap : level1.Map = level.Map := (AddEvent_frame _ _ _ hadd).1
      split
      · exact hmap
      · exact hmap
  · obtain ⟨walk, hwalk, h⟩ := Outcome.bind_eq_ok h
    cases walk with
    | true =>
      simp only [if_true] at h
      unfold Game.Move at h
      rw [Outcome.bind_of_ok _ hlevel] at h
      split at h
      · split at h
        · cases h
        · simp only [Outcome.ok.injEq] at h
          subst h
          exact Game.SeenLE.of_levels_eq rfl
      · obtain ⟨level2, hsight, h⟩ := Outcome.bind_eq_ok h
        simp only [Outcome.ok.injEq] at h
        subst h
        apply Game.store_seenLE game level _ _ hlevel
        exact (clearVisible_seenLE level _ rfl).seen_trans (lineOfSight_seenLE _ _ _ hsight)
    | false =>
      simp only [Bool.false_eq_true, if_false] at h
      obtain ⟨level1, hdoor, h⟩ := Outcome.bind_eq_ok h
      simp only [Outcome.ok.injEq] at h
      subst h
      apply Game.store_seenLE game level _ _ hlevel
      obtain ⟨t, ht⟩ := checkDoor_tile level level1 game.Player target hdoor
      by_cases hclosed : t.OverlayRune = CloseDoor
      · exact (checkDoor_closed level level1 game.Player target t ht hclosed hdoor).2.2.1
      · rw [checkDoor_other level game.Player target t ht hclosed] at hdoor
        cases hdoor
        exact Level.SeenLE.seen_refl level

theorem handleCloseWindow_frame (game game1 : Game) (channel : Option Nat)
    (h : game.handleCloseWindow channel = .ok game1) :
    game1.Levels = game.Levels ∧ game1.CurrentLevel = game.CurrentLevel ∧
      game1.Player = game.Player := by
  unfold Game.handleCloseWindow at h
  cases channel with
  | none => cases h
  | some c =>
    simp only [] at h
    split_ifs at h
    all_goals cases h
    all_goals exact ⟨rfl, rfl, rfl⟩

theorem handleInput_seenLE (game game1 : Game) (input : Input)
    (h : game.handleInput input = .ok game1) : game.SeenLE game1 := by
  unfold Game.handleInput at h
  obtain ⟨level, hlevel, h⟩ := Outcome.bind_eq_ok h
  cases htyp : input.Typ <;> simp only [htyp] at h
  case Up => exact resolveMovement_seenLE _ _ _ h
  case Down => exact resolveMovement_seenLE _ _ _ h
  case Left => exact resolveMovement_seenLE _ _ _ h
  case Right => exact resolveMovement_seenLE _ _ _ h
  case TakeAll =>
    unfold Game.handleTakeAll at h
    rw [Outcome.bind_of_ok _ hlevel] at h
    obtain ⟨r, hloop, h⟩ := Outcome.bind_eq_ok h
    simp only [Outcome.ok.injEq] at h
    subst h
    apply Game.store_seenLE game level _ _ hlevel
    apply Level.SeenLE.of_map_eq
    exact takeAllLoop_map _ _ _ _ r.1 _ r.2 hloop
  case TakeItem =>
    split at h
    · unfold Game.handleTakeItem at h
      rw [Outcome.bind_of_ok _ hlevel] at h
      obtain ⟨r, hmove, h⟩ := Outcome.bind_eq_ok h
      simp only [Outcome.ok.injEq] at h
      subst h
      apply Game.store_seenLE game level _ _ hlevel
      apply Level.SeenLE.of_map_eq
      exact MoveItem_map _ r.1 _ _ r.2 hmove
    · cases h
  case DropItem =>
    split at h
    · unfold Game.handleDropItem at h
      rw [Outcome.bind_of_ok _ hlevel] at h
      obtain ⟨r, hdrop, h⟩ := Outcome.bind_eq_ok h
      simp only [Outcome.ok.injEq] at h
      subst h
      apply Game.store_seenLE game level _ _ hlevel
      apply Level.SeenLE.of_map_eq
      exact DropItem_map _ r.1 _ _ r.2 hdrop
    · simp only [Outcome.ok.injEq] at h
      subst h
      exact Game.store_seenLE game level _ _ hlevel (Level.SeenLE.of_map_eq rfl)
  case EquipItem =>
    split at h
    · unfold Game.handleEquipItem at h
      rw [Outcome.bind_of_ok _ hlevel] at h
      obtain ⟨c, -, h⟩ := Outcome.bind_eq_ok h
      simp only [Outcome.ok.injEq] at h
      subst h
      exact Game.store_seenLE game level _ _ hlevel (Level.SeenLE.seen_refl level)
    · cases h
  case CloseWindow =>
    exact Game.SeenLE.of_levels_eq (handleCloseWindow_frame game game1 _ h).1
  all_goals
    simp only [Outcome.ok.injEq] at h
    subst h
    exact Game.SeenLE.levels_refl _

end SeenFlags

section Monsters

theorem GoMap.get?_delete {κ ν : Type} [DecidableEq κ] (m : GoMap κ ν) (k k1 : κ) :
    GoMap.get? (GoMap.delete m k) k1 = if k = k1 then none else GoMap.get? m k1 := by
  induction m with
  | nil =>
    simp [GoMap.delete, GoMap.get?]
  | cons e rest ih =>
    obtain ⟨a, b⟩ := e
    unfold GoMap.delete at ih ⊢
    by_cases ha : a = k
    · subst ha
      simp only [List.filter, ne_eq, not_true_eq_false, decide_False, GoMap.get?]
      rw [ih]
      by_cases h1 : a = k1
      · simp [h1]
      · simp [h1]
    · simp only [List.filter, ne_eq, ha, not_false_eq_true, decide_True, GoMap.get?]
      rw [ih]
      by_cases h1 : a = k1
      · subst h1
        simp [Ne.symm ha]
      · simp [h1]

theorem Attack_parts (level : Level) (c1 c2 : Character) :
    (level.Attack c1 c2).2.1 = { c1 with ActionPoints := c1.ActionPoints - 1 } ∧
      (level.Attack c1 c2).2.2 = { c2 with Hitpoints := c2.Hitpoints - attackDamage c1 c2 } ∧
      ∃ e, (level.Attack c1 c2).1 = level.AddEvent e :=
  ⟨rfl, rfl, _, rfl⟩

/-- The three ways a call of `Monster.Move` returns: the monster moved to a free tile that
is not the player's; or it waited, the tile being held by a monster and not the player's;
or it attacked the player. -/
theorem Monster.Move_cases (m : Monster) (dest : Rpg.Pos) (level : Level) (player : Player)
    (r : Monster × Level × Player) (h : m.Move dest level player = .ok r) :
    (GoMap.get? level.Monsters dest = none ∧ dest ≠ player.toPos ∧
      r = ({ m with Pos := dest },
        { level with
          Monsters := GoMap.set (GoMap.delete level.Monsters m.Pos) dest { m with Pos := dest } },
        player)) ∨
    ((GoMap.get? level.Monsters dest).isSome = true ∧ dest ≠ player.toPos ∧
      r = (m, level, player)) ∨
    (dest = player.toPos ∧
      r.1 = { m with
        Character := { m.Character with ActionPoints := m.Character.ActionPoints - 1 } } ∧
      r.2.1.Map = level.Map ∧ r.2.1.Portals = level.Portals ∧
      (r.2.1.Monsters = level.Monsters ∨
        (m.Character.Hitpoints ≤ 0 ∧ r.2.1.Monsters = GoMap.delete level.Monsters m.Pos)) ∧
      r.2.2.toPos = player.toPos) := by
  unfold Monster.Move at h
  split at h
  · rename_i hfree
    simp only [Outcome.ok.injEq] at h
    left
    refine ⟨?_, hfree.2, h.symm⟩
    cases hg : GoMap.get? level.Monsters dest with
    | none => rfl
    | some x => rw [hg] at hfree; simp at hfree
  · rename_i hnot
    split at h
    · rename_i hdest
      right
      right
      obtain ⟨level1, hadd1, h⟩ := Outcome.bind_eq_ok h
      obtain ⟨level2, hadd2, h⟩ := Outcome.bind_eq_ok h
      have hadd2a : level1.AddEvent _ = .ok level2 := hadd2
      have f1 := AddEvent_frame _ _ _ hadd1
      have f2 := AddEvent_frame _ _ _ hadd2a
      split at h
      · cases h
      · simp only [Outcome.ok.injEq] at h
        subst h
        refine ⟨hdest, rfl, ?_, ?_, ?_, rfl⟩
        · simp only []
          split
          · exact f2.1.trans f1.1
          · exact f2.1.trans f1.1
        · simp only []
          split
          · exact f2.2.2.2.1.trans f1.2.2.2.1
          · exact f2.2.2.2.1.trans f1.2.2.2.1
        · simp only []
          split
          · rename_i hdead
            right
            refine ⟨hdead, ?_⟩
            show GoMap.delete level2.Monsters m.Pos = _
            rw [f2.2.1, f1.2.1]
          · left
            exact f2.2.1.trans f1.2.1
    · rename_i hdest
      simp only [Outcome.ok.injEq] at h
      right
      left
      refine ⟨?_, hdest, h.symm⟩
      by_contra hc
      apply hnot
      refine ⟨?_, hdest⟩
      cases hg : GoMap.get? level.Monsters dest with
      | none => rfl
      | some x => rw [hg] at hc; simp at hc

/-- An invariant of the monster, the level and the player that does not depend on the
action points of the monster and that `Monster.Move` keeps is kept by the loop of
`Monster.Update`. -/
theorem updateSteps_inv (P : Monster → Level → Player → Prop)
    (hap : ∀ m level player x, P m level player →
      P { m with Character := { m.Character with ActionPoints := x } } level player)
    (hmove : ∀ m dest level player r, P m level player → m.Move dest level player = .ok r →
      P r.1 r.2.1 r.2.2)
    (positions : List Pos) :
    ∀ (todo moveIndex : Nat) (m : Monster) (level : Level) (player : Player)
      (r : Monster × Level × Player), P m level player →
      updateSteps positions todo moveIndex m level player = .ok r → P r.1 r.2.1 r.2.2 := by
  intro todo
  induction todo with
  | zero =>
    intro moveIndex m level player r hP h
    simp only [updateSteps, Outcome.ok.injEq] at h
    subst h
    exact hP
  | succ n ih =>
    intro moveIndex m level player r hP h
    simp only [updateSteps] at h
    split at h
    · exact ih _ _ _ _ _ hP h
    · obtain ⟨r0, hmv, h⟩ := Outcome.bind_eq_ok h
      exact ih _ _ _ _ _ (hap _ _ _ _ (hmove _ _ _ _ _ hP hmv)) h

/-- An invariant that is kept by a change of the action points, by `Monster.Move` and by
the refresh of the map entry is kept by `Monster.Update`. -/
theorem Monster.Update_inv (P : Monster → Level → Player → Prop)
    (hap : ∀ m level player x, P m level player →
      P { m with Character := { m.Character with ActionPoints := x } } level player)
    (hmove : ∀ m dest level player r, P m level player → m.Move dest level player = .ok r →
      P r.1 r.2.1 r.2.2)
    (hsync : ∀ m level player, P m level player → P m (level.syncMonster m) player)
    (pq : PQueueImpl) (fuel : Nat) (m : Monster) (level : Level) (player : Player)
    (r : Monster × Level × Player) (hP : P m level player)
    (h : m.Update pq fuel level player = .ok r) : P r.1 r.2.1 r.2.2 := by
  unfold Monster.Update at h
  simp only [] at h
  obtain ⟨positions, -, h⟩ := Outcome.bind_eq_ok h
  split at h
  · simp only [Outcome.ok.injEq] at h
    subst h
    exact hsync _ _ _ (hap _ _ _ _ (hap _ _ _ _ hP))
  · obtain ⟨r0, hsteps, h⟩ := Outcome.bind_eq_ok h
    simp only [Outcome.ok.injEq] at h
    subst h
    exact hsync _ _ _
      (updateSteps_inv P hap hmove positions _ _ _ _ _ _ (hap _ _ _ _ hP) hsteps)

theorem syncMonster_frame (level : Level) (m : Monster) :
    (level.syncMonster m).Map = level.Map ∧ (level.syncMonster m).Portals = level.Portals := by
  unfold Level.syncMonster
  split
  · exact ⟨rfl, rfl⟩
  · exact ⟨rfl, rfl⟩

theorem Monster.Update_frame (pq : PQueueImpl) (fuel : Nat) (m : Monster) (level : Level)
    (player : Player) (r : Monster × Level × Player)
    (h : m.Update pq fuel level player = .ok r) :
    r.2.1.Map = level.Map ∧ r.2.1.Portals = level.Portals ∧ r.2.2.toPos = player.toPos := by
  refine Monster.Update_inv
    (fun _ l p => l.Map = level.Map ∧ l.Portals = level.Portals ∧ p.toPos = player.toPos)
    (fun _ _ _ _ hP => hP) ?_ ?_ pq fuel m level player r ⟨rfl, rfl, rfl⟩ h
  · intro m1 dest l p r1 hP hmv
    rcases Monster.Move_cases m1 dest l p r1 hmv with ⟨-, -, hr⟩ | ⟨-, -, hr⟩ | ⟨-, -, h1, h2, -, h3⟩
    · subst hr
      exact hP
    · subst hr
      exact hP
    · exact ⟨h1.trans hP.1, h2.trans hP.2.1, h3.trans hP.2.2⟩
  · intro m1 l p hP
    exact ⟨(syncMonster_frame l m1).1.trans hP.1, (syncMonster_frame l m1).2.trans hP.2.1, hP.2.2⟩

theorem updateMonsters_seenLE (pq : PQueueImpl) (fuel : Nat) :
    ∀ (order : List Pos) (game game1 : Game),
      Game.updateMonsters pq fuel order game = .ok game1 → game.SeenLE game1 := by
  intro order
  induction order with
  | nil =>
    intro game game1 h
    simp only [Game.updateMonsters, Outcome.ok.injEq] at h
    subst h
    exact Game.SeenLE.levels_refl _
  | cons key rest ih =>
    intro game game1 h
    simp only [Game.updateMonsters] at h
    obtain ⟨level, hlevel, h⟩ := Outcome.bind_eq_ok h
    split at h
    · exact ih _ _ h
    · obtain ⟨r, hupd, h⟩ := Outcome.bind_eq_ok h
      refine Game.SeenLE.levels_trans ?_ (ih _ _ h)
      exact Game.store_seenLE game level _ _ hlevel
        (Level.SeenLE.of_map_eq (Monster.Update_frame pq fuel _ level game.Player r hupd).1)

/-- Claim C14. The seen flag is monotone: when a sequence of cycles, each an input
handled by `handleInput` followed by the updates of the monsters in any order, returns,
every level of the game is still a level of the resulting game under its name, with the
same grid positions, and every tile of it whose seen flag was true has a true seen flag
afterwards. -/
theorem seen_monotone (pq : PQueueImpl) (fuel : Nat) (steps : List (Input × List Pos))
    (game game1 : Game) (h : game.cycles pq fuel steps = .ok game1) : game.SeenLE game1 := by
  induction steps generalizing game with
  | nil =>
    simp only [Game.cycles, Outcome.ok.injEq] at h
    subst h
    exact Game.SeenLE.levels_refl _
  | cons step rest ih =>
    simp only [Game.cycles] at h
    obtain ⟨gameA, hcycle, h⟩ := Outcome.bind_eq_ok h
    unfold Game.cycle at hcycle
    obtain ⟨gameB, hinput, hupd⟩ := Outcome.bind_eq_ok hcycle
    exact (handleInput_seenLE _ _ _ hinput).levels_trans
      ((updateMonsters_seenLE pq fuel _ _ _ hupd).levels_trans (ih gameA h))

/-- Two cycles in the lit hall, the scout going left and then up while the bat
approaches: the seen tiles stay seen. -/
theorem seen_monotone_witness :
    ∃ game1, (hallGame litBatLevel ⟨2, 2⟩).cycles listPQ 100
        [(plainInput .Left, [⟨3, 3⟩]), (plainInput .Up, [⟨3, 3⟩, ⟨2, 3⟩, ⟨3, 2⟩])] = .ok game1 ∧
      (hallGame litBatLevel ⟨2, 2⟩).SeenLE game1 := by
  obtain ⟨game1, h⟩ : ∃ g, (hallGame litBatLevel ⟨2, 2⟩).cycles listPQ 100
      [(plainInput .Left, [⟨3, 3⟩]), (plainInput .Up, [⟨3, 3⟩, ⟨2, 3⟩, ⟨3, 2⟩])] = .ok g :=
    ⟨_, by with_unfolding_all rfl⟩
  exact ⟨game1, h, seen_monotone listPQ 100 _ _ game1 h⟩

end Monsters

section ActionPoints

/-- A step to a tile that is not the player's is a move or a wait: it returns, the player
and the attributes of the monster are untouched, and the monster stands on the tile or
where it stood. -/
theorem Monster.Move_quiet (m : Monster) (dest : Rpg.Pos) (level : Level) (player : Player)
    (hne : dest ≠ player.toPos) :
    ∃ m1 level1, m.Move dest level player = .ok (m1, level1, player) ∧
      m1.Character = m.Character ∧ (m1.Pos = m.Pos ∨ m1.Pos = dest) := by
  unfold Monster.Move
  by_cases hfree : (GoMap.get? level.Monsters dest).isNone = true ∧ dest ≠ player.toPos
  · rw [if_pos hfree]
    exact ⟨_, _, rfl, rfl, Or.inr rfl⟩
  · rw [if_neg hfree, if_neg hne]
    exact ⟨_, _, rfl, rfl, Or.inl rfl⟩

theorem updateSteps_quiet (positions : List Pos) (player : Player) (start : Pos) :
    ∀ (todo moveIndex : Nat) (m : Monster) (level : Level),
      (∀ i, moveIndex ≤ i → i < moveIndex + min todo (positions.length - moveIndex) →
        positions[i]? ≠ some player.toPos) →
      (m.Pos = start ∨ ∃ i, 1 ≤ i ∧ i < moveIndex ∧ positions[i]? = some m.Pos) →
      1 ≤ moveIndex →
      ∃ m1 level1, updateSteps positions todo moveIndex m level player = .ok (m1, level1, player) ∧
        m1.Character.ActionPoints
          = m.Character.ActionPoints - ((min todo (positions.length - moveIndex) : Nat) : Rat) ∧
        (m1.Pos = start ∨ ∃ i, 1 ≤ i ∧
          i < moveIndex + min todo (positions.length - moveIndex) ∧
          positions[i]? = some m1.Pos) := by
  intro todo
  induction todo with
  | zero =>
    intro moveIndex m level _ hpos _
    refine ⟨m, level, rfl, by simp, ?_⟩
    simpa using hpos
  | succ n ih =>
    intro moveIndex m level hquiet hpos hidx
    simp only [updateSteps]
    cases hget : positions.get? moveIndex with
    | none =>
      have hlen : positions.length ≤ moveIndex := by
        rw [List.get?_eq_getElem?] at hget
        exact List.getElem?_eq_none_iff.mp hget
      have hz : positions.length - moveIndex = 0 := by omega
      simp only []
      obtain ⟨m1, level1, hrun, hap, hp1⟩ := ih moveIndex m level
        (by intro i h1 h2; rw [hz] at h2; simp at h2; omega) hpos hidx
      refine ⟨m1, level1, hrun, ?_, ?_⟩
      · rw [hap, hz]
        simp
      · rw [hz] at hp1 ⊢
        simpa using hp1
    | some dest =>
      have hlen : moveIndex < positions.length := by
        rw [List.get?_eq_getElem?] at hget
        by_contra hc
        rw [List.getElem?_eq_none (by omega)] at hget
        cases hget
      have hdest : dest ≠ player.toPos := by
        intro hd
        apply hquiet moveIndex (le_refl _) (by omega)
        rw [List.get?_eq_getElem?] at hget
        rw [hget, hd]
      obtain ⟨m0, level0, hmove, hchar, hp0⟩ := Monster.Move_quiet m dest level player hdest
      simp only []
      rw [Outcome.bind_of_ok _ hmove]
      obtain ⟨m1, level1, hrun, hap, hp1⟩ := ih (moveIndex + 1)
        { m0 with
          Character := { m0.Character with ActionPoints := m0.Character.ActionPoints - 1 } }
        level0
        (by
          intro i h1 h2
          apply hquiet i (by omega)
          omega)
        (by
          rcases hp0 with hp0 | hp0
          · rcases hpos with hpos | ⟨i, hi1, hi2, hi3⟩
            · left
              exact hp0.trans hpos
            · right
              exact ⟨i, hi1, by omega, by rw [hi3]; exact congrArg some hp0.symm⟩
          · right
            refine ⟨moveIndex, hidx, by omega, ?_⟩
            rw [List.get?_eq_getElem?] at hget
            rw [hget]
            exact congrArg some hp0.symm)
        (by omega)
      refine ⟨m1, level1, hrun, ?_, ?_⟩
      · rw [hap]
        show m0.Character.ActionPoints - 1 - _ = _
        rw [hchar]
        have e : min (n + 1) (positions.length - moveIndex)
            = min n (positions.length - (moveIndex + 1)) + 1 := by omega
        rw [e]
        push_cast
        ring
      · rcases hp1 with hp1 | ⟨i, hi1, hi2, hi3⟩
        · exact Or.inl hp1
        · right
          exact ⟨i, hi1, by omega, hi3⟩

theorem truncToInt_of_nonneg (q : Rat) (h : 0 ≤ q) : truncToInt q = Rat.floor q := by
  unfold truncToInt
  rw [if_pos h]

theorem syncMonster_self (level : Level) (m : Monster) :
    (level.syncMonster m).Map = level.Map := (syncMonster_frame level m).1

/-- Updates that do not reach the player. A monster whose A* path to the player is not
empty and whose action points plus speed are not negative takes
s = min(floor(action points + speed), path length - 1) steps along the path. When none of
the tiles 1 to s of the path is the player's, each step is a move or a wait behind another
monster: the update returns, the player is untouched, the monster stands on its start
tile or on one of the tiles 1 to s of the path, and it is left with exactly its old action
points plus its speed minus s, which is not negative. -/
theorem quiet_update_points (pq : PQueueImpl) (fuel : Nat) (m : Monster) (level : Level)
    (player : Player) (positions : List Pos)
    (hpath : level.aStar pq m.Pos player.toPos fuel = .ok positions)
    (hne : positions ≠ [])
    (hap : 0 ≤ m.Character.ActionPoints + m.Character.Speed)
    (hquiet : ∀ i, 1 ≤ i →
      i ≤ min (Rat.floor (m.Character.ActionPoints + m.Character.Speed)).toNat
        (positions.length - 1) →
      positions[i]? ≠ some player.toPos) :
    ∃ m1 level1, m.Update pq fuel level player = .ok (m1, level1, player) ∧
      m1.Character.ActionPoints
        = m.Character.ActionPoints + m.Character.Speed
          - ((min (Rat.floor (m.Character.ActionPoints + m.Character.Speed)).toNat
              (positions.length - 1) : Nat) : Rat) ∧
      0 ≤ m1.Character.ActionPoints ∧
      (m1.Pos = m.Pos ∨ ∃ i, 1 ≤ i ∧
        i ≤ min (Rat.floor (m.Character.ActionPoints + m.Character.Speed)).toNat
          (positions.length - 1) ∧
        positions[i]? = some m1.Pos) := by
  have hlen : positions.length ≠ 0 := fun h => hne (List.length_eq_zero.mp h)
  obtain ⟨m1, level1, hrun, hap1, hpos1⟩ := updateSteps_quiet positions player m.Pos
    (Rat.floor (m.Character.ActionPoints + m.Character.Speed)).toNat 1
    { m with
      Character :=
        { m.Character with ActionPoints := m.Character.ActionPoints + m.Character.Speed } }
    level
    (by
      intro i h1 h2
      exact hquiet i h1 (by omega))
    (Or.inl rfl) (le_refl 1)
  refine ⟨m1, level1.syncMonster m1, ?_, hap1, ?_, ?_⟩
  · unfold Monster.Update
    simp only []
    rw [Outcome.bind_of_ok _ hpath, if_neg hlen, truncToInt_of_nonneg _ hap,
      Outcome.bind_of_ok _ hrun]
  · rw [hap1]
    have hfloor : ((Rat.floor (m.Character.ActionPoints + m.Character.Speed) : Int) : Rat)
        ≤ m.Character.ActionPoints + m.Character.Speed := Rat.le_floor.mp (le_refl _)
    have hnn : 0 ≤ Rat.floor (m.Character.ActionPoints + m.Character.Speed) :=
      Rat.le_floor.mpr (by simpa using hap)
    have hs : ((min (Rat.floor (m.Character.ActionPoints + m.Character.Speed)).toNat
        (positions.length - 1) : Nat) : Rat)
        ≤ ((Rat.floor (m.Character.ActionPoints + m.Character.Speed) : Int) : Rat) := by
      have h1 : ((min (Rat.floor (m.Character.ActionPoints + m.Character.Speed)).toNat
          (positions.length - 1) : Nat) : Int)
          ≤ Rat.floor (m.Character.ActionPoints + m.Character.Speed) := by
        omega
      exact_mod_cast h1
    show 0 ≤ m.Character.ActionPoints + m.Character.Speed - _
    linarith
  · rcases hpos1 with h | ⟨i, h1, h2, h3⟩
    · exact Or.inl h
    · exact Or.inr ⟨i, h1, by omega, h3⟩

end ActionPoints
section ActionPointsExamples

/-- Claim C19 (failing input). A bat with no action points and speed 3/2 stands at
(2, 1), next to the player at (1, 1). Its A* path has two positions, so one update takes
s = min(floor(0 + 3/2), 2 - 1) = 1 step, an attack on the player, who loses one hitpoint.
The claim leaves the bat with 0 + 3/2 - 1 = 1/2 action points; the update leaves it with
0 + 3/2 - 2 = -1/2, a negative number: the attack is charged by `Level.Attack` and once
more by the loop of `Monster.Update`. The attack of the player on the same bat, the input
Right, is charged once: the player goes from 0 to -1 action points. -/
theorem monster_attack_charged_twice :
    batHallLevel.aStar listPQ ⟨2, 1⟩ ⟨1, 1⟩ 100 = .ok [⟨2, 1⟩, ⟨1, 1⟩] ∧
    min (Rat.floor ((NewBat ⟨2, 1⟩).Character.ActionPoints
        + (NewBat ⟨2, 1⟩).Character.Speed)).toNat
      ([(⟨2, 1⟩ : Pos), ⟨1, 1⟩].length - 1) = 1 ∧
    (∃ m1 level1 player1,
      (NewBat ⟨2, 1⟩).Update listPQ 100 batHallLevel (scout ⟨1, 1⟩)
        = .ok (m1, level1, player1) ∧
      player1.Hitpoints = (scout ⟨1, 1⟩).Hitpoints - 1 ∧
      level1.Events = ["Bat Attacks Player", "BatAttackedhero for 1", ""] ∧
      m1.Pos = ⟨2, 1⟩ ∧
      m1.Character.ActionPoints
        = (NewBat ⟨2, 1⟩).Character.ActionPoints + (NewBat ⟨2, 1⟩).Character.Speed - 2 ∧
      m1.Character.ActionPoints
        ≠ (NewBat ⟨2, 1⟩).Character.ActionPoints + (NewBat ⟨2, 1⟩).Character.Speed - 1 ∧
      m1.Character.ActionPoints < 0) ∧
    (batHallLevel.Attack (NewBat ⟨2, 1⟩).Character (scout ⟨1, 1⟩).toCharacter).2.1.ActionPoints
      = (NewBat ⟨2, 1⟩).Character.ActionPoints - 1 ∧
    ∃ game1, (hallGame batHallLevel ⟨1, 1⟩).handleInput (plainInput .Right) = .ok game1 ∧
      game1.Player.ActionPoints = (scout ⟨1, 1⟩).ActionPoints - 1 ∧
      game1.Player.toPos = ⟨1, 1⟩ :=
  ⟨by decide, by with_unfolding_all decide,
    ⟨_, _, _, by with_unfolding_all rfl, by with_unfolding_all decide,
      by with_unfolding_all decide, by with_unfolding_all decide,
      by with_unfolding_all decide, by with_unfolding_all decide,
      by with_unfolding_all decide⟩,
    by with_unfolding_all decide,
    _, by with_unfolding_all rfl, by with_unfolding_all decide, by with_unfolding_all decide⟩

/-- A bat with no action points and speed 3/2 at (3, 3), the player at (1, 1): the path
has five positions, the bat takes min(floor(3/2), 4) = 1 step, a move, and is left with
1/2 action points. -/
theorem quiet_update_points_example :
    ∃ m1 level1, (NewBat ⟨3, 3⟩).Update listPQ 100 cornerBatLevel (scout ⟨1, 1⟩)
        = .ok (m1, level1, scout ⟨1, 1⟩) ∧
      m1.Character.ActionPoints
        = (NewBat ⟨3, 3⟩).Character.ActionPoints + (NewBat ⟨3, 3⟩).Character.Speed
          - ((min (Rat.floor ((NewBat ⟨3, 3⟩).Character.ActionPoints
              + (NewBat ⟨3, 3⟩).Character.Speed)).toNat
              ([(⟨3, 3⟩ : Pos), ⟨2, 3⟩, ⟨1, 3⟩, ⟨1, 2⟩, ⟨1, 1⟩].length - 1) : Nat) : Rat) ∧
      0 ≤ m1.Character.ActionPoints ∧
      (m1.Pos = (NewBat ⟨3, 3⟩).Pos ∨ ∃ i, 1 ≤ i ∧
        i ≤ min (Rat.floor ((NewBat ⟨3, 3⟩).Character.ActionPoints
            + (NewBat ⟨3, 3⟩).Character.Speed)).toNat
          ([(⟨3, 3⟩ : Pos), ⟨2, 3⟩, ⟨1, 3⟩, ⟨1, 2⟩, ⟨1, 1⟩].length - 1) ∧
        [(⟨3, 3⟩ : Pos), ⟨2, 3⟩, ⟨1, 3⟩, ⟨1, 2⟩, ⟨1, 1⟩][i]? = some m1.Pos) :=
  quiet_update_points listPQ 100 (NewBat ⟨3, 3⟩) cornerBatLevel (scout ⟨1, 1⟩)
    [⟨3, 3⟩, ⟨2, 3⟩, ⟨1, 3⟩, ⟨1, 2⟩, ⟨1, 1⟩] (by decide) (by decide)
    (by with_unfolding_all decide)
    (by
      have hfloor : Rat.floor ((NewBat ⟨3, 3⟩).Character.ActionPoints
          + (NewBat ⟨3, 3⟩).Character.Speed) = 1 := by with_unfolding_all decide
      intro i h1 h2
      rw [hfloor] at h2
      have hi : i = 1 := by
        simp at h2
        omega
      subst hi
      decide)

end ActionPointsExamples

section Occupants

theorem GoMap.mem_keys {κ ν : Type} [DecidableEq κ] (m : GoMap κ ν) (k : κ) :
    k ∈ GoMap.keys m ↔ GoMap.get? m k ≠ none := by
  unfold GoMap.keys
  rw [List.mem_dedup]
  induction m with
  | nil => simp [GoMap.get?]
  | cons e rest ih =>
    obtain ⟨a, b⟩ := e
    simp only [List.map_cons, List.mem_cons, GoMap.get?]
    by_cases ha : a = k
    · simp [ha]
    · rw [if_neg ha, ← ih]
      constructor
      · rintro (h | h)
        · exact absurd h.symm ha
        · exact h
      · exact Or.inr

theorem GoMap.keys_length {κ ν : Type} [DecidableEq κ] (m : GoMap κ ν) :
    (GoMap.keys m).length = (GoMap.keys m).toFinset.card :=
  (List.toFinset_card_of_nodup (List.nodup_dedup _)).symm

theorem GoMap.keys_set {κ ν : Type} [DecidableEq κ] (m : GoMap κ ν) (k : κ) (v : ν) :
    (GoMap.keys (GoMap.set m k v)).toFinset = insert k (GoMap.keys m).toFinset := by
  ext x
  simp only [List.mem_toFinset, GoMap.mem_keys, GoMap.get?_set, Finset.mem_insert]
  by_cases h : k = x
  · simp [h]
  · simp [h, Ne.symm h]

theorem GoMap.keys_delete {κ ν : Type} [DecidableEq κ] (m : GoMap κ ν) (k : κ) :
    (GoMap.keys (GoMap.delete m k)).toFinset = (GoMap.keys m).toFinset.erase k := by
  ext x
  simp only [List.mem_toFinset, GoMap.mem_keys, GoMap.get?_delete, Finset.mem_erase]
  by_cases h : k = x
  · simp [h]
  · simp [h, Ne.symm h]

theorem GoMap.keys_length_set_of_mem {κ ν : Type} [DecidableEq κ] (m : GoMap κ ν) (k : κ)
    (v : ν) (h : GoMap.get? m k ≠ none) :
    (GoMap.keys (GoMap.set m k v)).length = (GoMap.keys m).length := by
  rw [GoMap.keys_length, GoMap.keys_length, GoMap.keys_set,
    Finset.insert_eq_of_mem (List.mem_toFinset.mpr ((GoMap.mem_keys m k).mpr h))]

theorem GoMap.keys_length_move {κ ν : Type} [DecidableEq κ] (m : GoMap κ ν) (a b : κ) (v : ν)
    (ha : GoMap.get? m a ≠ none) (hb : GoMap.get? m b = none) :
    (GoMap.keys (GoMap.set (GoMap.delete m a) b v)).length = (GoMap.keys m).length := by
  rw [GoMap.keys_length, GoMap.keys_length, GoMap.keys_set, GoMap.keys_delete]
  have hamem : a ∈ (GoMap.keys m).toFinset := List.mem_toFinset.mpr ((GoMap.mem_keys m a).mpr ha)
  have hbmem : b ∉ (GoMap.keys m).toFinset := by
    intro h
    exact (GoMap.mem_keys m b).mp (List.mem_toFinset.mp h) hb
  rw [Finset.card_insert_of_not_mem (fun h => hbmem (Finset.mem_of_mem_erase h)),
    Finset.card_erase_of_mem hamem]
  have : 0 < (GoMap.keys m).toFinset.card := Finset.card_pos.mpr ⟨a, hamem⟩
  omega

theorem moveTarget_ne (typ : InputType) (p target : Pos) (h : moveTarget typ p = some target) :
    target ≠ p := by
  intro he
  subst he
  cases typ <;> simp [moveTarget] at h
  all_goals
    have h1 := congrArg Pos.X h
    have h2 := congrArg Pos.Y h
    simp at h1 h2

/-- The invariant of the occupants of a level, for a monster that is being updated: each
monster is keyed at its position and none at the player's; and, under the condition
`alive`, the monsters have positive hitpoints, the updated monster is one of them, in
the map under its position, and there are `n` monsters. -/
theorem Monster.Move_occupants (alive : Prop) (n : Nat) (m : Monster) (dest : Rpg.Pos)
    (level : Level) (player : Player) (r : Monster × Level × Player)
    (hP : level.monstersKeyed ∧ GoMap.get? level.Monsters player.toPos = none ∧
      (alive → level.monstersAlive ∧ GoMap.get? level.Monsters m.Pos ≠ none ∧
        0 < m.Character.Hitpoints ∧ level.monsterCount = n))
    (h : m.Move dest level player = .ok r) :
    r.2.1.monstersKeyed ∧ GoMap.get? r.2.1.Monsters r.2.2.toPos = none ∧
      (alive → r.2.1.monstersAlive ∧ GoMap.get? r.2.1.Monsters r.1.Pos ≠ none ∧
        0 < r.1.Character.Hitpoints ∧ r.2.1.monsterCount = n) := by
  obtain ⟨hkeyed, hfree, hcount⟩ := hP
  rcases Monster.Move_cases m dest level player r h with
    ⟨hdest, hne, hr⟩ | ⟨-, -, hr⟩ | ⟨-, hr1, -, -, hmons, hpos⟩
  · subst hr
    refine ⟨?_, ?_, ?_⟩
    · intro key m1 hget
      simp only [GoMap.get?_set, GoMap.get?_delete] at hget
      by_cases hk : dest = key
      · rw [if_pos hk] at hget
        cases hget
        exact hk
      · rw [if_neg hk] at hget
        split at hget
        · cases hget
        · exact hkeyed key m1 hget
    · simp only [GoMap.get?_set, GoMap.get?_delete]
      rw [if_neg hne]
      split
      · rfl
      · exact hfree
    · intro ha
      obtain ⟨halive, hpresent, hhp, hn⟩ := hcount ha
      refine ⟨?_, ?_, hhp, ?_⟩
      · intro key m1 hget
        simp only [GoMap.get?_set, GoMap.get?_delete] at hget
        by_cases hk : dest = key
        · rw [if_pos hk] at hget
          cases hget
          exact hhp
        · rw [if_neg hk] at hget
          split at hget
          · cases hget
          · exact halive key m1 hget
      · simp [GoMap.get?_set]
      · unfold Level.monsterCount at hn ⊢
        simp only []
        rw [GoMap.keys_length_move _ _ _ _ hpresent hdest, hn]
  · subst hr
    exact ⟨hkeyed, hfree, hcount⟩
  · have hkeyed1 : r.2.1.monstersKeyed := by
      rcases hmons with hm | ⟨-, hm⟩
      · intro key m1 hget
        rw [hm] at hget
        exact hkeyed key m1 hget
      · intro key m1 hget
        rw [hm, GoMap.get?_delete] at hget
        split at hget
        · cases hget
        · exact hkeyed key m1 hget
    have hfree1 : GoMap.get? r.2.1.Monsters r.2.2.toPos = none := by
      rw [hpos]
      rcases hmons with hm | ⟨-, hm⟩
      · rw [hm]
        exact hfree
      · rw [hm, GoMap.get?_delete]
        split
        · rfl
        · exact hfree
    refine ⟨hkeyed1, hfree1, ?_⟩
    intro ha
    obtain ⟨halive, hpresent, hhp, hn⟩ := hcount ha
    have hm : r.2.1.Monsters = level.Monsters := by
      rcases hmons with hm | ⟨hdead, -⟩
      · exact hm
      · omega
    rw [hr1]
    unfold Level.monstersAlive Level.monsterCount at *
    rw [hm]
    exact ⟨halive, hpresent, hhp, hn⟩

theorem syncMonster_occupants (alive : Prop) (n : Nat) (m : Monster) (level : Level)
    (player : Player)
    (hP : level.monstersKeyed ∧ GoMap.get? level.Monsters player.toPos = none ∧
      (alive → level.monstersAlive ∧ GoMap.get? level.Monsters m.Pos ≠ none ∧
        0 < m.Character.Hitpoints ∧ level.monsterCount = n)) :
    (level.syncMonster m).monstersKeyed ∧
      GoMap.get? (level.syncMonster m).Monsters player.toPos = none ∧
      (alive → (level.syncMonster m).monstersAlive ∧
        GoMap.get? (level.syncMonster m).Monsters m.Pos ≠ none ∧
        0 < m.Character.Hitpoints ∧ (level.syncMonster m).monsterCount = n) := by
  obtain ⟨hkeyed, hfree, hcount⟩ := hP
  unfold Level.syncMonster
  split
  · rename_i hsome
    have hpresent : GoMap.get? level.Monsters m.Pos ≠ none := by
      intro hc
      rw [hc] at hsome
      cases hsome
    have hne : m.Pos ≠ player.toPos := by
      intro hc
      rw [hc] at hpresent
      exact hpresent hfree
    refine ⟨?_, ?_, ?_⟩
    · intro key m1 hget
      simp only [GoMap.get?_set] at hget
      split at hget
      · rename_i hk
        cases hget
        exact hk
      · exact hkeyed key m1 hget
    · simp only [GoMap.get?_set]
      rw [if_neg hne]
      exact hfree
    · intro ha
      obtain ⟨halive, -, hhp, hn⟩ := hcount ha
      refine ⟨?_, ?_, hhp, ?_⟩
      · intro key m1 hget
        simp only [GoMap.get?_set] at hget
        split at hget
        · cases hget
          exact hhp
        · exact halive key m1 hget
      · simp [GoMap.get?_set]
      · unfold Level.monsterCount at hn ⊢
        simp only []
        rw [GoMap.keys_length_set_of_mem _ _ _ hpresent, hn]
  · exact ⟨hkeyed, hfree, hcount⟩

theorem Monster.Update_occupants (alive : Prop) (n : Nat) (pq : PQueueImpl) (fuel : Nat)
    (m : Monster) (level : Level) (player : Player) (r : Monster × Level × Player)
    (hP : level.monstersKeyed ∧ GoMap.get? level.Monsters player.toPos = none ∧
      (alive → level.monstersAlive ∧ GoMap.get? level.Monsters m.Pos ≠ none ∧
        0 < m.Character.Hitpoints ∧ level.monsterCount = n))
    (h : m.Update pq fuel level player = .ok r) :
    r.2.1.monstersKeyed ∧ GoMap.get? r.2.1.Monsters r.2.2.toPos = none ∧
      (alive → r.2.1.monstersAlive ∧ level.monsterCount = n ∧ r.2.1.monsterCount = n) := by
  have hres := Monster.Update_inv
    (fun m1 l p => l.monstersKeyed ∧ GoMap.get? l.Monsters p.toPos = none ∧
      (alive → l.monstersAlive ∧ GoMap.get? l.Monsters m1.Pos ≠ none ∧
        0 < m1.Character.Hitpoints ∧ l.monsterCount = n))
    (fun _ _ _ _ hQ => hQ)
    (fun m1 dest l p r1 hQ hmv => Monster.Move_occupants alive n m1 dest l p r1 hQ hmv)
    (fun m1 l p hQ => syncMonster_occupants alive n m1 l p hQ)
    pq fuel m level player r hP h
  exact ⟨hres.1, hres.2.1, fun ha => ⟨(hres.2.2 ha).1, (hP.2.2 ha).2.2.2, (hres.2.2 ha).2.2.2⟩⟩

end Occupants
section OccupantsMain

theorem updateMonsters_occupants (alive : Prop) (n : Nat) (pq : PQueueImpl) (fuel : Nat) :
    ∀ (order : List Pos) (game game1 : Game) (level : Level),
      game.level = .ok level → level.monstersKeyed →
      GoMap.get? level.Monsters game.Player.toPos = none →
      (alive → level.monstersAlive ∧ level.monsterCount = n) →
      Game.updateMonsters pq fuel order game = .ok game1 →
      ∃ level1, game1.level = .ok level1 ∧ level1.monstersKeyed ∧
        GoMap.get? level1.Monsters game1.Player.toPos = none ∧
        (alive → level1.monstersAlive ∧ level1.monsterCount = n) := by
  intro order
  induction order with
  | nil =>
    intro game game1 level hlevel hkeyed hfree hcount h
    simp only [Game.updateMonsters, Outcome.ok.injEq] at h
    subst h
    exact ⟨level, hlevel, hkeyed, hfree, hcount⟩
  | cons key rest ih =>
    intro game game1 level hlevel hkeyed hfree hcount h
    simp only [Game.updateMonsters] at h
    rw [Outcome.bind_of_ok _ hlevel] at h
    split at h
    · exact ih game game1 level hlevel hkeyed hfree hcount h
    · rename_i m hm
      obtain ⟨r, hupd, h⟩ := Outcome.bind_eq_ok h
      have hpos : m.Pos = key := hkeyed key m hm
      have hres := Monster.Update_occupants alive n pq fuel m level game.Player r
        ⟨hkeyed, hfree, fun ha => ⟨(hcount ha).1, by rw [hpos, hm]; simp,
          (hcount ha).1 key m hm, (hcount ha).2⟩⟩ hupd
      exact ih _ game1 r.2.1 (Game.store_level _ _ _) hres.1 hres.2.1
        (fun ha => ⟨(hres.2.2 ha).1, (hres.2.2 ha).2.2⟩) h

theorem resolveMovement_occupants (game game0 : Game) (level : Level) (target : Pos)
    (hlevel : game.level = .ok level) (hne : target ≠ game.Player.toPos)
    (hkeyed : ∀ name l, GoMap.get? game.Levels name = some l → l.monstersKeyed)
    (hfree : ∀ name l, GoMap.get? game.Levels name = some l →
      GoMap.get? l.Monsters game.Player.toPos = none)
    (hportal : ∀ levelAndPos linked, GoMap.get? level.Monsters target = none →
      canWalk level target = .ok true →
      GoMap.get? level.Portals target = some levelAndPos →
      GoMap.get? game.Levels levelAndPos.Level = some linked →
      GoMap.get? linked.Monsters levelAndPos.Pos = none)
    (h : game.resolveMovement target = .ok game0) :
    ∃ level0, game0.level = .ok level0 ∧ level0.monstersKeyed ∧
      GoMap.get? level0.Monsters game0.Player.toPos = none := by
  have hget := Game.level_eq_ok game level hlevel
  have hk := hkeyed _ _ hget
  have hf := hfree _ _ hget
  cases hmon : GoMap.get? level.Monsters target with
  | some monster =>
    unfold Game.resolveMovement at h
    rw [Outcome.bind_of_ok _ hlevel] at h
    simp only [hmon] at h
    obtain ⟨level1, hadd, h⟩ := Outcome.bind_eq_ok h
    have hadd1 : level.AddEvent _ = .ok level1 := hadd
    have hmons : level1.Monsters = level.Monsters := (AddEvent_frame _ _ _ hadd1).2.1
    split at h
    · cases h
    · simp only [Outcome.ok.injEq] at h
      subst h
      refine ⟨_, Game.store_level _ _ _, ?_, ?_⟩
      · split
        · intro key m1 hg
          simp only [Monster.Kill, GoMap.get?_delete, GoMap.get?_set, hmons] at hg
          split at hg
          · cases hg
          · split at hg
            · rename_i hkey
              cases hg
              exact (hk target monster hmon).trans hkey
            · exact hk key m1 hg
        · intro key m1 hg
          simp only [GoMap.get?_set, hmons] at hg
          split at hg
          · rename_i hkey
            cases hg
            exact (hk target monster hmon).trans hkey
          · exact hk key m1 hg
      · show GoMap.get? _ game.Player.toPos = none
        split
        · simp only [Monster.Kill, GoMap.get?_delete, GoMap.get?_set, hmons]
          split
          · rfl
          · simp [hne, hf]
        · simp only [GoMap.get?_set, hmons]
          simp [hne, hf]
  | none =>
    have h1 := h
    unfold Game.resolveMovement at h1
    rw [Outcome.bind_of_ok _ hlevel] at h1
    simp only [hmon] at h1
    obtain ⟨walk, hwalk, -⟩ := Outcome.bind_eq_ok h1
    cases walk with
    | true =>
      rw [resolveMovement_free game level target true hlevel hmon hwalk, if_pos rfl] at h
      cases hp : GoMap.get? level.Portals target with
      | none =>
        rw [Move_plain game level target hlevel hp] at h
        obtain ⟨level2, hsight, h⟩ := Outcome.bind_eq_ok h
        simp only [Outcome.ok.injEq] at h
        subst h
        have hframe := lineOfSight_frame _ _ _ hsight
        have hm2 : level2.Monsters = level.Monsters := by rw [hframe]
        refine ⟨level2, Game.store_level _ _ _, ?_, ?_⟩
        · intro key m1 hg
          rw [hm2] at hg
          exact hk key m1 hg
        · show GoMap.get? level2.Monsters target = none
          rw [hm2]
          exact hmon
      | some levelAndPos =>
        unfold Game.Move at h
        rw [Outcome.bind_of_ok _ hlevel] at h
        simp only [hp] at h
        split at h
        · cases h
        · rename_i linked hlinked
          simp only [Outcome.ok.injEq] at h
          subst h
          refine ⟨linked, ?_, hkeyed _ _ hlinked, ?_⟩
          · unfold Game.level
            simp only [hlinked]
          · exact hportal levelAndPos linked hmon hwalk hp hlinked
    | false =>
      rw [resolveMovement_free game level target false hlevel hmon hwalk] at h
      simp only [Bool.false_eq_true, if_false] at h
      obtain ⟨level1, hdoor, h⟩ := Outcome.bind_eq_ok h
      simp only [Outcome.ok.injEq] at h
      subst h
      have hm1 : level1.Monsters = level.Monsters := by
        obtain ⟨t, ht⟩ := checkDoor_tile level level1 game.Player target hdoor
        by_cases hclosed : t.OverlayRune = CloseDoor
        · exact (checkDoor_closed level level1 game.Player target t ht hclosed hdoor).2.1
        · rw [checkDoor_other level game.Player target t ht hclosed] at hdoor
          cases hdoor
          rfl
      refine ⟨level1, Game.store_level _ _ _, ?_, ?_⟩
      · intro key m1 hg
        rw [hm1] at hg
        exact hk key m1 hg
      · show GoMap.get? level1.Monsters game.Player.toPos = none
        rw [hm1]
        exact hf

/-- Claim C20 (amended). Take a game in which each monster of every level is keyed at its
own position and no monster of any level is keyed at the player's position, and a
directional input such that, when it takes the player through a portal, no monster of
the linked level is keyed at the linked position. When the cycle returns, that is the
input handled and then the monsters of the active level updated in any order, no monster
of the active level is keyed at the player's position and each monster of the active
level is keyed at its own position; and when the monsters that the active level holds
after the input all have positive hitpoints, the updates leave their number unchanged:
no monster has been overwritten by another. -/
theorem occupants_exclusive (pq : PQueueImpl) (fuel : Nat) (game game1 : Game) (level : Level)
    (input : Input) (order : List Pos) (target : Pos)
    (hlevel : game.level = .ok level)
    (hdir : moveTarget input.Typ game.Player.toPos = some target)
    (hkeyed : ∀ name l, GoMap.get? game.Levels name = some l → l.monstersKeyed)
    (hfree : ∀ name l, GoMap.get? game.Levels name = some l →
      GoMap.get? l.Monsters game.Player.toPos = none)
    (hportal : ∀ levelAndPos linked, GoMap.get? level.Monsters target = none →
      canWalk level target = .ok true →
      GoMap.get? level.Portals target = some levelAndPos →
      GoMap.get? game.Levels levelAndPos.Level = some linked →
      GoMap.get? linked.Monsters levelAndPos.Pos = none)
    (hrun : game.cycle pq fuel input order = .ok game1) :
    ∃ game0 level0 level1, game.handleInput input = .ok game0 ∧ game0.level = .ok level0 ∧
      game1.level = .ok level1 ∧
      GoMap.get? level1.Monsters game1.Player.toPos = none ∧ level1.monstersKeyed ∧
      (level0.monstersAlive → level1.monsterCount = level0.monsterCount) := by
  unfold Game.cycle at hrun
  obtain ⟨game0, hinput, hupd⟩ := Outcome.bind_eq_ok hrun
  have hres := hinput
  rw [handleInput_directional game level input target hlevel hdir] at hres
  obtain ⟨level0, hlevel0, hkeyed0, hfree0⟩ := resolveMovement_occupants game game0 level target
    hlevel (moveTarget_ne _ _ _ hdir) hkeyed hfree hportal hres
  obtain ⟨level1, hlevel1, hkeyed1, hfree1, hcount1⟩ :=
    updateMonsters_occupants level0.monstersAlive level0.monsterCount pq fuel order game0 game1
      level0 hlevel0 hkeyed0 hfree0 (fun ha => ⟨ha, rfl⟩) hupd
  exact ⟨game0, level0, level1, hinput, hlevel0, hlevel1, hfree1, hkeyed1,
    fun ha => (hcount1 ha).2⟩

end OccupantsMain
section OccupantsExamples

theorem GoMap.mem_of_get? {κ ν : Type} [DecidableEq κ] (m : GoMap κ ν) (k : κ) (v : ν)
    (h : GoMap.get? m k = some v) : (k, v) ∈ m := by
  induction m with
  | nil => cases h
  | cons e rest ih =>
    obtain ⟨a, b⟩ := e
    simp only [GoMap.get?] at h
    split at h
    · rename_i hk
      cases h
      subst hk
      exact List.mem_cons_self _ _
    · exact List.mem_cons_of_mem _ (ih h)

theorem monstersKeyed_of_forall (level : Level) (h : ∀ e ∈ level.Monsters, e.2.Pos = e.1) :
    level.monstersKeyed :=
  fun key m hget => h (key, m) (GoMap.mem_of_get? _ _ _ hget)

theorem levels_forall (game : Game) (P : Level → Prop) (h : ∀ e ∈ game.Levels, P e.2) :
    ∀ name l, GoMap.get? game.Levels name = some l → P l :=
  fun name l hget => h (name, l) (GoMap.mem_of_get? _ _ _ hget)

/-- Claim C20 (counterexample). In `ambushGame` each monster is keyed at its position
and no monster of either level is keyed at (1, 1), where the player stands. The player
steps right onto the portal and arrives at (3, 3) of the level b, where the bat is keyed;
the bat is updated and stays, so after the cycle a monster of the active level is keyed
at the player's position. -/
theorem occupants_exclusive_counterexample :
    (∀ name l, GoMap.get? ambushGame.Levels name = some l → l.monstersKeyed) ∧
    (∀ name l, GoMap.get? ambushGame.Levels name = some l →
      GoMap.get? l.Monsters ambushGame.Player.toPos = none) ∧
    ∃ game1 level1 bat,
      ambushGame.cycle listPQ 100 (plainInput .Right) [⟨3, 3⟩] = .ok game1 ∧
      game1.CurrentLevel = "b" ∧ game1.Player.toPos = ⟨3, 3⟩ ∧
      game1.level = .ok level1 ∧
      GoMap.get? level1.Monsters game1.Player.toPos = some bat ∧ bat.Pos = ⟨3, 3⟩ :=
  ⟨fun name l h => monstersKeyed_of_forall l
      (levels_forall ambushGame (fun l => ∀ e ∈ l.Monsters, e.2.Pos = e.1) (by decide) name l h),
    levels_forall ambushGame
      (fun l => GoMap.get? l.Monsters ambushGame.Player.toPos = none) (by decide),
    _, _, _, by with_unfolding_all rfl, by with_unfolding_all rfl, by with_unfolding_all rfl,
    by with_unfolding_all rfl, by with_unfolding_all rfl, by with_unfolding_all rfl⟩

/-- The scout in the lit hall steps left while the bat at (3, 3) approaches: after the
cycle the bat is keyed at its position, which is not the player's, and it is still the
only monster. -/
theorem occupants_exclusive_witness :
    ∃ game1 game0 level0 level1,
      (hallGame litBatLevel ⟨2, 2⟩).cycle listPQ 100 (plainInput .Left) [⟨3, 3⟩] = .ok game1 ∧
      (hallGame litBatLevel ⟨2, 2⟩).handleInput (plainInput .Left) = .ok game0 ∧
      game0.level = .ok level0 ∧ game1.level = .ok level1 ∧
      GoMap.get? level1.Monsters game1.Player.toPos = none ∧ level1.monstersKeyed ∧
      (level0.monstersAlive → level1.monsterCount = level0.monsterCount) := by
  obtain ⟨game1, hrun⟩ : ∃ g,
      (hallGame litBatLevel ⟨2, 2⟩).cycle listPQ 100 (plainInput .Left) [⟨3, 3⟩] = .ok g :=
    ⟨_, by with_unfolding_all rfl⟩
  obtain ⟨game0, level0, level1, h⟩ :=
    occupants_exclusive listPQ 100 (hallGame litBatLevel ⟨2, 2⟩) game1 litBatLevel
      (plainInput .Left) [⟨3, 3⟩] ⟨1, 2⟩ (by decide) (by decide)
      (fun name l h => monstersKeyed_of_forall l
        (levels_forall (hallGame litBatLevel ⟨2, 2⟩) (fun l => ∀ e ∈ l.Monsters, e.2.Pos = e.1)
          (by decide) name l h))
      (levels_forall (hallGame litBatLevel ⟨2, 2⟩)
        (fun l => GoMap.get? l.Monsters (hallGame litBatLevel ⟨2, 2⟩).Player.toPos = none)
        (by decide))
      (fun levelAndPos linked _ _ hp => by cases hp)
      hrun
  exact ⟨game1, game0, level0, level1, hrun, h⟩

end OccupantsExamples

section SightInGrid

theorem canSeeThrough_of_tile (level : Level) (pos : Pos) (t : Tile)
    (ht : tileAt level pos = .ok t) : ∃ b, canSeeThrough level pos = .ok b := by
  have hne : level.Map ≠ [] := by
    intro hm
    obtain ⟨-, -, row, hrow, -⟩ := (tileAt_eq_ok_iff level pos t).mp ht
    rw [hm] at hrow
    simp at hrow
  unfold canSeeThrough
  rw [inRange_eq level pos hne]
  simp only [Outcome.bind]
  split
  · rw [ht]
    simp only []
    split_ifs <;> exact ⟨_, rfl⟩
  · exact ⟨_, rfl⟩

theorem Level.framed_of_sameTerrain (a b : Level) (w h : Int) (hsame : SameTerrain a b)
    (ha : a.framed w h) : b.framed w h := by
  intro pos h1 h2 h3 h4
  obtain ⟨⟨t, ht⟩, hborder⟩ := ha pos h1 h2 h3 h4
  refine ⟨?_, fun hb => ?_⟩
  · have h2 := hsame.2 pos
    rw [ht] at h2
    cases hbt : tileAt b pos with
    | ok tb => exact ⟨tb, rfl⟩
    | panic m => rw [hbt] at h2; simp [Outcome.map] at h2
    | outOfFuel => rw [hbt] at h2; simp [Outcome.map] at h2
  · rw [← canSeeThrough_congr a b hsame pos]
    exact hborder hb

/-- The loop of `bresenham` returns when it starts on a position of a framed rectangle:
it leaves a tile only after `canSeeThrough` has passed it, such a tile is not on the
border, and one step changes each coordinate by at most one. -/
theorem bresenhamLoop_returns (w h : Int) (steep : Bool) (deltaX deltaY ystep xstep : Int)
    (hys : ystep = 1 ∨ ystep = -1) (hxs : xstep = 1 ∨ xstep = -1) :
    ∀ (todo : Nat) (x y err : Int) (level : Level), level.framed w h →
      (0 ≤ (if steep = true then (⟨y, x⟩ : Pos) else ⟨x, y⟩).X ∧
        (if steep = true then (⟨y, x⟩ : Pos) else ⟨x, y⟩).X < w ∧
        0 ≤ (if steep = true then (⟨y, x⟩ : Pos) else ⟨x, y⟩).Y ∧
        (if steep = true then (⟨y, x⟩ : Pos) else ⟨x, y⟩).Y < h) →
      ∃ level1,
        bresenhamLoop steep deltaX deltaY ystep xstep todo x y err level = .ok level1 := by
  intro todo
  induction todo with
  | zero =>
    intro x y err level _ _
    exact ⟨level, rfl⟩
  | succ n ih =>
    intro x y err level hframed hpos
    simp only [bresenhamLoop]
    obtain ⟨hx0, hx1, hy0, hy1⟩ := hpos
    obtain ⟨⟨t, ht⟩, hborder⟩ := hframed _ hx0 hx1 hy0 hy1
    have hmark : markTile level (if steep = true then (⟨y, x⟩ : Pos) else ⟨x, y⟩)
        = .ok { level with
            Map := setTile level.Map (if steep = true then (⟨y, x⟩ : Pos) else ⟨x, y⟩)
              { t with Visible := true, Seen := true } } := by
      unfold markTile
      rw [Outcome.bind_of_ok _ ht]
    have hsame := markTile_sameTerrain _ _ _ hmark
    have hframed1 := Level.framed_of_sameTerrain _ _ w h hsame hframed
    obtain ⟨⟨t1, ht1⟩, hborder1⟩ := hframed1 _ hx0 hx1 hy0 hy1
    obtain ⟨through, hthrough⟩ := canSeeThrough_of_tile _ _ t1 ht1
    rw [Outcome.bind_of_ok _ hmark, Outcome.bind_of_ok _ hthrough]
    cases through with
    | false => exact ⟨_, rfl⟩
    | true =>
      simp only [Bool.not_true, Bool.false_eq_true, if_false]
      have hinner : ¬ ((if steep = true then (⟨y, x⟩ : Pos) else ⟨x, y⟩).X = 0 ∨
          (if steep = true then (⟨y, x⟩ : Pos) else ⟨x, y⟩).X = w - 1 ∨
          (if steep = true then (⟨y, x⟩ : Pos) else ⟨x, y⟩).Y = 0 ∨
          (if steep = true then (⟨y, x⟩ : Pos) else ⟨x, y⟩).Y = h - 1) := by
        intro hb
        have hfalse := hborder1 hb
        rw [hthrough] at hfalse
        cases hfalse
      split
      · apply ih _ _ _ _ hframed1
        cases steep with
        | true =>
          simp only [if_true] at hx0 hx1 hy0 hy1 hinner ⊢
          omega
        | false =>
          simp only [Bool.false_eq_true, if_false] at hx0 hx1 hy0 hy1 hinner ⊢
          omega
      · apply ih _ _ _ _ hframed1
        cases steep with
        | true =>
          simp only [if_true] at hx0 hx1 hy0 hy1 hinner ⊢
          omega
        | false =>
          simp only [Bool.false_eq_true, if_false] at hx0 hx1 hy0 hy1 hinner ⊢
          omega

theorem bresenham_returns (w h : Int) (level : Level) (start stop : Pos)
    (hframed : level.framed w h)
    (hstart : 0 ≤ start.X ∧ start.X < w ∧ 0 ≤ start.Y ∧ start.Y < h) :
    ∃ level1, bresenham level start stop = .ok level1 := by
  unfold bresenham
  simp only []
  have hys : ∀ a b : Int, (if a ≥ b then (-1 : Int) else 1) = 1 ∨
      (if a ≥ b then (-1 : Int) else 1) = -1 := by
    intro a b
    split
    · exact Or.inr rfl
    · exact Or.inl rfl
  by_cases hsteep : (stop.Y - start.Y).natAbs > (stop.X - start.X).natAbs
  · simp only [hsteep, decide_True, if_true]
    split
    · exact bresenhamLoop_returns w h true _ _ _ (-1) (hys _ _) (Or.inr rfl) _ _ _ _ level
        hframed (by simpa using hstart)
    · exact bresenhamLoop_returns w h true _ _ _ 1 (hys _ _) (Or.inl rfl) _ _ _ _ level
        hframed (by simpa using hstart)
  · simp only [hsteep, decide_False, Bool.false_eq_true, if_false]
    split
    · exact bresenhamLoop_returns w h false _ _ _ (-1) (hys _ _) (Or.inr rfl) _ _ _ _ level
        hframed (by simpa using hstart)
    · exact bresenhamLoop_returns w h false _ _ _ 1 (hys _ _) (Or.inl rfl) _ _ _ _ level
        hframed (by simpa using hstart)

theorem castRays_returns (w h : Int) (start : Pos)
    (hstart : 0 ≤ start.X ∧ start.X < w ∧ 0 ≤ start.Y ∧ start.Y < h) :
    ∀ (targets : List Pos) (level : Level), level.framed w h →
      ∃ level1, castRays start targets level = .ok level1 := by
  intro targets
  induction targets with
  | nil =>
    intro level _
    exact ⟨level, rfl⟩
  | cons target rest ih =>
    intro level hframed
    simp only [castRays]
    obtain ⟨levelA, hA⟩ := bresenham_returns w h level start target hframed hstart
    rw [Outcome.bind_of_ok _ hA]
    exact ih levelA (Level.framed_of_sameTerrain level levelA w h
      (bresenham_rel SameTerrain SameTerrain.same_refl (fun _ _ _ => SameTerrain.same_trans)
        markTile_sameTerrain level levelA start target hA) hframed)

theorem Level.framed_of_borderOpaque (level : Level) (hrect : level.rectangular)
    (hborder : level.borderOpaque) :
    level.framed (level.width : Int) (level.height : Int) := by
  intro pos h1 h2 h3 h4
  have hin : level.inBounds pos := ⟨h1, h2, h3, h4⟩
  exact ⟨tileAt_of_inBounds level pos (rowsCoverWidth_of_rectangular level hrect) hin,
    fun hb => hborder pos hin hb⟩

theorem inBounds_of_tileAt (level : Level) (pos : Pos) (t : Tile) (hrect : level.rectangular)
    (ht : tileAt level pos = .ok t) : level.inBounds pos := by
  obtain ⟨hy, hx, row, hrow, htile⟩ := (tileAt_eq_ok_iff level pos t).mp ht
  have hylt : pos.Y.toNat < level.Map.length := by
    by_contra hc
    rw [List.getElem?_eq_none (by omega)] at hrow
    cases hrow
  have hxlt : pos.X.toNat < row.length := by
    by_contra hc
    rw [List.getElem?_eq_none (by omega)] at htile
    cases htile
  have hmem : row ∈ level.Map := List.getElem?_mem hrow
  have hlen := hrect row hmem
  unfold Level.inBounds Level.height
  omega

/-- Claim C21. For a level with a rectangular grid whose border tiles all fail
`canSeeThrough` and a player who stands on the grid, which therefore is not empty,
`lineOfSight` returns, for every sight range: no ray indexes the grid out of range. In the
embedding every read and write of a tile goes through the bounds checks of the Go run
time and panics outside the grid, so the run has marked positions of the grid only; the
grid keeps its shape and its terrain, and every tile that is visible and seen afterwards
lies in range. -/
theorem lineOfSight_stays_in_grid (level : Level) (player : Player)
    (hrect : level.rectangular) (hborder : level.borderOpaque)
    (hin : level.inBounds player.toPos) :
    level.Map ≠ [] ∧
    ∃ level1, level.lineOfSight player = .ok level1 ∧ SameTerrain level level1 ∧
      ∀ pos, level1.Marked pos → level.inBounds pos := by
  have hne : level.Map ≠ [] := by
    intro hm
    have hh : level.height = 0 := by
      unfold Level.height
      rw [hm]
      rfl
    have := hin.2.2.2
    rw [hh] at this
    have := hin.2.2.1
    omega
  obtain ⟨level1, h1⟩ := castRays_returns (level.width : Int) (level.height : Int)
    player.toPos hin (sightTargets player.toPos player.SightRange) level
    (Level.framed_of_borderOpaque level hrect hborder)
  have hsame := lineOfSight_sameTerrain level level1 player h1
  refine ⟨hne, level1, h1, hsame, ?_⟩
  rintro pos ⟨t, ht, -, -⟩
  have h2 := hsame.2 pos
  rw [ht] at h2
  cases hl : tileAt level pos with
  | ok t0 => exact inBounds_of_tileAt level pos t0 hrect hl
  | panic m => rw [hl] at h2; simp [Outcome.map] at h2
  | outOfFuel => rw [hl] at h2; simp [Outcome.map] at h2

theorem hallLevel_borderOpaque : hallLevel.borderOpaque := by
  intro pos hin hb
  obtain ⟨x, y⟩ := pos
  obtain ⟨h1, h2, h3, h4⟩ := hin
  have hw : (hallLevel.width : Int) = 5 := by decide
  have hh : (hallLevel.height : Int) = 5 := by decide
  unfold Level.onBorder at hb
  simp only [hw, hh] at h1 h2 h3 h4 hb
  have hx : x = 0 ∨ x = 1 ∨ x = 2 ∨ x = 3 ∨ x = 4 := by omega
  have hy : y = 0 ∨ y = 1 ∨ y = 2 ∨ y = 3 ∨ y = 4 := by omega
  rcases hx with rfl | rfl | rfl | rfl | rfl <;>
    rcases hy with rfl | rfl | rfl | rfl | rfl <;>
    first
      | decide
      | omega

/-- The hero, whose sight range is 7, in the middle of the hall, whose floor of 3 by 3
tiles lies inside a wall: every ray ends on the wall at the latest. -/
theorem lineOfSight_stays_in_grid_witness :
    hallLevel.Map ≠ [] ∧
    ∃ level1, hallLevel.lineOfSight { toCharacter := heroAt ⟨2, 2⟩ } = .ok level1 ∧
      SameTerrain hallLevel level1 ∧ ∀ pos, level1.Marked pos → hallLevel.inBounds pos :=
  lineOfSight_stays_in_grid hallLevel { toCharacter := heroAt ⟨2, 2⟩ }
    (by unfold Level.rectangular; decide) hallLevel_borderOpaque (by decide)

end SightInGrid

end Rpg
